import Mathlib

/-!
# Feather INI Parser 2.0 (`INI.h`): embedding and verified properties

The header is embedded shallowly:

* `fini_string_t` (`std::string`) is the list of its characters; `std::string::npos`
  is the position `none`.
* `std::map` is a list of pairs kept in ascending key order (`str_lt` is
  `operator<` on strings); `find`, `operator[]`, `emplace` and `erase` act on it.
* `keys_t *` is an address into the free store `INI.heap` (objects made by
  `new keys_t`, never deleted by the code); `nullptr` is `none`.
* a member function is a function from the object before the call to an
  `Outcome`: normal return with the object after the call, `throw` with the object
  left behind, or undefined behaviour (dereferencing a null pointer).
* files are their contents: the input stream is the text read through
  `std::getline`, the output stream is the text written.
-/

namespace FeatherINI

/-! ## Strings -/

/-- The type `fini_string_t` (`std::string`): the sequence of its characters. -/
abbrev fini_string_t := List Char

/-- Default argument `"\t\v\f; "` of `l_trim`, `r_trim` and `trim`. -/
def default_trim_chars : fini_string_t := ['\t', '\x0b', '\x0c', ';', ' ']

/-- Member `str.find_first_not_of(chars)`: the first position holding a character
outside `chars`; `none` is `npos`. -/
def find_first_not_of (chars : fini_string_t) : fini_string_t → Option Nat
  | [] => none
  | c :: cs => if c ∈ chars then (find_first_not_of chars cs).map (· + 1) else some 0

/-- Member `str.find_last_not_of(chars)`: the last position holding a character
outside `chars`; `none` is `npos`. -/
def find_last_not_of (chars : fini_string_t) : fini_string_t → Option Nat
  | [] => none
  | c :: cs =>
    match find_last_not_of chars cs with
    | some p => some (p + 1)
    | none => if c ∈ chars then none else some 0

/-- Member `str.find(ch)`: the first position of the character; `none` is `npos`. -/
def find_char (ch : Char) : fini_string_t → Option Nat
  | [] => none
  | c :: cs => if c = ch then some 0 else (find_char ch cs).map (· + 1)

/-- Whether `str` begins with `pat`. -/
def starts_with : fini_string_t → fini_string_t → Bool
  | [], _ => true
  | _ :: _, [] => false
  | p :: ps, c :: cs => p = c && starts_with ps cs

/-- Member `str.find(pat)` for a string pattern: the first position where `pat`
occurs; `none` is `npos`. -/
def find_str (pat : fini_string_t) : fini_string_t → Option Nat
  | [] => if pat = [] then some 0 else none
  | c :: cs => if starts_with pat (c :: cs) then some 0 else (find_str pat cs).map (· + 1)

/-- Member `str.erase(pos, count)`; the count `none` is `npos` (erase to the end). -/
def erase (str : fini_string_t) (pos : Nat) (count : Option Nat) : fini_string_t :=
  match count with
  | none => str.take pos
  | some n => str.take pos ++ str.drop (pos + n)

/-- Member `str.substr(pos, count)`; the count `none` is `npos` (up to the end). -/
def substr (str : fini_string_t) (pos : Nat) (count : Option Nat) : fini_string_t :=
  match count with
  | none => str.drop pos
  | some n => (str.drop pos).take n

/-- Function `l_trim`: `str.erase(0, str.find_first_not_of(trim_chars))`. -/
def l_trim (str trim_chars : fini_string_t) : fini_string_t :=
  erase str 0 (find_first_not_of trim_chars str)

/-- Function `r_trim`: `str.erase(str.find_last_not_of(trim_chars) + 1)`. The sum is
computed in `size_t`, where `npos + 1` wraps around to `0`. -/
def r_trim (str trim_chars : fini_string_t) : fini_string_t :=
  erase str (match find_last_not_of trim_chars str with
             | none => 0
             | some p => p + 1) none

/-- Function `trim`: `l_trim(r_trim(str, trim_chars), trim_chars)`. -/
def trim (str trim_chars : fini_string_t) : fini_string_t :=
  l_trim (r_trim str trim_chars) trim_chars

/-- The lines that the loop `while (std::getline(file, line))` reads from a stream
holding `text`, given the characters `cur` already read into the current line.
A final line without newline is still delivered; at the end of the text with
nothing read the extraction fails and the loop ends. -/
def getlines_from (cur : fini_string_t) : fini_string_t → List fini_string_t
  | [] => if cur = [] then [] else [cur]
  | c :: cs => if c = '\n' then cur :: getlines_from [] cs else getlines_from (cur ++ [c]) cs

/-- The successive results of `std::getline` on a stream holding `text`. -/
def getlines (text : fini_string_t) : List fini_string_t := getlines_from [] text

/-! ## `std::map` with string keys -/

/-- Comparison `operator<` of `std::string`, the ordering of both maps:
lexicographic on the character codes. -/
def str_lt : fini_string_t → fini_string_t → Bool
  | _, [] => false
  | [], _ :: _ => true
  | a :: as, b :: bs =>
    if a < b then true
    else if b < a then false
    else str_lt as bs

/-- Member `m.find(k)`: the mapped value, `none` is `m.end()`. -/
def map_find {β : Type} (m : List (fini_string_t × β)) (k : fini_string_t) : Option β :=
  match m with
  | [] => none
  | (k', v) :: rest => if k' = k then some v else map_find rest k

/-- Assignment `m[k] = v`: replaces the value of `k`, or inserts the pair at its
place in the key order. -/
def map_assign {β : Type} (m : List (fini_string_t × β)) (k : fini_string_t) (v : β) :
    List (fini_string_t × β) :=
  match m with
  | [] => [(k, v)]
  | (k', v') :: rest =>
    if str_lt k k' then (k, v) :: (k', v') :: rest
    else if k = k' then (k, v) :: rest
    else (k', v') :: map_assign rest k v

/-- Member `m.emplace(k, v)`: inserts the pair unless the key is already there. -/
def map_emplace {β : Type} (m : List (fini_string_t × β)) (k : fini_string_t) (v : β) :
    List (fini_string_t × β) :=
  if (map_find m k).isSome then m else map_assign m k v

/-- Member `m.erase(k)`. -/
def map_erase {β : Type} (m : List (fini_string_t × β)) (k : fini_string_t) :
    List (fini_string_t × β) :=
  m.filter (fun kv => kv.1 ≠ k)

/-! ## The class `INI` -/

/-- Type `keys_t`: `std::map<fini_string_t, fini_string_t>`. -/
abbrev keys_t := List (fini_string_t × fini_string_t)

/-- Type `sections_t`: `std::map<fini_string_t, keys_t *>`; a pointer is an address
of the free store. -/
abbrev sections_t := List (fini_string_t × Nat)

/-- Enumeration `source_e`. -/
inductive source_e where
  | SOURCE_FILE
  | SOURCE_MEMORY
  deriving DecidableEq, Repr

/-- Enumerators of `save_e`. -/
def SAVE_PRUNE : Nat := 1
def SAVE_PADDING_SECTIONS : Nat := 2
def SAVE_SPACE_SECTIONS : Nat := 4
def SAVE_SPACE_KEYS : Nat := 8
def SAVE_TAB_KEYS : Nat := 16
def SAVE_SEMICOLON_KEYS : Nat := 32

/-- Enumerators of `parse_e`. -/
def PARSE_COMMENTS_SLASH : Nat := 1
def PARSE_COMMENTS_HASH : Nat := 2
def PARSE_COMMENTS_ALL : Nat := 4

/-- The test `flags & bit` of a flag word, as a condition. -/
def has_flag (flags bit : Nat) : Bool := flags &&& bit != 0

/-- Conversion of an `int` to `unsigned int`. -/
def to_unsigned (n : Int) : Nat := (n % 2 ^ 32).toNat

/-- The data members of an `INI` object together with the free store its pointers
refer to. `filename` only names the file, whose contents are passed to `parse`
and returned by `save`. -/
structure INI where
  source : source_e
  heap : List keys_t
  current : Option Nat
  sections : sections_t
  deriving DecidableEq, Repr

/-- What the code reports on `std::cerr` before `throw std::exception()`. -/
inductive error_t where
  | duplicate_section (name : fini_string_t)
  | parse_duplicate_section (name : fini_string_t) (line : Nat)
  | parse_duplicate_key (key : fini_string_t) (line : Nat)
  deriving DecidableEq, Repr

/-- Result of running a member function: `ret a doc` is a normal return of `a`
with the object now `doc`; `threw e doc` is an exception leaving the object as
`doc`; `undefined` is a dereference of a null (or invalid) pointer. -/
inductive Outcome (α : Type) where
  | ret (a : α) (doc : INI)
  | threw (e : error_t) (doc : INI)
  | undefined
  deriving DecidableEq, Repr

/-- Sequencing of two steps: an exception or undefined behaviour ends the run. -/
def Outcome.bind {α β : Type} (o : Outcome α) (f : α → INI → Outcome β) : Outcome β :=
  match o with
  | .ret a d => f a d
  | .threw e d => .threw e d
  | .undefined => .undefined

/-- The object a run leaves behind, when its behaviour is defined. -/
def Outcome.doc? {α : Type} : Outcome α → Option INI
  | .ret _ d => some d
  | .threw _ d => some d
  | .undefined => none

/-- Whether the run ended with an exception. -/
def Outcome.raised {α : Type} : Outcome α → Bool
  | .threw _ _ => true
  | _ => false

/-- The target type `T` of a call `getAs<T>`: the text type `fini_string_t` itself, or
another type with its specialisation of `convert_to`. -/
inductive target_t where
  | text
  | other (T : Type) (convert_to : fini_string_t → T)

/-- The type that a target stands for. -/
def target_t.type : target_t → Type
  | .text => fini_string_t
  | .other T _ => T

namespace INI

/-- The members before a constructor body runs: `current{}` and an empty map. -/
def blank (source : source_e) : INI :=
  { source := source, heap := [], current := none, sections := [] }

/-- The pointee `*p`, when `p` is a valid non-null pointer. -/
def deref (doc : INI) (p : Option Nat) : Option keys_t :=
  match p with
  | none => none
  | some a => doc.heap[a]?

/-- Method `INI::create`. -/
def create (doc : INI) (sec : fini_string_t) : Outcome Unit :=
  if sec ≠ [] ∧ (map_find doc.sections sec).isSome then
    .threw (.duplicate_section sec) doc
  else
    .ret () { doc with
      heap := doc.heap ++ [[]]
      current := some doc.heap.length
      sections := map_assign doc.sections sec doc.heap.length }

/-- Method `INI::select`. -/
def select (doc : INI) (sec : fini_string_t) (noCreate : Bool) : Outcome Bool :=
  match map_find doc.sections sec with
  | none =>
    if !noCreate then (doc.create sec).bind (fun _ d => .ret false d)
    else .ret false doc
  | some p => .ret true { doc with current := some p }

/-- Method `INI::remove`. -/
def remove (doc : INI) (sec : fini_string_t) : Outcome Unit :=
  (doc.select sec true).bind fun found d =>
    let d := if found then { d with sections := map_erase d.sections sec } else d
    .ret () { d with current := none }

/-- Method `INI::clear`. -/
def clear (doc : INI) : Outcome Unit :=
  .ret () { doc with sections := [] }

/-- Method `INI::get(key, def)`, the lookup in the current section. -/
def get_key (doc : INI) (key dflt : fini_string_t) : Outcome fini_string_t :=
  match doc.deref doc.current with
  | none => .undefined
  | some ks =>
    match map_find ks key with
    | none => .ret dflt doc
    | some v => .ret v doc

/-- Method `INI::get(section, key, def)`. -/
def get (doc : INI) (sec key dflt : fini_string_t) : Outcome fini_string_t :=
  (doc.select sec false).bind fun _ d => d.get_key key dflt

/-- Method `INI::set(key, value)`, the assignment in the current section. -/
def set_key (doc : INI) (key value : fini_string_t) : Outcome Unit :=
  match doc.current with
  | none => .undefined
  | some p =>
    match doc.heap[p]? with
    | none => .undefined
    | some ks => .ret () { doc with heap := doc.heap.set p (map_assign ks key value) }

/-- Method `INI::set(section, key, value)`. -/
def set (doc : INI) (sec key value : fini_string_t) : Outcome Unit :=
  ((doc.select sec false).bind fun found d =>
    if !found then d.create sec else .ret () d).bind fun _ d => d.set_key key value

/-- Method `INI::operator[]`: the address of the selected section body. -/
def index (doc : INI) (sec : fini_string_t) : Outcome Nat :=
  (doc.select sec false).bind fun _ d =>
    match d.current with
    | none => .undefined
    | some p => .ret p d

/-! ### Parsing -/

/-- The local variables of `_parseFile`. -/
structure locals where
  sec : fini_string_t
  i : Nat
  local_current : Option Nat
  deriving DecidableEq, Repr

/-- The two comment steps at the head of the loop body of `_parseFile`. -/
def strip_comments (parseFlags : Nat) (line : fini_string_t) : fini_string_t :=
  let line :=
    if has_flag parseFlags PARSE_COMMENTS_SLASH || has_flag parseFlags PARSE_COMMENTS_ALL then
      substr line 0 (find_str ['/', '/'] line)
    else line
  let line :=
    if has_flag parseFlags PARSE_COMMENTS_HASH || has_flag parseFlags PARSE_COMMENTS_ALL then
      substr line 0 (find_char '#' line)
    else line
  line

/-- One iteration of the loop body of `_parseFile` after `i++`, on the line just
read. -/
def parse_line (parseFlags : Nat) (doc : INI) (loc : locals) (line : fini_string_t) :
    Outcome locals :=
  let line := strip_comments parseFlags line
  let line := trim line default_trim_chars
  match line with
  | [] => .ret loc doc
  | c :: _ =>
    if '[' = c then
      let line := trim line ['[', ']', ' ']
      let sec := line
      let loc := if sec = [] then { loc with local_current := doc.current } else loc
      if (map_find doc.sections sec).isSome then
        .threw (.parse_duplicate_section sec loc.i) doc
      else
        .ret { loc with sec := sec, local_current := some doc.heap.length }
          { doc with
            heap := doc.heap ++ [[]]
            sections := map_assign doc.sections sec doc.heap.length }
    else
      match find_char '=' line with
      | none => .ret loc doc
      | some indexEquals =>
        let key := r_trim (substr line 0 (some indexEquals)) default_trim_chars
        let value := l_trim (substr line (indexEquals + 1) none) default_trim_chars
        match loc.local_current with
        | none => .undefined
        | some p =>
          match doc.heap[p]? with
          | none => .undefined
          | some ks =>
            if (map_find ks key).isSome then
              .threw (.parse_duplicate_key key loc.i) doc
            else
              .ret loc { doc with heap := doc.heap.set p (map_emplace ks key value) }

/-- The loop of `_parseFile` over the lines still to be read; it returns the
locals as they are when the loop ends. -/
def parse_loop (parseFlags : Nat) : INI → locals → List fini_string_t → Outcome locals
  | doc, loc, [] => .ret loc doc
  | doc, loc, line :: rest =>
    match parse_line parseFlags doc { loc with i := loc.i + 1 } line with
    | .ret loc' doc' => parse_loop parseFlags doc' loc' rest
    | .threw e d => .threw e d
    | .undefined => .undefined

/-- The locals of `_parseFile` when the loop is entered. -/
def parse_start (doc : INI) : locals :=
  { sec := [], i := 0, local_current := doc.current }

/-- Method `INI::_parseFile` on the line sequence of the stream. -/
def parse_lines (doc : INI) (lines : List fini_string_t) (parseFlags : Nat) : Outcome Unit :=
  (parse_loop parseFlags doc (parse_start doc) lines).bind fun _ d => .ret () d

/-- Method `INI::_parseFile` on a stream holding `file`. -/
def _parseFile (doc : INI) (file : fini_string_t) (parseFlags : Nat) : Outcome Unit :=
  doc.parse_lines (getlines file) parseFlags

/-- Method `INI::parse`. `PARSE_FLAGS` is the static member of that name; `file` is
the contents of the file `filename`, `none` when it cannot be opened. -/
def parse (doc : INI) (PARSE_FLAGS : Int) (file : Option fini_string_t) (parseFlags : Int) :
    Outcome Bool :=
  let parseFlags := if parseFlags > 0 then parseFlags else PARSE_FLAGS
  match doc.source with
  | .SOURCE_FILE =>
    match file with
    | none => .ret false doc
    | some text => (doc._parseFile text (to_unsigned parseFlags)).bind fun _ d => .ret true d
  | .SOURCE_MEMORY => .ret true doc

/-- Constructor `INI::INI(filename, doParse, parseFlags)`. -/
def init (PARSE_FLAGS : Int) (file : Option fini_string_t) (doParse : Bool) (parseFlags : Int) :
    Outcome Unit :=
  ((blank .SOURCE_FILE).create []).bind fun _ d =>
    if doParse then (d.parse PARSE_FLAGS file parseFlags).bind fun _ d => .ret () d
    else .ret () d

/-- Copy constructor `INI::INI(const INI &from)`: the inner loop over the keys of
one section. -/
def copy_keys (d : INI) : keys_t → Outcome Unit
  | [] => .ret () d
  | (k, v) :: rest => (d.set_key k v).bind fun _ d => copy_keys d rest

/-- Copy constructor `INI::INI(const INI &from)`: the loop over the sections of
`from` still to be copied; `*i.second` is read in the free store as it is then. -/
def copy_sections (d : INI) : sections_t → Outcome Unit
  | [] => .ret () d
  | (name, p) :: rest =>
    (d.select name false).bind fun _ d =>
      match d.heap[p]? with
      | none => .undefined
      | some ks => (copy_keys d ks).bind fun _ d => copy_sections d rest

/-- Copy constructor `INI::INI(const INI &from)`. The new object starts with
`current{}` and an empty section map, in the free store that holds the objects
of `from`. -/
def copy (src : INI) : Outcome Unit :=
  copy_sections { source := src.source, heap := src.heap, current := none, sections := [] }
    src.sections

/-- Method `INI::getAs<T>(key, def)`, the two-argument overload: the converted lookup
in the current section; `convert_to` is the specialisation `convert_to<T>`. -/
def getAs_key {T : Type} (convert_to : fini_string_t → T) (doc : INI) (key : fini_string_t)
    (dflt : T) : Outcome T :=
  match doc.deref doc.current with
  | none => .undefined
  | some ks =>
    match map_find ks key with
    | none => .ret dflt doc
    | some v => .ret (convert_to v) doc

/-- Method `INI::getAs<T>(section, key, def)` for `T = fini_string_t`. Its inner call
`getAs<T>(key, def)` has two arguments of type `fini_string_t`, for which overload
resolution picks the three-argument overload again (its parameters
`const fini_string_t &, fini_string_t` need no deduction and `def` has a default),
with `section := key`, `key := def`, `def := T()`: the method calls itself after
every `select`. `fuel` bounds the depth of the calls; `none` means that the depth
was not enough for a result. -/
def getAs_text : Nat → INI → fini_string_t → fini_string_t → fini_string_t →
    Option (Outcome fini_string_t)
  | 0, _, _, _, _ => none
  | fuel + 1, doc, sec, key, dflt =>
    match doc.select sec false with
    | .ret _ d => getAs_text fuel d key dflt []
    | .threw e d => some (.threw e d)
    | .undefined => some .undefined

/-- Method `INI::getAs<T>(section, key, def)` at the target type `t`: for
`fini_string_t` the self-calling `getAs_text`; for another type the inner call
`getAs<T>(key, def)` is the two-argument overload. -/
def getAs (t : target_t) (fuel : Nat) (doc : INI) (sec key : fini_string_t)
    (dflt : t.type) : Option (Outcome t.type) :=
  match t, dflt with
  | .text, dflt => getAs_text fuel doc sec key dflt
  | .other _ convert_to, dflt =>
    some ((doc.select sec false).bind fun _ d => d.getAs_key convert_to key dflt)

/-! ### Saving -/

/-- One group of writes to the output stream of `save`: the header of a section,
the line of a key, or the newline that pads a section. -/
inductive out_t where
  | section_line (name : fini_string_t)
  | key_line (sec key value : fini_string_t)
  | padding
  deriving DecidableEq, Repr

/-- The characters a group of writes puts on the stream (`std::endl` is a
newline). -/
def out_t.text (saveFlags : Nat) : out_t → fini_string_t
  | .section_line name =>
    if has_flag saveFlags SAVE_SPACE_SECTIONS then
      ['[', ' '] ++ name ++ [' ', ']'] ++ ['\n']
    else
      ['['] ++ name ++ [']'] ++ ['\n']
  | .key_line sec key value =>
    (if has_flag saveFlags SAVE_TAB_KEYS && !sec.isEmpty then ['\t'] else []) ++
    (if has_flag saveFlags SAVE_SPACE_KEYS then key ++ [' ', '=', ' '] ++ value
     else key ++ ['='] ++ value) ++
    (if has_flag saveFlags SAVE_SEMICOLON_KEYS then [';'] else []) ++
    ['\n']
  | .padding => ['\n']

/-- The inner loop of `save` over the keys of the section `name`. -/
def save_keys (saveFlags : Nat) (name : fini_string_t) : keys_t → List out_t
  | [] => []
  | (k, v) :: rest =>
    if has_flag saveFlags SAVE_PRUNE && v.isEmpty then save_keys saveFlags name rest
    else .key_line name k v :: save_keys saveFlags name rest

/-- The body of the outer loop of `save` for one section with keys `ks`. -/
def save_section (saveFlags : Nat) (name : fini_string_t) (ks : keys_t) : List out_t :=
  if has_flag saveFlags SAVE_PRUNE && ks.isEmpty then []
  else
    (if !name.isEmpty then [.section_line name] else []) ++
    save_keys saveFlags name ks ++
    (if has_flag saveFlags SAVE_PADDING_SECTIONS then [.padding] else [])

/-- The outer loop of `save` over the sections still to be written; `none` when a
section pointer is invalid. -/
def save_sections (saveFlags : Nat) (heap : List keys_t) : sections_t → Option (List out_t)
  | [] => some []
  | (name, p) :: rest =>
    match heap[p]? with
    | none => none
    | some ks =>
      match save_sections saveFlags heap rest with
      | none => none
      | some outs => some (save_section saveFlags name ks ++ outs)

/-- The flag word `save` works with: its argument when positive, else the static
member `SAVE_FLAGS`. -/
def save_flags (SAVE_FLAGS : Int) (saveFlags : Nat) : Nat :=
  if saveFlags > 0 then saveFlags else to_unsigned SAVE_FLAGS

/-- The groups of writes of `save`, in order. -/
def save_outs (doc : INI) (SAVE_FLAGS : Int) (saveFlags : Nat) : Option (List out_t) :=
  save_sections (save_flags SAVE_FLAGS saveFlags) doc.heap doc.sections

/-- Method `INI::save`: the returned flag and the text written to the file;
`is_open` tells whether the file could be opened; `none` when a section pointer
is invalid. -/
def save (doc : INI) (SAVE_FLAGS : Int) (is_open : Bool) (saveFlags : Nat) :
    Option (Bool × fini_string_t) :=
  if !is_open then some (false, [])
  else
    match doc.save_outs SAVE_FLAGS saveFlags with
    | none => none
    | some outs =>
      some (true, (outs.map (out_t.text (save_flags SAVE_FLAGS saveFlags))).flatten)

end INI

/-- Initial value of the static members `INI::PARSE_FLAGS` and `INI::SAVE_FLAGS`. -/
def PARSE_FLAGS : Int := 0
def SAVE_FLAGS : Int := 0

/-- The object built by `INI(filename, false)`. -/
def fresh : INI :=
  { source := .SOURCE_FILE, heap := [[]], current := some 0, sections := [([], 0)] }

/-! ## Specification vocabulary -/

/-- Ascending key order without repeated keys: how `std::map` holds its pairs. -/
def ordered {β : Type} (m : List (fini_string_t × β)) : Prop :=
  m.Pairwise (fun a b => str_lt a.1 b.1 = true)

instance ordered_decidable {β : Type} (m : List (fini_string_t × β)) : Decidable (ordered m) := by
  unfold ordered
  infer_instance

/-- Representation invariant of an `INI` object: both kinds of map are ordered,
every section owns a live object of the free store, no two sections share one,
and `current` is null or points to a live object. -/
structure INI.WF (doc : INI) : Prop where
  sections_ordered : ordered doc.sections
  sections_live : ∀ x ∈ doc.sections, x.2 < doc.heap.length
  sections_apart : doc.sections.Pairwise (fun a b => a.2 ≠ b.2)
  keys_ordered : ∀ ks ∈ doc.heap, ordered ks
  current_live : ∀ p, doc.current = some p → p < doc.heap.length

/-- The body of section `sec`, when the section exists. -/
def INI.body (doc : INI) (sec : fini_string_t) : Option keys_t :=
  doc.deref (map_find doc.sections sec)

/-- The mapping section -> key -> value that a document denotes, sections and keys
in map order. -/
def INI.mapping (doc : INI) : List (fini_string_t × Option keys_t) :=
  doc.sections.map (fun x => (x.1, doc.heap[x.2]?))

/-- The calls `set(sec, key, v1)`, ..., `set(sec, key, vn)` made one after the
other. -/
def INI.set_all (doc : INI) (sec key : fini_string_t) : List fini_string_t → Outcome Unit
  | [] => .ret () doc
  | v :: vs => (doc.set sec key v).bind fun _ d => d.set_all sec key vs

/-- A document with an empty section `A` besides the default section, as left by
`create("A")` on a new object. -/
def doc_A : INI :=
  { source := .SOURCE_FILE, heap := [[], []], current := some 1,
    sections := [([], 0), (['A'], 1)] }

/-- A document with the key `x` of empty value in section `A` and an empty section
`B`, as left by `create("A")`, `set("x", "")`, `create("B")` on a new object. -/
def doc_AB : INI :=
  { source := .SOURCE_FILE, heap := [[], [(['x'], [])], []], current := some 2,
    sections := [([], 0), (['A'], 1), (['B'], 2)] }

/-- A document whose section `A` holds only the key `x` of empty value, as left by
`create("A")`, `set("x", "")` on a new object. -/
def doc_Ax : INI :=
  { source := .SOURCE_FILE, heap := [[], [(['x'], [])]], current := some 1,
    sections := [([], 0), (['A'], 1)] }

/-- The part of a line before its first `#` (the whole line when it has none). -/
def before_hash : fini_string_t → fini_string_t
  | [] => []
  | c :: cs => if c = '#' then [] else c :: before_hash cs

/-- The part of a line before its first `//` (the whole line when it has none). -/
def before_slashes : fini_string_t → fini_string_t
  | [] => []
  | [c] => [c]
  | c :: d :: rest => if c = '/' ∧ d = '/' then [] else c :: before_slashes (d :: rest)

/-- What a line is to the parser. -/
inductive line_kind where
  | blank
  | section_header (name : fini_string_t)
  | key_value (key value : fini_string_t)
  | inert
  deriving DecidableEq, Repr

/-- The kind of a line under the given parse flags: blank when nothing is left
after comment stripping and trimming, a section header with its extracted name
when what is left begins with `[`, a key line with its key and value when it holds
a `=`, and inert otherwise. -/
def classify (parseFlags : Nat) (line : fini_string_t) : line_kind :=
  match trim (INI.strip_comments parseFlags line) default_trim_chars with
  | [] => .blank
  | c :: rest =>
    if '[' = c then .section_header (trim (c :: rest) ['[', ']', ' '])
    else
      match find_char '=' (c :: rest) with
      | none => .inert
      | some i =>
        .key_value (r_trim (substr (c :: rest) 0 (some i)) default_trim_chars)
          (l_trim (substr (c :: rest) (i + 1) none) default_trim_chars)

/-- Whether a line is a section header. -/
def is_header (parseFlags : Nat) (line : fini_string_t) : Bool :=
  match classify parseFlags line with
  | .section_header _ => true
  | _ => false

/-- The name of the active section after one more line. -/
def next_section (parseFlags : Nat) (acc line : fini_string_t) : fini_string_t :=
  match classify parseFlags line with
  | .section_header name => name
  | _ => acc

/-- The name of the section that is active after the given lines: the name of the
last section header among them, and the unnamed section when there is none. -/
def active_section (parseFlags : Nat) (lines : List fini_string_t) : fini_string_t :=
  lines.foldl (next_section parseFlags) []

/-- The parser can go on from these locals: `local_current` points to a live object
and the unnamed section is in the section map. -/
def parser_ready (doc : INI) (loc : INI.locals) : Prop :=
  (∃ p, loc.local_current = some p ∧ p < doc.heap.length) ∧
  (map_find doc.sections []).isSome = true

/-- The key/value pairs of the key lines among the given lines, in order. -/
def key_values (parseFlags : Nat) (lines : List fini_string_t) :
    List (fini_string_t × fini_string_t) :=
  lines.filterMap fun line =>
    match classify parseFlags line with
    | .key_value k v => some (k, v)
    | _ => none

/-- Whether a string begins with a character of `cs`. -/
def begins_in (cs : fini_string_t) : fini_string_t → Bool
  | [] => false
  | c :: _ => decide (c ∈ cs)

/-- Whether a string ends with a character of `cs`. -/
def ends_in (cs : fini_string_t) (s : fini_string_t) : Bool :=
  begins_in cs s.reverse

/-- A name or value as the round-trip property takes it: it contains none of `=`,
`[`, `]`, `#` and `//`. -/
def plain (s : fini_string_t) : Prop :=
  '=' ∉ s ∧ '[' ∉ s ∧ ']' ∉ s ∧ '#' ∉ s ∧ find_str ['/', '/'] s = none

/-- A name or value that the parser reads back unchanged: it contains no newline
and neither begins nor ends with a trim character (tab, vertical tab, form feed,
`;`, space). -/
def tidy (s : fini_string_t) : Prop :=
  '\n' ∉ s ∧ begins_in default_trim_chars s = false ∧ ends_in default_trim_chars s = false

/-- A name or value that is both `plain` and `tidy`. -/
def storable (s : fini_string_t) : Prop := plain s ∧ tidy s

instance plain_decidable (s : fini_string_t) : Decidable (plain s) := by
  unfold plain
  infer_instance

instance storable_decidable (s : fini_string_t) : Decidable (storable s) := by
  unfold storable plain tidy
  infer_instance

/-- No condition on a name or value. -/
def any_text (_ : fini_string_t) : Prop := True

/-- A section name that the parser reads back unchanged from its header line: it is
`plain`, contains no newline and neither begins nor ends with a space (the name
of a header is trimmed of `[`, `]` and space only). -/
def header_name (s : fini_string_t) : Prop :=
  plain s ∧ '\n' ∉ s ∧ begins_in [' '] s = false ∧ ends_in [' '] s = false

instance header_name_decidable (s : fini_string_t) : Decidable (header_name s) := by
  unfold header_name
  infer_instance

/-- The names and values that a document holds meet the given conditions: the name
of every named section meets `okname`, and in every section every key meets
`okkey` and every value meets `okvalue`. -/
def INI.holds (okname okkey okvalue : fini_string_t → Prop) (doc : INI) : Prop :=
  (∀ x ∈ doc.sections, x.1 ≠ [] → okname x.1) ∧
  (∀ x ∈ doc.sections, ∀ kv ∈ doc.heap[x.2]?.getD [], okkey kv.1 ∧ okvalue kv.2)

instance holds_decidable (okname okkey okvalue : fini_string_t → Prop)
    [DecidablePred okname] [DecidablePred okkey] [DecidablePred okvalue] (doc : INI) :
    Decidable (doc.holds okname okkey okvalue) := by
  unfold INI.holds
  infer_instance

/-- The documents built from a new one by `create`, `set(key, value)` and
`set(section, key, value)` alone, with non-empty section and key names, all names
and values meeting `ok`. A call that throws leaves its document behind as well. -/
inductive Built (ok : fini_string_t → Prop) : INI → Prop where
  | new : Built ok fresh
  | create (d d' : INI) (name : fini_string_t) :
      Built ok d → name ≠ [] → ok name → (d.create name).doc? = some d' → Built ok d'
  | set_key (d d' : INI) (key value : fini_string_t) :
      Built ok d → key ≠ [] → ok key → ok value →
      (d.set_key key value).doc? = some d' → Built ok d'
  | set (d d' : INI) (sec key value : fini_string_t) :
      Built ok d → sec ≠ [] → ok sec → key ≠ [] → ok key → ok value →
      (d.set sec key value).doc? = some d' → Built ok d'

/-- The round trip of a document: `save` with the default flags writes a text, and
`parse` with the default flags reads that text into a new document with success,
giving the same mapping. -/
def round_trips (d : INI) : Prop :=
  ∃ text d', d.save SAVE_FLAGS true 0 = some (true, text) ∧
    fresh.parse PARSE_FLAGS (some text) 0 = .ret true d' ∧
    d'.mapping = d.mapping

/-- The line that a group of writes of `save` makes under the flag word 0. -/
def out_line : INI.out_t → fini_string_t
  | .section_line name => ['['] ++ name ++ [']']
  | .key_line _ key value => key ++ ['='] ++ value
  | .padding => []

/-- A document with the key `k` of value ` v` (with a leading space) in section
`A`, as left by `create("A")`, `set("k", " v")` on a new object. -/
def doc_space : INI :=
  { source := .SOURCE_FILE, heap := [[], [(['k'], [' ', 'v'])]], current := some 1,
    sections := [([], 0), (['A'], 1)] }

/-- A document with the key `k` of value `v` in section `A` and the key `g` of
value `1` in the unnamed section. -/
def doc_kv : INI :=
  { source := .SOURCE_FILE, heap := [[(['g'], ['1'])], [(['k'], ['v'])]], current := some 1,
    sections := [([], 0), (['A'], 1)] }

/-- A document with the key `k` of value `v` in the section named by a tab, `A` and
`;`, and the key `g` of value `1` in the unnamed section. -/
def doc_tab : INI :=
  { source := .SOURCE_FILE, heap := [[(['g'], ['1'])], [(['k'], ['v'])]], current := some 1,
    sections := [([], 0), (['\t', 'A', ';'], 1)] }

/-- What every `Built` document satisfies: the representation invariant holds,
the unnamed section is present, and every section name but the empty one, every
key and every value meets `ok`, keys being non-empty. -/
structure INI.sound (ok : fini_string_t → Prop) (doc : INI) : Prop where
  wf : doc.WF
  default_present : (map_find doc.sections []).isSome = true
  names_ok : ∀ x ∈ doc.sections, x.1 = [] ∨ ok x.1
  entries_ok : ∀ ks ∈ doc.heap, ∀ kv ∈ ks, kv.1 ≠ [] ∧ ok kv.1 ∧ ok kv.2

/-- The sections of a document with their bodies, in the order of the section
map. -/
def INI.contents (doc : INI) : List (fini_string_t × keys_t) :=
  doc.sections.map (fun x => (x.1, doc.heap[x.2]?.getD []))

/-- Reference rendering of one key line, in the words of the specification of the
serializer: a tab (only with tab-keys, in a named section), the key, ` = ` with
space-keys and `=` otherwise, the value, `;` with semicolon-keys, a newline. -/
def reference_key_line (saveFlags : Nat) (name key value : fini_string_t) : fini_string_t :=
  (if has_flag saveFlags SAVE_TAB_KEYS = true ∧ name ≠ [] then ['\t'] else []) ++
  key ++
  (if has_flag saveFlags SAVE_SPACE_KEYS = true then [' ', '=', ' '] else ['=']) ++
  value ++
  (if has_flag saveFlags SAVE_SEMICOLON_KEYS = true then [';'] else []) ++
  ['\n']

/-- Reference rendering of one section header: none for the unnamed section,
`[ name ]` with space-sections and `[name]` otherwise, each on a line. -/
def reference_header (saveFlags : Nat) (name : fini_string_t) : fini_string_t :=
  if name = [] then []
  else if has_flag saveFlags SAVE_SPACE_SECTIONS = true then
    ['[', ' '] ++ name ++ [' ', ']', '\n']
  else ['['] ++ name ++ [']', '\n']

/-- Reference rendering of a document without prune: for each section in order
its header, the lines of its keys in order, then one blank line with
pad-sections. -/
def reference_text (saveFlags : Nat) (contents : List (fini_string_t × keys_t)) :
    fini_string_t :=
  (contents.map (fun x =>
    reference_header saveFlags x.1 ++
    (x.2.map (fun kv => reference_key_line saveFlags x.1 kv.1 kv.2)).flatten ++
    (if has_flag saveFlags SAVE_PADDING_SECTIONS = true then ['\n'] else []))).flatten

/-- A document without any section, as left by `clear()` on a new object; `current`
still points to the object that was the body of the unnamed section. -/
def doc_cleared : INI :=
  { source := .SOURCE_FILE, heap := [[]], current := some 0, sections := [] }

/-- A call of a public method that works on the document. -/
inductive call where
  | create (sec : fini_string_t)
  | remove (sec : fini_string_t)
  | select (sec : fini_string_t) (noCreate : Bool)
  | clear
  | get (sec key dflt : fini_string_t)
  | get_key (key dflt : fini_string_t)
  | set (sec key value : fini_string_t)
  | set_key (key value : fini_string_t)
  | index (sec : fini_string_t)
  deriving DecidableEq, Repr

/-- Whether the call is `remove`. -/
def call.is_remove : call → Bool
  | .remove _ => true
  | _ => false

/-- Whether the call is `clear`. -/
def call.is_clear : call → Bool
  | .clear => true
  | _ => false

/-- The document a call leaves behind, by normal return or by a throw; `none` when
the call dereferences a null pointer. -/
def INI.after (doc : INI) : call → Option INI
  | .create sec => (doc.create sec).doc?
  | .remove sec => (doc.remove sec).doc?
  | .select sec noCreate => (doc.select sec noCreate).doc?
  | .clear => doc.clear.doc?
  | .get sec key dflt => (doc.get sec key dflt).doc?
  | .get_key key dflt => (doc.get_key key dflt).doc?
  | .set sec key value => (doc.set sec key value).doc?
  | .set_key key value => (doc.set_key key value).doc?
  | .index sec => (doc.index sec).doc?

/-- The document a sequence of calls leaves behind. -/
def INI.after_all : INI → List call → Option INI
  | doc, [] => some doc
  | doc, c :: cs =>
    match doc.after c with
    | none => none
    | some d => INI.after_all d cs

/-- The cursor refers to the body of a section of the document: `current` is the
pointer that some section name maps to, and it points to a live object. -/
def INI.cursor_in_sections (doc : INI) : Prop :=
  ∃ name p, doc.current = some p ∧ map_find doc.sections name = some p ∧ p < doc.heap.length

/-- The objects of the free store `heap` that `src` points to are untouched in the
document `d`, which owns only objects allocated after them: the store of `d`
agrees with `heap` on every address of `heap`, and every section pointer of `d`
and its `current`, when not null, lie beyond those addresses. -/
def INI.apart_from (heap : List keys_t) (d : INI) : Prop :=
  heap.length ≤ d.heap.length ∧
  (∀ q, q < heap.length → d.heap[q]? = heap[q]?) ∧
  (∀ x ∈ d.sections, heap.length ≤ x.2) ∧
  (∀ p, d.current = some p → heap.length ≤ p)

/-! ## Lemmas: string order and maps -/

theorem str_lt_irrefl (a : fini_string_t) : str_lt a a = false := by
  induction a with
  | nil => rfl
  | cons c cs ih => simp [str_lt, ih]

theorem str_lt_nil_right (a : fini_string_t) : str_lt a [] = false := by
  cases a <;> rfl

theorem str_lt_trans : ∀ (a b c : fini_string_t),
    str_lt a b = true → str_lt b c = true → str_lt a c = true
  | _, [], _, h, _ => by simp [str_lt_nil_right] at h
  | _, _ :: _, [], _, h => by simp [str_lt] at h
  | [], _ :: _, _ :: _, _, _ => by simp [str_lt]
  | x :: xs, y :: ys, z :: zs, h1, h2 => by
    simp only [str_lt] at h1 h2 ⊢
    by_cases hxy : x < y
    · by_cases hyz : y < z
      · simp [lt_trans hxy hyz]
      · simp only [hyz, if_false] at h2
        by_cases hzy : z < y
        · simp [hzy] at h2
        · have : y = z := le_antisymm (not_lt.mp hzy) (not_lt.mp hyz)
          subst this
          simp [hxy]
    · simp only [hxy, if_false] at h1
      by_cases hyx : y < x
      · simp [hyx] at h1
      · have hxy' : x = y := le_antisymm (not_lt.mp hyx) (not_lt.mp hxy)
        subst hxy'
        simp only [hyx, if_false] at h1
        by_cases hxz : x < z
        · simp [hxz]
        · simp only [hxz, if_false] at h2 ⊢
          by_cases hzx : z < x
          · simp [hzx] at h2
          · simp only [hzx, if_false] at h2 ⊢
            exact str_lt_trans xs ys zs h1 h2

theorem str_lt_asymm (a b : fini_string_t) (h : str_lt a b = true) : str_lt b a = false := by
  cases hba : str_lt b a with
  | false => rfl
  | true =>
    have := str_lt_trans a b a h hba
    simp [str_lt_irrefl] at this

theorem str_lt_ne (a b : fini_string_t) (h : str_lt a b = true) : a ≠ b := by
  intro hab
  subst hab
  simp [str_lt_irrefl] at h

theorem str_lt_total : ∀ (a b : fini_string_t),
    str_lt a b = false → a ≠ b → str_lt b a = true
  | [], [], _, h => absurd rfl h
  | [], _ :: _, h, _ => by simp [str_lt] at h
  | _ :: _, [], _, _ => by simp [str_lt]
  | x :: xs, y :: ys, h, hne => by
    simp only [str_lt] at h ⊢
    by_cases hxy : x < y
    · simp [hxy] at h
    · simp only [hxy, if_false] at h ⊢
      by_cases hyx : y < x
      · simp [hyx]
      · simp only [hyx, if_false] at h ⊢
        have hxy' : x = y := le_antisymm (not_lt.mp hyx) (not_lt.mp hxy)
        subst hxy'
        exact str_lt_total xs ys h (fun hh => hne (by rw [hh]))

section maps
variable {β : Type}

theorem map_find_assign_same (m : List (fini_string_t × β)) (k : fini_string_t) (v : β) :
    map_find (map_assign m k v) k = some v := by
  induction m with
  | nil => simp [map_assign, map_find]
  | cons x rest ih =>
    obtain ⟨k', v'⟩ := x
    simp only [map_assign]
    split
    · simp [map_find]
    · split
      · simp [map_find]
      · rename_i h1 h2
        simp only [map_find]
        rw [if_neg (fun h => h2 h.symm)]
        exact ih

theorem map_find_assign_other (m : List (fini_string_t × β)) (k k' : fini_string_t) (v : β)
    (h : k' ≠ k) : map_find (map_assign m k v) k' = map_find m k' := by
  induction m with
  | nil => simp [map_assign, map_find, Ne.symm h]
  | cons x rest ih =>
    obtain ⟨k0, v0⟩ := x
    simp only [map_assign]
    split
    · simp [map_find, Ne.symm h]
    · split
      · rename_i h1 h2
        subst h2
        simp [map_find, Ne.symm h]
      · simp only [map_find]
        split
        · rfl
        · exact ih

theorem map_find_some_mem (m : List (fini_string_t × β)) (k : fini_string_t) (v : β)
    (h : map_find m k = some v) : (k, v) ∈ m := by
  induction m with
  | nil => simp [map_find] at h
  | cons x rest ih =>
    obtain ⟨k0, v0⟩ := x
    simp only [map_find] at h
    split at h
    · rename_i hk
      subst hk
      simp only [Option.some.injEq] at h
      subst h
      exact List.mem_cons_self _ _
    · exact List.mem_cons_of_mem _ (ih h)

theorem map_find_none_iff (m : List (fini_string_t × β)) (k : fini_string_t) :
    map_find m k = none ↔ ∀ x ∈ m, x.1 ≠ k := by
  induction m with
  | nil => simp [map_find]
  | cons x rest ih =>
    obtain ⟨k0, v0⟩ := x
    simp only [map_find, List.mem_cons]
    by_cases hk : k0 = k
    · rw [if_pos hk]
      constructor
      · intro h
        cases h
      · intro h
        exact absurd hk (h (k0, v0) (Or.inl rfl))
    · rw [if_neg hk, ih]
      constructor
      · intro h x hx
        rcases hx with hx | hx
        · rw [hx]
          exact hk
        · exact h x hx
      · intro h x hx
        exact h x (Or.inr hx)

theorem ordered_nodup_keys (m : List (fini_string_t × β)) (h : ordered m) :
    (m.map Prod.fst).Nodup := by
  unfold ordered at h
  rw [List.Nodup, List.pairwise_map]
  exact h.imp (fun hab => str_lt_ne _ _ hab)

theorem map_find_of_mem (m : List (fini_string_t × β)) (h : ordered m) (k : fini_string_t)
    (v : β) (hm : (k, v) ∈ m) : map_find m k = some v := by
  induction m with
  | nil => simp at hm
  | cons x rest ih =>
    obtain ⟨k0, v0⟩ := x
    have hp := List.pairwise_cons.mp h
    simp only [map_find]
    rcases List.mem_cons.mp hm with heq | hin
    · simp only [Prod.mk.injEq] at heq
      simp [heq.1, heq.2]
    · have hlt := hp.1 _ hin
      have hne : k0 ≠ k := str_lt_ne _ _ hlt
      rw [if_neg hne]
      exact ih hp.2 hin

theorem mem_map_assign (m : List (fini_string_t × β)) (k : fini_string_t) (v : β)
    (x : fini_string_t × β) (hx : x ∈ map_assign m k v) : x = (k, v) ∨ x ∈ m := by
  induction m with
  | nil => simpa [map_assign] using hx
  | cons y rest ih =>
    obtain ⟨k0, v0⟩ := y
    simp only [map_assign] at hx
    split at hx
    · simpa using hx
    · split at hx
      · rcases List.mem_cons.mp hx with h | h
        · exact Or.inl h
        · exact Or.inr (List.mem_cons_of_mem _ h)
      · rcases List.mem_cons.mp hx with h | h
        · exact Or.inr (h ▸ List.mem_cons_self _ _)
        · rcases ih h with h' | h'
          · exact Or.inl h'
          · exact Or.inr (List.mem_cons_of_mem _ h')

theorem ordered_map_assign (m : List (fini_string_t × β)) (k : fini_string_t) (v : β)
    (h : ordered m) : ordered (map_assign m k v) := by
  induction m with
  | nil => simp [map_assign, ordered]
  | cons y rest ih =>
    obtain ⟨k0, v0⟩ := y
    have hp := List.pairwise_cons.mp h
    simp only [map_assign]
    split
    · rename_i hlt
      refine List.pairwise_cons.mpr ⟨?_, h⟩
      intro a ha
      rcases List.mem_cons.mp ha with h1 | h1
      · subst h1
        exact hlt
      · exact str_lt_trans _ _ _ hlt (hp.1 a h1)
    · split
      · rename_i hlt heq
        subst heq
        exact List.pairwise_cons.mpr ⟨hp.1, hp.2⟩
      · rename_i hlt hne
        refine List.pairwise_cons.mpr ⟨?_, ih hp.2⟩
        intro a ha
        rcases mem_map_assign rest k v a ha with h1 | h1
        · subst h1
          exact str_lt_total _ _ (by simpa using hlt) hne
        · exact hp.1 a h1

theorem map_assign_last (m : List (fini_string_t × β)) (k : fini_string_t) (v : β)
    (h : ∀ x ∈ m, str_lt x.1 k = true) : map_assign m k v = m ++ [(k, v)] := by
  induction m with
  | nil => rfl
  | cons y rest ih =>
    obtain ⟨k0, v0⟩ := y
    have h0 : str_lt k0 k = true := h (k0, v0) (List.mem_cons_self _ _)
    simp only [map_assign]
    rw [if_neg (by simp [str_lt_asymm _ _ h0]), if_neg (fun hh => str_lt_ne _ _ h0 hh.symm)]
    rw [ih (fun x hx => h x (List.mem_cons_of_mem _ hx))]
    rfl

theorem map_assign_filter_ne (m : List (fini_string_t × β)) (k : fini_string_t) (v : β) :
    (map_assign m k v).filter (fun kv => kv.1 ≠ k) = m.filter (fun kv => kv.1 ≠ k) := by
  induction m with
  | nil => simp [map_assign]
  | cons y rest ih =>
    obtain ⟨k0, v0⟩ := y
    simp only [map_assign]
    split
    · simp
    · split
      · rename_i h1 h2
        subst h2
        simp
      · rename_i h1 h2
        simp only [List.filter_cons, ih]

theorem ordered_filter_key (m : List (fini_string_t × β)) (h : ordered m) (k : fini_string_t)
    (v : β) (hf : map_find m k = some v) : m.filter (fun kv => kv.1 = k) = [(k, v)] := by
  induction m with
  | nil => simp [map_find] at hf
  | cons x rest ih =>
    obtain ⟨k0, v0⟩ := x
    have hp := List.pairwise_cons.mp h
    simp only [map_find] at hf
    by_cases hk : k0 = k
    · rw [if_pos hk] at hf
      simp only [Option.some.injEq] at hf
      subst hk hf
      rw [List.filter_cons_of_pos (by simp)]
      congr 1
      apply List.filter_eq_nil_iff.mpr
      intro a ha
      have := str_lt_ne _ _ (hp.1 a ha)
      simpa using Ne.symm this
    · rw [if_neg hk] at hf
      rw [List.filter_cons_of_neg (by simpa using hk)]
      exact ih hp.2 hf

theorem map_find_apart (m : List (fini_string_t × Nat)) (hap : m.Pairwise (fun a b => a.2 ≠ b.2))
    (s s' : fini_string_t) (p p' : Nat) (h : map_find m s = some p)
    (h' : map_find m s' = some p') (hne : s ≠ s') : p ≠ p' := by
  induction m with
  | nil => simp [map_find] at h
  | cons y rest ih =>
    obtain ⟨k0, v0⟩ := y
    have hp := List.pairwise_cons.mp hap
    simp only [map_find] at h h'
    by_cases h1 : k0 = s
    · have h2 : ¬ k0 = s' := fun hh => hne (h1.symm.trans hh)
      rw [if_pos h1] at h
      rw [if_neg h2] at h'
      simp only [Option.some.injEq] at h
      subst h
      exact hp.1 _ (map_find_some_mem _ _ _ h')
    · rw [if_neg h1] at h
      by_cases h2 : k0 = s'
      · rw [if_pos h2] at h'
        simp only [Option.some.injEq] at h'
        subst h'
        exact fun hh => hp.1 _ (map_find_some_mem _ _ _ h) hh.symm
      · rw [if_neg h2] at h'
        exact ih hp.2 h h'

end maps

/-! ## The document model: `create`, `get`, `set` -/

theorem init_fresh (flags : Int) (file : Option fini_string_t) (parseFlags : Int) :
    INI.init flags file false parseFlags = .ret () fresh := rfl

theorem init_parse (flags : Int) (file : Option fini_string_t) (parseFlags : Int) :
    INI.init flags file true parseFlags =
      (fresh.parse flags file parseFlags).bind fun _ d => .ret () d := rfl

theorem set_existing (doc : INI) (sec key value : fini_string_t) (p : Nat) (ks : keys_t)
    (hsec : map_find doc.sections sec = some p) (hks : doc.heap[p]? = some ks) :
    doc.set sec key value =
      .ret () { doc with current := some p, heap := doc.heap.set p (map_assign ks key value) } := by
  simp [INI.set, INI.select, hsec, Outcome.bind, INI.set_key, hks]

theorem set_all_existing (sec key : fini_string_t) (p : Nat) (vs : List fini_string_t) :
    ∀ (doc : INI) (ks : keys_t), map_find doc.sections sec = some p → doc.heap[p]? = some ks →
      vs ≠ [] →
      doc.set_all sec key vs =
        .ret () { doc with
          current := some p
          heap := doc.heap.set p (vs.foldl (fun acc v => map_assign acc key v) ks) } := by
  induction vs with
  | nil => intro doc ks _ _ h; exact absurd rfl h
  | cons v rest ih =>
    intro doc ks hsec hks _
    have hlen : p < doc.heap.length := (List.getElem?_eq_some.mp hks).1
    simp only [INI.set_all, set_existing doc sec key v p ks hsec hks, Outcome.bind]
    by_cases hrest : rest = []
    · subst hrest
      simp [INI.set_all]
    · rw [ih (INI.mk doc.source (doc.heap.set p (map_assign ks key v)) (some p) doc.sections)
        (map_assign ks key v) hsec (by simp [List.getElem?_set_self hlen]) hrest]
      simp

theorem foldl_assign_ordered (key : fini_string_t) (vs : List fini_string_t) :
    ∀ ks : keys_t, ordered ks → ordered (vs.foldl (fun acc v => map_assign acc key v) ks) := by
  induction vs with
  | nil => intro ks h; exact h
  | cons v rest ih => intro ks h; exact ih _ (ordered_map_assign ks key v h)

theorem foldl_assign_find (key : fini_string_t) (vs : List fini_string_t) (hne : vs ≠ []) :
    ∀ ks : keys_t,
      map_find (vs.foldl (fun acc v => map_assign acc key v) ks) key = some (vs.getLast hne) := by
  induction vs with
  | nil => exact absurd rfl hne
  | cons v rest ih =>
    intro ks
    by_cases hrest : rest = []
    · subst hrest
      simp [map_find_assign_same]
    · rw [List.foldl_cons, ih hrest, List.getLast_cons hrest]

theorem foldl_assign_filter (key : fini_string_t) (vs : List fini_string_t) :
    ∀ ks : keys_t,
      (vs.foldl (fun acc v => map_assign acc key v) ks).filter (fun kv => kv.1 ≠ key) =
        ks.filter (fun kv => kv.1 ≠ key) := by
  induction vs with
  | nil => intro ks; rfl
  | cons v rest ih => intro ks; rw [List.foldl_cons, ih, map_assign_filter_ne]

/-- C1 (defect): the qualified `set` on a non-empty section name that is absent does
not store the key: `select` creates the section and returns false, whereupon
`set` calls `create` for the same name again, which throws the duplicate-section
exception and leaves behind the new, empty section. -/
theorem set_absent_named_section_raises (doc : INI) (sec key value : fini_string_t)
    (hne : sec ≠ []) (habs : map_find doc.sections sec = none) :
    ∃ d, doc.set sec key value = .threw (.duplicate_section sec) d ∧
      map_find d.sections sec = some doc.heap.length ∧
      d.heap[doc.heap.length]? = some [] := by
  refine ⟨(INI.mk doc.source (doc.heap ++ [[]]) (some doc.heap.length)
    (map_assign doc.sections sec doc.heap.length)), ?_, ?_, ?_⟩
  · simp [INI.set, INI.select, habs, INI.create, Outcome.bind, hne, map_find_assign_same]
  · exact map_find_assign_same _ _ _
  · simp

/-- C1 at the input of the claim: on a new document `set("A", "k", "v")` throws. -/
theorem set_absent_named_section_raises_witness :
    (['A'] : fini_string_t) ≠ [] ∧ map_find fresh.sections ['A'] = none ∧
    ∃ d, fresh.set ['A'] ['k'] ['v'] = .threw (.duplicate_section ['A']) d ∧
      map_find d.sections ['A'] = some fresh.heap.length ∧
      d.heap[fresh.heap.length]? = some [] :=
  ⟨by decide, by decide,
    set_absent_named_section_raises fresh ['A'] ['k'] ['v'] (by decide) (by decide)⟩

/-- C6: when section `sec` exists, `get(sec, key, dflt)` returns normally: the text
stored for `key` in the body of `sec` when the key is present, and `dflt` when it
is absent. -/
theorem get_existing_section (doc : INI) (hwf : doc.WF) (sec key dflt : fini_string_t) (p : Nat)
    (hsec : map_find doc.sections sec = some p) :
    ∃ ks, doc.heap[p]? = some ks ∧
      (∀ v, map_find ks key = some v →
        doc.get sec key dflt = .ret v { doc with current := some p }) ∧
      (map_find ks key = none →
        doc.get sec key dflt = .ret dflt { doc with current := some p }) := by
  have hlive := hwf.sections_live _ (map_find_some_mem _ _ _ hsec)
  refine ⟨doc.heap[p], by simp [hlive], ?_, ?_⟩
  · intro v hv
    simp [INI.get, INI.select, hsec, Outcome.bind, INI.get_key, INI.deref, hlive, hv]
  · intro hv
    simp [INI.get, INI.select, hsec, Outcome.bind, INI.get_key, INI.deref, hlive, hv]

/-- C6 on the document where section `A` exists without the key `nope`. -/
theorem get_existing_section_witness :
    doc_A.WF ∧ map_find doc_A.sections ['A'] = some 1 ∧
    ∃ ks, doc_A.heap[1]? = some ks ∧
      (∀ v, map_find ks "nope".toList = some v →
        doc_A.get ['A'] "nope".toList "fallback".toList = .ret v { doc_A with current := some 1 }) ∧
      (map_find ks "nope".toList = none →
        doc_A.get ['A'] "nope".toList "fallback".toList
          = .ret "fallback".toList { doc_A with current := some 1 }) :=
  have hwf : doc_A.WF :=
    ⟨by decide, by decide, by decide, by decide, by intro p h; cases h; decide⟩
  ⟨hwf, by decide,
    get_existing_section doc_A hwf ['A'] "nope".toList "fallback".toList 1 (by decide)⟩

/-- C7: when section `sec` exists, after `set(sec, key, v1)`, ..., `set(sec, key, vn)`
(n > 0) every call has returned normally, the body of `sec` holds exactly one
entry for `key`, with value `vn`, its other entries are as before, the section
map is unchanged and so is every other object of the free store (hence every
other section). -/
theorem set_last_write_wins (doc : INI) (hwf : doc.WF) (sec key : fini_string_t)
    (vs : List fini_string_t) (hvs : vs ≠ []) (p : Nat)
    (hsec : map_find doc.sections sec = some p) :
    ∃ d ks ks', doc.set_all sec key vs = .ret () d ∧
      doc.heap[p]? = some ks ∧ d.heap[p]? = some ks' ∧
      ks'.filter (fun kv => kv.1 = key) = [(key, vs.getLast hvs)] ∧
      ks'.filter (fun kv => kv.1 ≠ key) = ks.filter (fun kv => kv.1 ≠ key) ∧
      d.sections = doc.sections ∧
      (∀ q, q ≠ p → d.heap[q]? = doc.heap[q]?) ∧
      (∀ s' p', s' ≠ sec → map_find doc.sections s' = some p' →
        map_find d.sections s' = some p' ∧ d.heap[p']? = doc.heap[p']?) := by
  have hlive := hwf.sections_live _ (map_find_some_mem _ _ _ hsec)
  have hks : doc.heap[p]? = some doc.heap[p] := by simp [hlive]
  have hord : ordered doc.heap[p] := hwf.keys_ordered _ (List.getElem_mem _)
  refine ⟨_, doc.heap[p], _, set_all_existing sec key p vs doc _ hsec hks hvs, hks,
    List.getElem?_set_self hlive, ?_,
    foldl_assign_filter key vs _, rfl, ?_, ?_⟩
  · exact ordered_filter_key _ (foldl_assign_ordered key vs _ hord) _ _
      (foldl_assign_find key vs hvs _)
  · intro q hq
    exact List.getElem?_set_ne (Ne.symm hq)
  · intro s' p' hs' hp'
    refine ⟨hp', ?_⟩
    exact List.getElem?_set_ne (map_find_apart _ hwf.sections_apart _ _ _ _ hsec hp' (Ne.symm hs'))

/-- C7 on section `A` of `doc_A` with the values `1`, `2`, `3` for the key `k`. -/
theorem set_last_write_wins_witness :
    doc_A.WF ∧ map_find doc_A.sections ['A'] = some 1 ∧
    ∃ d ks ks', doc_A.set_all ['A'] ['k'] [['1'], ['2'], ['3']] = .ret () d ∧
      doc_A.heap[1]? = some ks ∧ d.heap[1]? = some ks' ∧
      ks'.filter (fun kv => kv.1 = ['k']) = [(['k'], [['1'], ['2'], ['3']].getLast (by decide))] ∧
      ks'.filter (fun kv => kv.1 ≠ ['k']) = ks.filter (fun kv => kv.1 ≠ ['k']) ∧
      d.sections = doc_A.sections ∧
      (∀ q, q ≠ 1 → d.heap[q]? = doc_A.heap[q]?) ∧
      (∀ s' p', s' ≠ ['A'] → map_find doc_A.sections s' = some p' →
        map_find d.sections s' = some p' ∧ d.heap[p']? = doc_A.heap[p']?) :=
  have hwf : doc_A.WF :=
    ⟨by decide, by decide, by decide, by decide, by intro p h; cases h; decide⟩
  ⟨hwf, by decide,
    set_last_write_wins doc_A hwf ['A'] ['k'] [['1'], ['2'], ['3']] (by decide) 1 (by decide)⟩

/-- C10: `create(name)` throws the duplicate-section exception exactly when `name`
is non-empty and already present, and then leaves the object as it was; when it
returns, `name` maps to a new empty body, `current` points to that body, every
other name maps to what it mapped to before and every object that was in the
free store is untouched. -/
theorem create_contract (doc : INI) (name : fini_string_t) :
    ((doc.create name).raised = true ↔ (name ≠ [] ∧ (map_find doc.sections name).isSome)) ∧
    ((doc.create name).raised = true →
      doc.create name = .threw (.duplicate_section name) doc) ∧
    ((doc.create name).raised = false →
      ∃ d p, doc.create name = .ret () d ∧
        map_find d.sections name = some p ∧ d.heap[p]? = some [] ∧ d.current = some p ∧
        (∀ other, other ≠ name → map_find d.sections other = map_find doc.sections other) ∧
        (∀ q, q < doc.heap.length → d.heap[q]? = doc.heap[q]?)) := by
  by_cases h : name ≠ [] ∧ (map_find doc.sections name).isSome
  · simp [INI.create, h, Outcome.raised]
  · refine ⟨?_, ?_, ?_⟩
    · simp only [INI.create, if_neg h, Outcome.raised]
      simp [h]
    · simp [INI.create, if_neg h, Outcome.raised]
    · intro _
      refine ⟨_, doc.heap.length, by simp only [INI.create, if_neg h]; rfl, ?_, ?_, rfl, ?_, ?_⟩
      · exact map_find_assign_same _ _ _
      · simp
      · intro other ho
        exact map_find_assign_other _ _ _ _ ho
      · intro q hq
        exact List.getElem?_append_left hq

/-! ## The serializer -/

theorem save_sections_eq (flags : Nat) (heap : List keys_t) (secs : sections_t)
    (hlive : ∀ x ∈ secs, x.2 < heap.length) :
    INI.save_sections flags heap secs =
      some ((secs.map (fun x => INI.save_section flags x.1 (heap[x.2]?.getD []))).flatten) := by
  induction secs with
  | nil => rfl
  | cons x rest ih =>
    obtain ⟨name, p⟩ := x
    have hp : p < heap.length := hlive (name, p) (List.mem_cons_self _ _)
    simp only [INI.save_sections, List.getElem?_eq_getElem hp,
      ih (fun x hx => hlive x (List.mem_cons_of_mem _ hx))]
    simp [List.getElem?_eq_getElem hp]

theorem mem_save_keys (flags : Nat) (name : fini_string_t) (ks : keys_t) (o : INI.out_t) :
    o ∈ INI.save_keys flags name ks ↔
      ∃ k v, o = .key_line name k v ∧ (k, v) ∈ ks ∧
        ¬ (has_flag flags SAVE_PRUNE = true ∧ v = []) := by
  induction ks with
  | nil => simp [INI.save_keys]
  | cons x rest ih =>
    obtain ⟨k0, v0⟩ := x
    simp only [INI.save_keys]
    by_cases hc : has_flag flags SAVE_PRUNE = true ∧ v0 = []
    · have hc' : (has_flag flags SAVE_PRUNE && v0.isEmpty) = true := by
        simp [hc.1, hc.2]
      rw [if_pos hc', ih]
      constructor
      · rintro ⟨k, v, h1, h2, h3⟩
        exact ⟨k, v, h1, List.mem_cons_of_mem _ h2, h3⟩
      · rintro ⟨k, v, h1, h2, h3⟩
        rcases List.mem_cons.mp h2 with h | h
        · simp only [Prod.mk.injEq] at h
          exact absurd ⟨hc.1, h.2 ▸ hc.2⟩ h3
        · exact ⟨k, v, h1, h, h3⟩
    · have hc' : ¬ (has_flag flags SAVE_PRUNE && v0.isEmpty) = true := by
        simpa [List.isEmpty_iff] using hc
      rw [if_neg hc', List.mem_cons, ih]
      constructor
      · rintro (h | ⟨k, v, h1, h2, h3⟩)
        · exact ⟨k0, v0, h, List.mem_cons_self _ _, hc⟩
        · exact ⟨k, v, h1, List.mem_cons_of_mem _ h2, h3⟩
      · rintro ⟨k, v, h1, h2, h3⟩
        rcases List.mem_cons.mp h2 with h | h
        · simp only [Prod.mk.injEq] at h
          left
          rw [h1, h.1, h.2]
        · exact Or.inr ⟨k, v, h1, h, h3⟩

theorem section_line_mem_save_section (flags : Nat) (name n : fini_string_t) (ks : keys_t) :
    INI.out_t.section_line n ∈ INI.save_section flags name ks ↔
      n = name ∧ name ≠ [] ∧ ¬ (has_flag flags SAVE_PRUNE = true ∧ ks = []) := by
  unfold INI.save_section
  by_cases hc : has_flag flags SAVE_PRUNE = true ∧ ks = []
  · have hc' : (has_flag flags SAVE_PRUNE && ks.isEmpty) = true := by simp [hc.1, hc.2]
    simp [hc', hc]
  · have hc' : ¬ (has_flag flags SAVE_PRUNE && ks.isEmpty) = true := by
      simpa [List.isEmpty_iff] using hc
    rw [if_neg hc']
    simp only [List.mem_append, mem_save_keys]
    constructor
    · rintro ((h | ⟨k, v, h, _⟩) | h)
      · cases name with
        | nil => simp at h
        | cons c cs =>
          simp at h
          exact ⟨h, by simp, hc⟩
      · cases h
      · by_cases hpad : has_flag flags SAVE_PADDING_SECTIONS = true
        · simp [hpad] at h
        · simp [hpad] at h
    · rintro ⟨h1, h2, _⟩
      left; left
      cases name with
      | nil => exact absurd rfl h2
      | cons c cs => simp [h1]

theorem key_line_mem_save_section (flags : Nat) (name s k v : fini_string_t) (ks : keys_t) :
    INI.out_t.key_line s k v ∈ INI.save_section flags name ks ↔
      s = name ∧ (k, v) ∈ ks ∧ ¬ (has_flag flags SAVE_PRUNE = true ∧ v = []) := by
  unfold INI.save_section
  by_cases hc : has_flag flags SAVE_PRUNE = true ∧ ks = []
  · have hc' : (has_flag flags SAVE_PRUNE && ks.isEmpty) = true := by simp [hc.1, hc.2]
    rw [if_pos hc']
    simp [hc.2]
  · have hc' : ¬ (has_flag flags SAVE_PRUNE && ks.isEmpty) = true := by
      simpa [List.isEmpty_iff] using hc
    rw [if_neg hc']
    simp only [List.mem_append, mem_save_keys]
    constructor
    · rintro ((h | ⟨k', v', h, h2, h3⟩) | h)
      · split at h <;> simp at h
      · simp only [INI.out_t.key_line.injEq] at h
        obtain ⟨h1, hk, hv⟩ := h
        subst hk hv
        exact ⟨h1, h2, h3⟩
      · split at h <;> simp at h
    · rintro ⟨h1, h2, h3⟩
      left; right
      exact ⟨k, v, by rw [h1], h2, h3⟩

theorem mem_save_outs (doc : INI) (hwf : doc.WF) (SF : Int) (saveFlags : Nat) :
    ∃ outs, doc.save_outs SF saveFlags = some outs ∧
      doc.save SF true saveFlags =
        some (true, (outs.map (INI.out_t.text (INI.save_flags SF saveFlags))).flatten) ∧
      ∀ o, o ∈ outs ↔ ∃ name p ks, map_find doc.sections name = some p ∧
        doc.heap[p]? = some ks ∧ o ∈ INI.save_section (INI.save_flags SF saveFlags) name ks := by
  have heq := save_sections_eq (INI.save_flags SF saveFlags) doc.heap doc.sections
    hwf.sections_live
  refine ⟨_, heq, ?_, ?_⟩
  · simp [INI.save, INI.save_outs, heq]
  · intro o
    simp only [List.mem_flatten, List.mem_map]
    constructor
    · rintro ⟨l, ⟨x, hx, rfl⟩, ho⟩
      have hp := hwf.sections_live x hx
      refine ⟨x.1, x.2, doc.heap[x.2], map_find_of_mem _ hwf.sections_ordered _ _ hx,
        List.getElem?_eq_getElem hp, ?_⟩
      simpa [List.getElem?_eq_getElem hp] using ho
    · rintro ⟨name, p, ks, hsec, hks, ho⟩
      refine ⟨_, ⟨(name, p), map_find_some_mem _ _ _ hsec, rfl⟩, ?_⟩
      simpa [hks] using ho

/-- C8: `save` writes its groups of lines for every document. With `SAVE_PRUNE` in
effect no header line and no key line is written for a section without keys, and
no key line for a key of empty value. Without `SAVE_PRUNE` a header line is
written for every named section and a key line for every key of every section. -/
theorem prune_on_save (doc : INI) (hwf : doc.WF) (SF : Int) (saveFlags : Nat) :
    ∃ outs, doc.save_outs SF saveFlags = some outs ∧
      doc.save SF true saveFlags =
        some (true, (outs.map (INI.out_t.text (INI.save_flags SF saveFlags))).flatten) ∧
      (has_flag (INI.save_flags SF saveFlags) SAVE_PRUNE = true →
        (∀ name p, map_find doc.sections name = some p → doc.heap[p]? = some [] →
          INI.out_t.section_line name ∉ outs ∧ ∀ k v, INI.out_t.key_line name k v ∉ outs) ∧
        (∀ sec k, INI.out_t.key_line sec k [] ∉ outs)) ∧
      (has_flag (INI.save_flags SF saveFlags) SAVE_PRUNE = false →
        (∀ name p, map_find doc.sections name = some p → name ≠ [] →
          INI.out_t.section_line name ∈ outs) ∧
        (∀ name p ks k v, map_find doc.sections name = some p → doc.heap[p]? = some ks →
          map_find ks k = some v → INI.out_t.key_line name k v ∈ outs)) := by
  obtain ⟨outs, h1, h2, hmem⟩ := mem_save_outs doc hwf SF saveFlags
  refine ⟨outs, h1, h2, ?_, ?_⟩
  · intro hprune
    refine ⟨?_, ?_⟩
    · intro name p hsec hks
      refine ⟨?_, ?_⟩
      · intro hin
        obtain ⟨n', p', ks', hsec', hks', ho⟩ := (hmem _).mp hin
        obtain ⟨hn, _, hne⟩ := (section_line_mem_save_section _ _ _ _).mp ho
        subst hn
        rw [hsec] at hsec'
        cases hsec'
        rw [hks] at hks'
        cases hks'
        exact hne ⟨hprune, rfl⟩
      · intro k v hin
        obtain ⟨n', p', ks', hsec', hks', ho⟩ := (hmem _).mp hin
        obtain ⟨hn, hkv, _⟩ := (key_line_mem_save_section _ _ _ _ _ _).mp ho
        subst hn
        rw [hsec] at hsec'
        cases hsec'
        rw [hks] at hks'
        cases hks'
        cases hkv
    · intro sec k hin
      obtain ⟨n', p', ks', _, _, ho⟩ := (hmem _).mp hin
      obtain ⟨_, _, hne⟩ := (key_line_mem_save_section _ _ _ _ _ _).mp ho
      exact hne ⟨hprune, rfl⟩
  · intro hprune
    refine ⟨?_, ?_⟩
    · intro name p hsec hname
      have hp := hwf.sections_live _ (map_find_some_mem _ _ _ hsec)
      refine (hmem _).mpr ⟨name, p, doc.heap[p], hsec, List.getElem?_eq_getElem hp, ?_⟩
      exact (section_line_mem_save_section _ _ _ _).mpr ⟨rfl, hname, by simp [hprune]⟩
    · intro name p ks k v hsec hks hkv
      refine (hmem _).mpr ⟨name, p, ks, hsec, hks, ?_⟩
      exact (key_line_mem_save_section _ _ _ _ _ _).mpr
        ⟨rfl, map_find_some_mem _ _ _ hkv, by simp [hprune]⟩

/-- C8 on the document with the empty section `B` and the key `x` of empty value in
section `A`: with `SAVE_PRUNE` the file holds the header of `A` alone, without it
the header of `A`, the line of `x` and the header of `B`. -/
theorem prune_on_save_witness :
    doc_AB.WF ∧
    doc_AB.save 0 true SAVE_PRUNE = some (true, "[A]\n".toList) ∧
    doc_AB.save 0 true 0 = some (true, "[A]\nx=\n[B]\n".toList) ∧
    ∃ outs, doc_AB.save_outs 0 SAVE_PRUNE = some outs ∧
      doc_AB.save 0 true SAVE_PRUNE =
        some (true, (outs.map (INI.out_t.text (INI.save_flags 0 SAVE_PRUNE))).flatten) ∧
      (has_flag (INI.save_flags 0 SAVE_PRUNE) SAVE_PRUNE = true →
        (∀ name p, map_find doc_AB.sections name = some p → doc_AB.heap[p]? = some [] →
          INI.out_t.section_line name ∉ outs ∧ ∀ k v, INI.out_t.key_line name k v ∉ outs) ∧
        (∀ sec k, INI.out_t.key_line sec k [] ∉ outs)) ∧
      (has_flag (INI.save_flags 0 SAVE_PRUNE) SAVE_PRUNE = false →
        (∀ name p, map_find doc_AB.sections name = some p → name ≠ [] →
          INI.out_t.section_line name ∈ outs) ∧
        (∀ name p ks k v, map_find doc_AB.sections name = some p →
          doc_AB.heap[p]? = some ks →
          map_find ks k = some v → INI.out_t.key_line name k v ∈ outs)) :=
  have hwf : doc_AB.WF :=
    ⟨by decide, by decide, by decide, by decide, by intro p h; cases h; decide⟩
  ⟨hwf, by decide, by decide, prune_on_save doc_AB hwf 0 SAVE_PRUNE⟩

/-- C9 as stated fails: section `A` of `doc_Ax` holds only the key `x` of empty
value, so no key of it survives `SAVE_PRUNE`, yet its header line is written. -/
theorem prune_keeps_header_of_emptied_section :
    doc_Ax.WF ∧ has_flag (INI.save_flags 0 SAVE_PRUNE) SAVE_PRUNE = true ∧
    map_find doc_Ax.sections ['A'] = some 1 ∧ doc_Ax.heap[1]? = some [(['x'], [])] ∧
    (∀ kv ∈ [((['x'] : fini_string_t), ([] : fini_string_t))], kv.2 = []) ∧
    doc_Ax.save_outs 0 SAVE_PRUNE = some [INI.out_t.section_line ['A']] ∧
    doc_Ax.save 0 true SAVE_PRUNE = some (true, "[A]\n".toList) :=
  ⟨⟨by decide, by decide, by decide, by decide, by intro p h; cases h; decide⟩,
    by decide, by decide, by decide, by decide, by decide, by decide⟩

/-- C9 as amended: with `SAVE_PRUNE` in effect the header line of a section is
written exactly when the section is named and holds at least one key, whatever
the values of its keys; a section holding no key at all gets no header line. -/
theorem prune_header_iff_named_with_keys (doc : INI) (hwf : doc.WF) (SF : Int)
    (saveFlags : Nat) (hprune : has_flag (INI.save_flags SF saveFlags) SAVE_PRUNE = true)
    (name : fini_string_t) (p : Nat) (ks : keys_t)
    (hsec : map_find doc.sections name = some p) (hks : doc.heap[p]? = some ks) :
    ∃ outs, doc.save_outs SF saveFlags = some outs ∧
      (INI.out_t.section_line name ∈ outs ↔ name ≠ [] ∧ ks ≠ []) := by
  obtain ⟨outs, h1, _, hmem⟩ := mem_save_outs doc hwf SF saveFlags
  refine ⟨outs, h1, ?_⟩
  rw [hmem]
  constructor
  · rintro ⟨n', p', ks', hsec', hks', ho⟩
    obtain ⟨hn, hne, hc⟩ := (section_line_mem_save_section _ _ _ _).mp ho
    subst hn
    rw [hsec] at hsec'
    cases hsec'
    rw [hks] at hks'
    cases hks'
    exact ⟨hne, fun h => hc ⟨hprune, h⟩⟩
  · rintro ⟨hne, hks'⟩
    exact ⟨name, p, ks, hsec, hks,
      (section_line_mem_save_section _ _ _ _).mpr ⟨rfl, hne, fun h => hks' h.2⟩⟩

/-- C9 as amended, on the empty section `B` of `doc_AB`. -/
theorem prune_header_iff_named_with_keys_witness :
    doc_AB.WF ∧ has_flag (INI.save_flags 0 SAVE_PRUNE) SAVE_PRUNE = true ∧
    map_find doc_AB.sections ['B'] = some 2 ∧ doc_AB.heap[2]? = some [] ∧
    ∃ outs, doc_AB.save_outs 0 SAVE_PRUNE = some outs ∧
      (INI.out_t.section_line ['B'] ∈ outs ↔ (['B'] : fini_string_t) ≠ [] ∧ ([] : keys_t) ≠ []) :=
  have hwf : doc_AB.WF :=
    ⟨by decide, by decide, by decide, by decide, by intro p h; cases h; decide⟩
  ⟨hwf, by decide, by decide, by decide,
    prune_header_iff_named_with_keys doc_AB hwf 0 SAVE_PRUNE (by decide) ['B'] 2 []
      (by decide) (by decide)⟩

/-! ## The parser -/

theorem parse_line_eq (parseFlags : Nat) (doc : INI) (loc : INI.locals) (line : fini_string_t) :
    INI.parse_line parseFlags doc loc line =
      match classify parseFlags line with
      | .blank => .ret loc doc
      | .inert => .ret loc doc
      | .section_header name =>
        if (map_find doc.sections name).isSome then
          .threw (.parse_duplicate_section name loc.i) doc
        else
          .ret { loc with sec := name, local_current := some doc.heap.length }
            { doc with
              heap := doc.heap ++ [[]]
              sections := map_assign doc.sections name doc.heap.length }
      | .key_value k v =>
        match loc.local_current with
        | none => .undefined
        | some p =>
          match doc.heap[p]? with
          | none => .undefined
          | some ks =>
            if (map_find ks k).isSome then .threw (.parse_duplicate_key k loc.i) doc
            else .ret loc { doc with heap := doc.heap.set p (map_emplace ks k v) } := by
  simp only [INI.parse_line, classify]
  generalize trim (INI.strip_comments parseFlags line) default_trim_chars = t
  cases t with
  | nil => rfl
  | cons c rest =>
    simp only
    by_cases hc : '[' = c
    · subst hc
      simp only [if_true]
      by_cases hs : trim ('[' :: rest) ['[', ']', ' '] = []
      · rw [if_pos hs]
      · rw [if_neg hs]
    · simp only [hc, if_false]
      cases find_char '=' (c :: rest) with
      | none => rfl
      | some i => rfl

theorem parse_loop_append (parseFlags : Nat) (xs ys : List fini_string_t) :
    ∀ (doc : INI) (loc : INI.locals),
      INI.parse_loop parseFlags doc loc (xs ++ ys) =
        (INI.parse_loop parseFlags doc loc xs).bind
          (fun loc' d => INI.parse_loop parseFlags d loc' ys) := by
  induction xs with
  | nil => intro doc loc; rfl
  | cons x rest ih =>
    intro doc loc
    simp only [List.cons_append, INI.parse_loop]
    cases INI.parse_line parseFlags doc { loc with i := loc.i + 1 } x with
    | ret loc' d' => exact ih d' loc'
    | threw e d => rfl
    | undefined => rfl

theorem substr_find_char_hash (line : fini_string_t) :
    substr line 0 (find_char '#' line) = before_hash line := by
  induction line with
  | nil => rfl
  | cons c cs ih =>
    simp only [find_char, before_hash]
    by_cases hc : c = '#'
    · simp [hc, substr]
    · rw [if_neg hc, if_neg hc, ← ih]
      cases find_char '#' cs with
      | none => simp [substr]
      | some n => simp [substr]

theorem before_slashes_cons (c : Char) (cs : fini_string_t) :
    before_slashes (c :: cs) =
      if starts_with ['/', '/'] (c :: cs) = true then [] else c :: before_slashes cs := by
  cases cs with
  | nil => simp [before_slashes, starts_with]
  | cons d rest =>
    by_cases h : c = '/' ∧ d = '/'
    · simp [before_slashes, starts_with, h.1, h.2]
    · have h' : ¬ starts_with ['/', '/'] (c :: d :: rest) = true := by
        simp only [starts_with, Bool.and_eq_true, decide_eq_true_eq, Bool.and_true]
        exact fun hh => h ⟨hh.1.symm, hh.2.symm⟩
      rw [if_neg h']
      simp only [before_slashes, if_neg h]

theorem substr_find_str_slashes (line : fini_string_t) :
    substr line 0 (find_str ['/', '/'] line) = before_slashes line := by
  induction line with
  | nil => simp [find_str, before_slashes, substr]
  | cons c cs ih =>
    rw [before_slashes_cons]
    simp only [find_str]
    by_cases hc : starts_with ['/', '/'] (c :: cs) = true
    · simp [hc, substr]
    · rw [if_neg hc, if_neg hc, ← ih]
      cases find_str ['/', '/'] cs with
      | none => simp [substr]
      | some n => simp [substr]

theorem before_hash_idem (line : fini_string_t) :
    before_hash (before_hash line) = before_hash line := by
  induction line with
  | nil => rfl
  | cons c cs ih =>
    simp only [before_hash]
    by_cases hc : c = '#'
    · simp [hc, before_hash]
    · simp [hc, before_hash, ih]

theorem before_slashes_idem (line : fini_string_t) :
    before_slashes (before_slashes line) = before_slashes line := by
  induction line with
  | nil => rfl
  | cons c cs ih =>
    rw [before_slashes_cons]
    by_cases hc : starts_with ['/', '/'] (c :: cs) = true
    · rw [if_pos hc]
      rfl
    · rw [if_neg hc, before_slashes_cons]
      have h2 : ¬ starts_with ['/', '/'] (c :: before_slashes cs) = true := by
        intro h
        apply hc
        cases cs with
        | nil => simp [starts_with, before_slashes] at h
        | cons d ds =>
          rw [before_slashes_cons] at h
          by_cases hd : starts_with ['/', '/'] (d :: ds) = true
          · rw [if_pos hd] at h
            simp [starts_with] at h
          · rw [if_neg hd] at h
            simp only [starts_with, Bool.and_eq_true, decide_eq_true_eq] at h ⊢
            exact ⟨h.1, h.2.1, trivial⟩
      rw [if_neg h2, ih]

theorem starts_with_slash_before_hash (cs : fini_string_t) :
    starts_with ['/'] (before_hash cs) = starts_with ['/'] cs := by
  cases cs with
  | nil => rfl
  | cons d ds =>
    simp only [before_hash]
    by_cases hd : d = '#'
    · simp [hd, starts_with]
    · simp [hd, starts_with]

theorem before_hash_slashes_hash (line : fini_string_t) :
    before_hash (before_slashes (before_hash line)) = before_hash (before_slashes line) := by
  induction line with
  | nil => rfl
  | cons c cs ih =>
    by_cases hc : c = '#'
    · subst hc
      have h1 : before_hash ('#' :: cs) = [] := by simp [before_hash]
      have h2 : ¬ starts_with ['/', '/'] ('#' :: cs) = true := by simp [starts_with]
      rw [h1, before_slashes_cons, if_neg h2]
      simp [before_hash, before_slashes]
    · have hsw : starts_with ['/', '/'] (c :: before_hash cs) = starts_with ['/', '/'] (c :: cs) := by
        have := starts_with_slash_before_hash cs
        simp only [starts_with] at this ⊢
        rw [this]
      have h1 : before_hash (c :: cs) = c :: before_hash cs := by simp [before_hash, hc]
      rw [h1, before_slashes_cons, before_slashes_cons, hsw]
      by_cases hs : starts_with ['/', '/'] (c :: cs) = true
      · rw [if_pos hs, if_pos hs]
      · rw [if_neg hs, if_neg hs]
        simp only [before_hash, if_neg hc, ih]

theorem strip_comments_eq (parseFlags : Nat) (line : fini_string_t) :
    INI.strip_comments parseFlags line =
      (if has_flag parseFlags PARSE_COMMENTS_HASH || has_flag parseFlags PARSE_COMMENTS_ALL then
        before_hash
          (if has_flag parseFlags PARSE_COMMENTS_SLASH || has_flag parseFlags PARSE_COMMENTS_ALL
            then before_slashes line else line)
      else
        (if has_flag parseFlags PARSE_COMMENTS_SLASH || has_flag parseFlags PARSE_COMMENTS_ALL
          then before_slashes line else line)) := by
  simp only [INI.strip_comments, substr_find_char_hash, substr_find_str_slashes]

theorem classify_congr (parseFlags : Nat) (l l' : fini_string_t)
    (h : INI.strip_comments parseFlags l = INI.strip_comments parseFlags l') :
    classify parseFlags l = classify parseFlags l' := by
  simp only [classify, h]

theorem parse_line_congr (parseFlags : Nat) (l l' : fini_string_t)
    (h : classify parseFlags l = classify parseFlags l') (doc : INI) (loc : INI.locals) :
    INI.parse_line parseFlags doc loc l = INI.parse_line parseFlags doc loc l' := by
  rw [parse_line_eq, parse_line_eq, h]

theorem parse_loop_map_congr (parseFlags : Nat) (g : fini_string_t → fini_string_t)
    (hg : ∀ l, classify parseFlags (g l) = classify parseFlags l) (lines : List fini_string_t) :
    ∀ (doc : INI) (loc : INI.locals),
      INI.parse_loop parseFlags doc loc (lines.map g) = INI.parse_loop parseFlags doc loc lines := by
  induction lines with
  | nil => intro doc loc; rfl
  | cons l rest ih =>
    intro doc loc
    simp only [List.map_cons, INI.parse_loop, parse_line_congr parseFlags (g l) l (hg l)]
    cases INI.parse_line parseFlags doc { loc with i := loc.i + 1 } l with
    | ret loc' d' => exact ih d' loc'
    | threw e d => rfl
    | undefined => rfl

theorem classify_before_hash (parseFlags : Nat)
    (h : (has_flag parseFlags PARSE_COMMENTS_HASH || has_flag parseFlags PARSE_COMMENTS_ALL) = true)
    (line : fini_string_t) :
    classify parseFlags (before_hash line) = classify parseFlags line := by
  apply classify_congr
  rw [strip_comments_eq, strip_comments_eq, if_pos h, if_pos h]
  by_cases hs : (has_flag parseFlags PARSE_COMMENTS_SLASH ||
      has_flag parseFlags PARSE_COMMENTS_ALL) = true
  · rw [if_pos hs, if_pos hs, before_hash_slashes_hash]
  · rw [if_neg hs, if_neg hs, before_hash_idem]

theorem classify_before_slashes (parseFlags : Nat)
    (h : (has_flag parseFlags PARSE_COMMENTS_SLASH || has_flag parseFlags PARSE_COMMENTS_ALL) = true)
    (line : fini_string_t) :
    classify parseFlags (before_slashes line) = classify parseFlags line := by
  apply classify_congr
  rw [strip_comments_eq, strip_comments_eq, if_pos h, if_pos h, before_slashes_idem]

/-- C5: with `PARSE_COMMENTS_HASH` or `PARSE_COMMENTS_ALL` set, a line is classified
and parsed, from every parser state, exactly as its part before the first `#`,
and so is a whole line sequence; with `PARSE_COMMENTS_SLASH` or
`PARSE_COMMENTS_ALL` set the same holds for its part before the first `//`; with
none of the three flags set the comment step leaves every line as it is. -/
theorem comment_stripping (parseFlags : Nat) :
    ((has_flag parseFlags PARSE_COMMENTS_HASH || has_flag parseFlags PARSE_COMMENTS_ALL) = true →
      (∀ line, classify parseFlags (before_hash line) = classify parseFlags line) ∧
      (∀ line doc loc, INI.parse_line parseFlags doc loc (before_hash line) =
        INI.parse_line parseFlags doc loc line) ∧
      (∀ (doc : INI) lines, doc.parse_lines (lines.map before_hash) parseFlags =
        doc.parse_lines lines parseFlags)) ∧
    ((has_flag parseFlags PARSE_COMMENTS_SLASH || has_flag parseFlags PARSE_COMMENTS_ALL) = true →
      (∀ line, classify parseFlags (before_slashes line) = classify parseFlags line) ∧
      (∀ line doc loc, INI.parse_line parseFlags doc loc (before_slashes line) =
        INI.parse_line parseFlags doc loc line) ∧
      (∀ (doc : INI) lines, doc.parse_lines (lines.map before_slashes) parseFlags =
        doc.parse_lines lines parseFlags)) ∧
    (has_flag parseFlags PARSE_COMMENTS_SLASH = false →
      has_flag parseFlags PARSE_COMMENTS_HASH = false →
      has_flag parseFlags PARSE_COMMENTS_ALL = false →
      ∀ line, INI.strip_comments parseFlags line = line) := by
  refine ⟨?_, ?_, ?_⟩
  · intro h
    refine ⟨classify_before_hash parseFlags h, ?_, ?_⟩
    · intro line doc loc
      exact parse_line_congr _ _ _ (classify_before_hash parseFlags h line) doc loc
    · intro doc lines
      simp only [INI.parse_lines,
        parse_loop_map_congr parseFlags before_hash (classify_before_hash parseFlags h)]
  · intro h
    refine ⟨classify_before_slashes parseFlags h, ?_, ?_⟩
    · intro line doc loc
      exact parse_line_congr _ _ _ (classify_before_slashes parseFlags h line) doc loc
    · intro doc lines
      simp only [INI.parse_lines,
        parse_loop_map_congr parseFlags before_slashes (classify_before_slashes parseFlags h)]
  · intro h1 h2 h3 line
    simp [strip_comments_eq, h1, h2, h3]

/-- C5 on the lines `k=v # note` and `k=v // note`: under `PARSE_COMMENTS_HASH` the
first is the key line of `k` with value `v`, the same as its part `k=v ` before the
`#`, and under no flag its value is `v # note`; under `PARSE_COMMENTS_SLASH` (and
under `PARSE_COMMENTS_ALL`) the second is the key line of `k` with value `v`, the
same as its part `k=v ` before the `//`, and under no flag, or under the hash flag
alone, its value is `v // note`; a single `/` is not a comment. -/
theorem comment_stripping_witness :
    before_hash "k=v # note".toList = "k=v ".toList ∧
    classify PARSE_COMMENTS_HASH "k=v # note".toList = .key_value "k".toList "v".toList ∧
    classify 0 "k=v # note".toList = .key_value "k".toList "v # note".toList ∧
    classify PARSE_COMMENTS_HASH (before_hash "k=v # note".toList) =
      classify PARSE_COMMENTS_HASH "k=v # note".toList ∧
    fresh.parse_lines ["k=v # note".toList] PARSE_COMMENTS_HASH =
      .ret () { fresh with heap := [[("k".toList, "v".toList)]] } ∧
    fresh.parse_lines ["k=v # note".toList] 0 =
      .ret () { fresh with heap := [[("k".toList, "v # note".toList)]] } ∧
    INI.strip_comments 0 "k=v # note".toList = "k=v # note".toList ∧
    before_slashes "k=v // note".toList = "k=v ".toList ∧
    before_slashes "a/b=c/ /d".toList = "a/b=c/ /d".toList ∧
    INI.strip_comments PARSE_COMMENTS_SLASH "k=v // note".toList = "k=v ".toList ∧
    classify PARSE_COMMENTS_SLASH "k=v // note".toList = .key_value "k".toList "v".toList ∧
    classify PARSE_COMMENTS_ALL "k=v // note".toList = .key_value "k".toList "v".toList ∧
    classify PARSE_COMMENTS_ALL "k=v # note".toList = .key_value "k".toList "v".toList ∧
    classify 0 "k=v // note".toList = .key_value "k".toList "v // note".toList ∧
    classify PARSE_COMMENTS_HASH "k=v // note".toList =
      .key_value "k".toList "v // note".toList ∧
    classify PARSE_COMMENTS_SLASH "a/b=c/ /d".toList =
      .key_value "a/b".toList "c/ /d".toList ∧
    classify PARSE_COMMENTS_SLASH (before_slashes "k=v // note".toList) =
      classify PARSE_COMMENTS_SLASH "k=v // note".toList ∧
    fresh.parse_lines ["k=v // note".toList] PARSE_COMMENTS_SLASH =
      .ret () { fresh with heap := [[("k".toList, "v".toList)]] } ∧
    fresh.parse_lines ["k=v // note".toList] 0 =
      .ret () { fresh with heap := [[("k".toList, "v // note".toList)]] } :=
  ⟨by decide, by decide, by decide,
    ((comment_stripping PARSE_COMMENTS_HASH).1 (by decide)).1 "k=v # note".toList,
    by decide, by decide,
    (comment_stripping 0).2.2 (by decide) (by decide) (by decide) "k=v # note".toList,
    by decide, by decide, by decide, by decide, by decide, by decide, by decide, by decide,
    by decide,
    ((comment_stripping PARSE_COMMENTS_SLASH).2.1 (by decide)).1 "k=v // note".toList,
    by decide, by decide⟩

theorem heap_set_same (heap : List keys_t) (p : Nat) (ks : keys_t) (h : heap[p]? = some ks) :
    heap.set p ks = heap := by
  apply List.ext_getElem?
  intro n
  rw [List.getElem?_set]
  by_cases hn : p = n
  · subst hn
    rw [if_pos rfl, if_pos (List.getElem?_eq_some.mp h).1, h]
  · rw [if_neg hn]

theorem foldl_assign_find_other (kvs : List (fini_string_t × fini_string_t)) (k : fini_string_t) :
    ∀ ks : keys_t, k ∉ kvs.map Prod.fst →
      map_find (kvs.foldl (fun acc kv => map_assign acc kv.1 kv.2) ks) k = map_find ks k := by
  induction kvs with
  | nil => intro ks _; rfl
  | cons x rest ih =>
    intro ks hk
    simp only [List.map_cons, List.mem_cons, not_or] at hk
    rw [List.foldl_cons, ih _ hk.2, map_find_assign_other _ _ _ _ hk.1]

theorem foldl_assign_find_mem (kvs : List (fini_string_t × fini_string_t)) :
    ∀ ks : keys_t, (kvs.map Prod.fst).Nodup → ∀ k v, (k, v) ∈ kvs →
      map_find (kvs.foldl (fun acc kv => map_assign acc kv.1 kv.2) ks) k = some v := by
  induction kvs with
  | nil => intro ks _ k v h; cases h
  | cons x rest ih =>
    intro ks hnd k v hmem
    simp only [List.map_cons, List.nodup_cons] at hnd
    rw [List.foldl_cons]
    rcases List.mem_cons.mp hmem with h | h
    · subst h
      rw [foldl_assign_find_other rest _ _ hnd.1, map_find_assign_same]
    · exact ih _ hnd.2 k v h

theorem key_values_cons (parseFlags : Nat) (l : fini_string_t) (rest : List fini_string_t) :
    key_values parseFlags (l :: rest) =
      (match classify parseFlags l with
        | .key_value k v => [(k, v)]
        | _ => []) ++ key_values parseFlags rest := by
  simp only [key_values, List.filterMap_cons]
  cases classify parseFlags l <;> rfl

theorem parse_loop_keys_only (parseFlags : Nat) (lines : List fini_string_t) :
    ∀ (doc : INI) (loc : INI.locals) (p : Nat) (ks : keys_t),
      (∀ l ∈ lines, is_header parseFlags l = false) →
      loc.local_current = some p → doc.heap[p]? = some ks →
      (∀ kv ∈ key_values parseFlags lines, map_find ks kv.1 = none) →
      ((key_values parseFlags lines).map Prod.fst).Nodup →
      INI.parse_loop parseFlags doc loc lines =
        .ret { loc with i := loc.i + lines.length }
          (INI.mk doc.source
            (doc.heap.set p
              ((key_values parseFlags lines).foldl (fun acc kv => map_assign acc kv.1 kv.2) ks))
            doc.current doc.sections) := by
  induction lines with
  | nil =>
    intro doc loc p ks _ _ hks _ _
    simp [INI.parse_loop, key_values, heap_set_same _ _ _ hks]
  | cons l rest ih =>
    intro doc loc p ks hno hloc hks hfree hnd
    have hno' : ∀ l ∈ rest, is_header parseFlags l = false :=
      fun x hx => hno x (List.mem_cons_of_mem _ hx)
    have hl := hno l (List.mem_cons_self _ _)
    rw [key_values_cons] at hfree hnd ⊢
    simp only [INI.parse_loop, parse_line_eq]
    cases hc : classify parseFlags l with
    | blank =>
      simp only [hc, List.nil_append] at hfree hnd ⊢
      rw [ih doc (INI.locals.mk loc.sec (loc.i + 1) loc.local_current) p ks hno' hloc hks
        hfree hnd]
      simp only [List.length_cons, Outcome.ret.injEq, INI.locals.mk.injEq, and_true, true_and]
      omega
    | inert =>
      simp only [hc, List.nil_append] at hfree hnd ⊢
      rw [ih doc (INI.locals.mk loc.sec (loc.i + 1) loc.local_current) p ks hno' hloc hks
        hfree hnd]
      simp only [List.length_cons, Outcome.ret.injEq, INI.locals.mk.injEq, and_true, true_and]
      omega
    | section_header n => simp [is_header, hc] at hl
    | key_value k v =>
      simp only [hc, List.singleton_append, List.map_cons, List.nodup_cons,
        List.foldl_cons] at hfree hnd ⊢
      have hk : map_find ks k = none := hfree (k, v) (List.mem_cons_self _ _)
      have hlen : p < doc.heap.length := (List.getElem?_eq_some.mp hks).1
      simp only [hloc, hks, hk, Option.isSome_none, Bool.false_eq_true, if_false, map_emplace]
      rw [ih (INI.mk doc.source (doc.heap.set p (map_assign ks k v)) doc.current doc.sections)
        (INI.locals.mk loc.sec (loc.i + 1) (some p)) p (map_assign ks k v) hno' rfl
        (by simp [List.getElem?_set_self hlen]) ?_ hnd.2]
      · simp only [List.length_cons, Outcome.ret.injEq, INI.locals.mk.injEq, and_true, true_and,
          List.set_set]
        omega
      · intro kv hkv
        have hne : kv.1 ≠ k := by
          intro h
          exact hnd.1 (List.mem_map.mpr ⟨kv, hkv, h⟩)
        rw [map_find_assign_other _ _ _ _ hne]
        exact hfree kv (List.mem_cons_of_mem _ hkv)

/-- C4: when no line is a section header and no key occurs on two key lines,
parsing into a new document returns normally and leaves every key line `k=v` in
the unnamed section: `get("", k, d)` and `get(k, d)` both return `v`, for every
default `d`, and leave the document as it is (`current` still points to the body
of the unnamed section). -/
theorem default_section_fallback (parseFlags : Nat) (lines : List fini_string_t)
    (hno : ∀ l ∈ lines, is_header parseFlags l = false)
    (hnd : ((key_values parseFlags lines).map Prod.fst).Nodup) :
    ∃ d, fresh.parse_lines lines parseFlags = .ret () d ∧
      d.sections = [([], 0)] ∧ d.current = some 0 ∧
      ∀ k v, (k, v) ∈ key_values parseFlags lines →
        ∀ dflt, d.get [] k dflt = .ret v d ∧ d.get_key k dflt = .ret v d := by
  have h := parse_loop_keys_only parseFlags lines fresh (INI.parse_start fresh) 0 [] hno rfl rfl
    (fun _ _ => rfl) hnd
  refine ⟨_, by simp only [INI.parse_lines, h, Outcome.bind]; rfl, rfl, rfl, ?_⟩
  intro k v hkv dflt
  have hf := foldl_assign_find_mem _ [] hnd k v hkv
  constructor
  · simp [INI.get, INI.select, fresh, map_find, Outcome.bind, INI.get_key, INI.deref, hf]
  · simp [fresh, INI.get_key, INI.deref, hf]

/-- C4 on the single line `a=1`. -/
theorem default_section_fallback_witness :
    (∀ l ∈ ["a=1".toList], is_header 0 l = false) ∧
    ((key_values 0 ["a=1".toList]).map Prod.fst).Nodup ∧
    (['a'], ['1']) ∈ key_values 0 ["a=1".toList] ∧
    ∃ d, fresh.parse_lines ["a=1".toList] 0 = .ret () d ∧
      d.sections = [([], 0)] ∧ d.current = some 0 ∧
      ∀ k v, (k, v) ∈ key_values 0 ["a=1".toList] →
        ∀ dflt, d.get [] k dflt = .ret v d ∧ d.get_key k dflt = .ret v d :=
  ⟨by decide, by decide, by decide,
    default_section_fallback 0 ["a=1".toList] (by decide) (by decide)⟩

theorem parse_line_header_present (parseFlags : Nat) (doc : INI) (loc : INI.locals)
    (l n : fini_string_t) (hc : classify parseFlags l = .section_header n)
    (hn : (map_find doc.sections n).isSome = true) :
    INI.parse_line parseFlags doc loc l = .threw (.parse_duplicate_section n loc.i) doc := by
  rw [parse_line_eq, hc]
  simp only [hn, if_true]

theorem parse_line_key_present (parseFlags : Nat) (doc : INI) (loc : INI.locals)
    (l k v : fini_string_t) (p : Nat) (ks : keys_t) (hc : classify parseFlags l = .key_value k v)
    (hloc : loc.local_current = some p) (hks : doc.heap[p]? = some ks)
    (hk : (map_find ks k).isSome = true) :
    INI.parse_line parseFlags doc loc l = .threw (.parse_duplicate_key k loc.i) doc := by
  rw [parse_line_eq, hc]
  simp only [hloc, hks, hk, if_true]

theorem parse_line_step (parseFlags : Nat) (doc : INI) (loc : INI.locals) (l : fini_string_t)
    (hok : parser_ready doc loc) :
    (∃ e, INI.parse_line parseFlags doc loc l = .threw e doc) ∨
    (∃ loc' d', INI.parse_line parseFlags doc loc l = .ret loc' d' ∧ parser_ready d' loc' ∧
      loc'.i = loc.i ∧
      (∀ n, (map_find doc.sections n).isSome = true → (map_find d'.sections n).isSome = true) ∧
      (∀ n, classify parseFlags l = .section_header n → (map_find d'.sections n).isSome = true) ∧
      (is_header parseFlags l = false → loc'.local_current = loc.local_current ∧
        ∀ p ks, loc.local_current = some p → doc.heap[p]? = some ks →
          ∃ ks', d'.heap[p]? = some ks' ∧
            (∀ k, (map_find ks k).isSome = true → (map_find ks' k).isSome = true) ∧
            ∀ k v, classify parseFlags l = .key_value k v → (map_find ks' k).isSome = true)) := by
  obtain ⟨⟨p, hp, hlen⟩, hdef⟩ := hok
  rw [parse_line_eq]
  cases hc : classify parseFlags l with
  | blank =>
    right
    refine ⟨loc, doc, rfl, ⟨⟨p, hp, hlen⟩, hdef⟩, rfl, fun _ h => h, ?_, ?_⟩
    · intro n h; cases h
    · intro _
      refine ⟨rfl, fun q ks _ hks => ⟨ks, hks, fun _ h => h, ?_⟩⟩
      intro k v h; cases h
  | inert =>
    right
    refine ⟨loc, doc, rfl, ⟨⟨p, hp, hlen⟩, hdef⟩, rfl, fun _ h => h, ?_, ?_⟩
    · intro n h; cases h
    · intro _
      refine ⟨rfl, fun q ks _ hks => ⟨ks, hks, fun _ h => h, ?_⟩⟩
      intro k v h; cases h
  | section_header n =>
    dsimp only
    by_cases hn : (map_find doc.sections n).isSome = true
    · left
      exact ⟨_, by rw [if_pos hn]⟩
    · right
      have hmono : ∀ m, (map_find doc.sections m).isSome = true →
          (map_find (map_assign doc.sections n doc.heap.length) m).isSome = true := by
        intro m hm
        by_cases hmn : m = n
        · subst hmn
          exact absurd hm hn
        · rw [map_find_assign_other _ _ _ _ hmn]
          exact hm
      refine ⟨INI.locals.mk n loc.i (some doc.heap.length),
        INI.mk doc.source (doc.heap ++ [[]]) doc.current
          (map_assign doc.sections n doc.heap.length),
        by rw [if_neg hn], ⟨⟨doc.heap.length, rfl, by simp⟩, hmono _ hdef⟩, rfl,
        hmono, ?_, ?_⟩
      · intro m hm
        cases hm
        simp [map_find_assign_same]
      · intro h
        simp [is_header, hc] at h
  | key_value k v =>
    have hks : doc.heap[p]? = some doc.heap[p] := List.getElem?_eq_getElem hlen
    simp only [hp, hks]
    by_cases hk : (map_find doc.heap[p] k).isSome = true
    · left
      exact ⟨_, by rw [if_pos hk]⟩
    · right
      have hk' : map_find doc.heap[p] k = none := by
        cases h : map_find doc.heap[p] k with
        | none => rfl
        | some x => simp [h] at hk
      refine ⟨loc, INI.mk doc.source (doc.heap.set p (map_emplace doc.heap[p] k v)) doc.current
          doc.sections,
        by rw [if_neg hk], ⟨⟨p, hp, by simp [hlen]⟩, hdef⟩, rfl, fun _ h => h, ?_, ?_⟩
      · intro n h; cases h
      · intro _
        refine ⟨hp, ?_⟩
        intro q ks hq hqs
        cases hq
        rw [hks] at hqs
        cases hqs
        refine ⟨_, List.getElem?_set_self hlen, ?_, ?_⟩
        · intro k0 hk0
          simp only [map_emplace, hk', Option.isSome_none, Bool.false_eq_true, if_false]
          by_cases hkk : k0 = k
          · subst hkk
            simp [map_find_assign_same]
          · rw [map_find_assign_other _ _ _ _ hkk]
            exact hk0
        · intro k0 v0 h0
          cases h0
          simp [map_emplace, hk', map_find_assign_same]

theorem parse_loop_cons_raised (parseFlags : Nat) (doc : INI) (loc : INI.locals)
    (x : fini_string_t) (rest : List fini_string_t) :
    (INI.parse_loop parseFlags doc loc (x :: rest)).raised =
      match INI.parse_line parseFlags doc { loc with i := loc.i + 1 } x with
      | .ret loc' d' => (INI.parse_loop parseFlags d' loc' rest).raised
      | .threw _ _ => true
      | .undefined => false := by
  simp only [INI.parse_loop]
  cases INI.parse_line parseFlags doc { loc with i := loc.i + 1 } x <;> rfl

theorem parser_ready_line (doc : INI) (loc : INI.locals) (h : parser_ready doc loc) :
    parser_ready doc { loc with i := loc.i + 1 } := h

theorem header_present_raises (parseFlags : Nat) (n : fini_string_t)
    (lines : List fini_string_t) :
    ∀ (doc : INI) (loc : INI.locals), parser_ready doc loc →
      (map_find doc.sections n).isSome = true →
      (∃ l ∈ lines, classify parseFlags l = .section_header n) →
      (INI.parse_loop parseFlags doc loc lines).raised = true := by
  induction lines with
  | nil => intro doc loc _ _ ⟨l, hl, _⟩; cases hl
  | cons x rest ih =>
    intro doc loc hok hn ⟨l, hl, hc⟩
    rw [parse_loop_cons_raised]
    by_cases hx : classify parseFlags x = .section_header n
    · rw [parse_line_header_present parseFlags doc _ x n hx hn]
    · have hl' : l ∈ rest := by
        rcases List.mem_cons.mp hl with h | h
        · subst h
          exact absurd hc hx
        · exact h
      rcases parse_line_step parseFlags doc { loc with i := loc.i + 1 } x
        (parser_ready_line doc loc hok) with ⟨e, he⟩ | ⟨loc', d', he, hok', _, hmono, _, _⟩
      · rw [he]
      · rw [he]
        exact ih d' loc' hok' (hmono n hn) ⟨l, hl', hc⟩

theorem two_headers_raise (parseFlags : Nat) (n l1 : fini_string_t)
    (rest : List fini_string_t) (hc1 : classify parseFlags l1 = .section_header n)
    (h2 : ∃ l ∈ rest, classify parseFlags l = .section_header n) (a : List fini_string_t) :
    ∀ (doc : INI) (loc : INI.locals), parser_ready doc loc →
      (INI.parse_loop parseFlags doc loc (a ++ l1 :: rest)).raised = true := by
  induction a with
  | nil =>
    intro doc loc hok
    rw [List.nil_append, parse_loop_cons_raised]
    rcases parse_line_step parseFlags doc { loc with i := loc.i + 1 } l1
      (parser_ready_line doc loc hok) with ⟨e, he⟩ | ⟨loc', d', he, hok', _, _, hin, _⟩
    · rw [he]
    · rw [he]
      exact header_present_raises parseFlags n rest d' loc' hok' (hin n hc1) h2
  | cons x a' ih =>
    intro doc loc hok
    rw [List.cons_append, parse_loop_cons_raised]
    rcases parse_line_step parseFlags doc { loc with i := loc.i + 1 } x
      (parser_ready_line doc loc hok) with ⟨e, he⟩ | ⟨loc', d', he, hok', _, _, _, _⟩
    · rw [he]
    · rw [he]
      exact ih d' loc' hok'

theorem key_present_raises (parseFlags : Nat) (k v2 l2 : fini_string_t)
    (c : List fini_string_t) (hc2 : classify parseFlags l2 = .key_value k v2)
    (b : List fini_string_t) :
    ∀ (doc : INI) (loc : INI.locals) (p : Nat) (ks : keys_t), parser_ready doc loc →
      (∀ l ∈ b, is_header parseFlags l = false) →
      loc.local_current = some p → doc.heap[p]? = some ks → (map_find ks k).isSome = true →
      (INI.parse_loop parseFlags doc loc (b ++ l2 :: c)).raised = true := by
  induction b with
  | nil =>
    intro doc loc p ks _ _ hloc hks hk
    rw [List.nil_append, parse_loop_cons_raised,
      parse_line_key_present parseFlags doc (INI.locals.mk loc.sec (loc.i + 1) loc.local_current)
        l2 k v2 p ks hc2 hloc hks hk]
  | cons x b' ih =>
    intro doc loc p ks hok hno hloc hks hk
    rw [List.cons_append, parse_loop_cons_raised]
    rcases parse_line_step parseFlags doc { loc with i := loc.i + 1 } x
      (parser_ready_line doc loc hok) with ⟨e, he⟩ | ⟨loc', d', he, hok', _, _, _, hkeep⟩
    · rw [he]
    · rw [he]
      obtain ⟨hsame, hbody⟩ := hkeep (hno x (List.mem_cons_self _ _))
      obtain ⟨ks', hks', hsub, _⟩ := hbody p ks hloc hks
      exact ih d' loc' p ks' hok' (fun l hl => hno l (List.mem_cons_of_mem _ hl))
        (hsame.trans hloc) hks' (hsub k hk)

theorem two_keys_raise (parseFlags : Nat) (k v1 v2 l1 l2 : fini_string_t)
    (b c : List fini_string_t) (hc1 : classify parseFlags l1 = .key_value k v1)
    (hc2 : classify parseFlags l2 = .key_value k v2)
    (hno : ∀ l ∈ b, is_header parseFlags l = false) (a : List fini_string_t) :
    ∀ (doc : INI) (loc : INI.locals), parser_ready doc loc →
      (INI.parse_loop parseFlags doc loc (a ++ l1 :: (b ++ l2 :: c))).raised = true := by
  induction a with
  | nil =>
    intro doc loc hok
    obtain ⟨⟨p, hp, hlen⟩, _⟩ := id hok
    rw [List.nil_append, parse_loop_cons_raised]
    rcases parse_line_step parseFlags doc { loc with i := loc.i + 1 } l1
      (parser_ready_line doc loc hok) with ⟨e, he⟩ | ⟨loc', d', he, hok', _, _, _, hkeep⟩
    · rw [he]
    · rw [he]
      obtain ⟨hsame, hbody⟩ := hkeep (by simp [is_header, hc1])
      obtain ⟨ks', hks', _, hin⟩ := hbody p doc.heap[p] hp (List.getElem?_eq_getElem hlen)
      exact key_present_raises parseFlags k v2 l2 c hc2 b d' loc' p ks' hok' hno
        (hsame.trans hp) hks' (hin k v1 hc1)
  | cons x a' ih =>
    intro doc loc hok
    rw [List.cons_append, parse_loop_cons_raised]
    rcases parse_line_step parseFlags doc { loc with i := loc.i + 1 } x
      (parser_ready_line doc loc hok) with ⟨e, he⟩ | ⟨loc', d', he, hok', _, _, _, _⟩
    · rw [he]
    · rw [he]
      exact ih d' loc' hok'

theorem foldl_next_section (parseFlags : Nat) (b : List fini_string_t) :
    ∀ s0 : fini_string_t,
      ((∀ l ∈ b, is_header parseFlags l = false) ∧ b.foldl (next_section parseFlags) s0 = s0) ∨
      (∃ h ∈ b, classify parseFlags h =
        .section_header (b.foldl (next_section parseFlags) s0)) := by
  induction b with
  | nil => intro s0; left; exact ⟨fun _ h => absurd h (List.not_mem_nil _), rfl⟩
  | cons x rest ih =>
    intro s0
    rw [List.foldl_cons]
    rcases ih (next_section parseFlags s0 x) with ⟨hno, heq⟩ | ⟨h, hh, hc⟩
    · cases hx : classify parseFlags x with
      | section_header n =>
        right
        refine ⟨x, List.mem_cons_self _ _, ?_⟩
        rw [heq, hx]
        simp [next_section, hx]
      | blank =>
        left
        have hs : next_section parseFlags s0 x = s0 := by simp [next_section, hx]
        refine ⟨?_, by rw [heq, hs]⟩
        intro l hl
        rcases List.mem_cons.mp hl with h | h
        · subst h; simp [is_header, hx]
        · exact hno l h
      | inert =>
        left
        have hs : next_section parseFlags s0 x = s0 := by simp [next_section, hx]
        refine ⟨?_, by rw [heq, hs]⟩
        intro l hl
        rcases List.mem_cons.mp hl with h | h
        · subst h; simp [is_header, hx]
        · exact hno l h
      | key_value k v =>
        left
        have hs : next_section parseFlags s0 x = s0 := by simp [next_section, hx]
        refine ⟨?_, by rw [heq, hs]⟩
        intro l hl
        rcases List.mem_cons.mp hl with h | h
        · subst h; simp [is_header, hx]
        · exact hno l h
    · right
      exact ⟨h, List.mem_cons_of_mem _ hh, hc⟩

theorem parser_ready_fresh : parser_ready fresh (INI.parse_start fresh) :=
  ⟨⟨0, rfl, by decide⟩, by decide⟩

theorem parse_lines_raised (doc : INI) (lines : List fini_string_t) (parseFlags : Nat) :
    (doc.parse_lines lines parseFlags).raised =
      (INI.parse_loop parseFlags doc (INI.parse_start doc) lines).raised := by
  simp only [INI.parse_lines]
  cases INI.parse_loop parseFlags doc (INI.parse_start doc) lines <;> rfl

/-- C3: parsing into a new document throws when two section-header lines carry the
same non-empty name, and throws when two key lines carry the same key while the
same section is active (the name of the last header before either line is the
same, or neither has a header before it); so the parse never returns normally
with a duplicate taken in. -/
theorem duplicate_rejection (parseFlags : Nat) (a b c : List fini_string_t)
    (l1 l2 : fini_string_t) :
    (∀ n, n ≠ [] → classify parseFlags l1 = .section_header n →
      classify parseFlags l2 = .section_header n →
      (fresh.parse_lines (a ++ l1 :: (b ++ l2 :: c)) parseFlags).raised = true) ∧
    (∀ k v1 v2, classify parseFlags l1 = .key_value k v1 →
      classify parseFlags l2 = .key_value k v2 →
      active_section parseFlags a = active_section parseFlags (a ++ l1 :: b) →
      (fresh.parse_lines (a ++ l1 :: (b ++ l2 :: c)) parseFlags).raised = true) := by
  refine ⟨?_, ?_⟩
  · intro n _ hc1 hc2
    rw [parse_lines_raised]
    exact two_headers_raise parseFlags n l1 _ hc1 ⟨l2, by simp, hc2⟩ a fresh _ parser_ready_fresh
  · intro k v1 v2 hc1 hc2 hact
    rw [parse_lines_raised]
    have hl1 : next_section parseFlags (active_section parseFlags a) l1 =
        active_section parseFlags a := by simp [next_section, hc1]
    simp only [active_section, List.foldl_append, List.foldl_cons] at hact hl1
    rw [hl1] at hact
    rcases foldl_next_section parseFlags b (a.foldl (next_section parseFlags) []) with
      ⟨hno, _⟩ | ⟨h, hh, hch⟩
    · exact two_keys_raise parseFlags k v1 v2 l1 l2 b c hc1 hc2 hno a fresh _ parser_ready_fresh
    · rw [← hact] at hch
      have hmem : h ∈ l1 :: (b ++ l2 :: c) := by simp [hh]
      rcases foldl_next_section parseFlags a [] with ⟨_, heq⟩ | ⟨h0, hh0, hch0⟩
      · rw [heq] at hch
        exact header_present_raises parseFlags [] _ fresh _ parser_ready_fresh (by decide)
          ⟨h, by simp [hh], hch⟩
      · obtain ⟨a1, a2, ha⟩ := List.append_of_mem hh0
        rw [ha, List.append_assoc, List.cons_append]
        exact two_headers_raise parseFlags _ h0 _ hch0 ⟨h, by simp [hh], hch⟩ a1 fresh _
          parser_ready_fresh

/-- C3 on two `[A]` headers and on `k=1` followed by `k=2`: the second line throws,
and the document left behind holds what the first line put in. -/
theorem duplicate_rejection_witness :
    fresh.parse_lines ["[A]".toList, "[A]".toList] 0 =
      .threw (.parse_duplicate_section ['A'] 2)
        { fresh with heap := [[], []], sections := [([], 0), (['A'], 1)] } ∧
    fresh.parse_lines ["k=1".toList, "k=2".toList] 0 =
      .threw (.parse_duplicate_key ['k'] 2) { fresh with heap := [[(['k'], ['1'])]] } ∧
    (fresh.parse_lines ([] ++ "[A]".toList :: ([] ++ "[A]".toList :: [])) 0).raised = true ∧
    (fresh.parse_lines ([] ++ "k=1".toList :: ([] ++ "k=2".toList :: [])) 0).raised = true :=
  ⟨by decide, by decide,
    (duplicate_rejection 0 [] [] [] "[A]".toList "[A]".toList).1 ['A'] (by decide) (by decide)
      (by decide),
    (duplicate_rejection 0 [] [] [] "k=1".toList "k=2".toList).2 ['k'] ['1'] ['2'] (by decide)
      (by decide) (by decide)⟩

/-! ## Round trip -/

theorem l_trim_nil (cs : fini_string_t) : l_trim [] cs = [] := rfl

theorem l_trim_cons_not_mem (c : Char) (s cs : fini_string_t) (h : c ∉ cs) :
    l_trim (c :: s) cs = c :: s := by
  simp [l_trim, find_first_not_of, h, erase]

theorem l_trim_cons_mem (c : Char) (s cs : fini_string_t) (h : c ∈ cs) :
    l_trim (c :: s) cs = l_trim s cs := by
  simp only [l_trim, find_first_not_of, h, if_true]
  cases find_first_not_of cs s with
  | none => simp [erase]
  | some n => simp [erase]

theorem l_trim_eq_self (s cs : fini_string_t) (h : begins_in cs s = false) : l_trim s cs = s := by
  cases s with
  | nil => rfl
  | cons c t =>
    apply l_trim_cons_not_mem
    simpa [begins_in] using h

theorem find_last_not_of_lt (cs : fini_string_t) (s : fini_string_t) :
    ∀ p, find_last_not_of cs s = some p → p < s.length := by
  induction s with
  | nil => intro p h; simp [find_last_not_of] at h
  | cons c t ih =>
    intro p h
    simp only [find_last_not_of] at h
    cases hf : find_last_not_of cs t with
    | some q =>
      rw [hf] at h
      simp only [Option.some.injEq] at h
      have := ih q hf
      simp only [List.length_cons]
      omega
    | none =>
      rw [hf] at h
      by_cases hc : c ∈ cs
      · simp [hc] at h
      · simp only [hc, if_false, Option.some.injEq] at h
        simp only [List.length_cons]
        omega

theorem find_last_not_of_cons (cs s : fini_string_t) (c : Char) :
    find_last_not_of cs (c :: s) =
      match find_last_not_of cs s with
      | some p => some (p + 1)
      | none => if c ∈ cs then none else some 0 := rfl

theorem find_last_not_of_concat (cs s : fini_string_t) (c : Char) :
    find_last_not_of cs (s ++ [c]) = if c ∈ cs then find_last_not_of cs s else some s.length := by
  induction s with
  | nil =>
    by_cases hc : c ∈ cs
    · simp [find_last_not_of, hc]
    · simp [find_last_not_of, hc]
  | cons d t ih =>
    rw [List.cons_append, find_last_not_of_cons, ih, find_last_not_of_cons]
    by_cases hc : c ∈ cs
    · simp only [hc, if_true]
    · simp only [hc, if_false, List.length_cons]

theorem r_trim_nil (cs : fini_string_t) : r_trim [] cs = [] := rfl

theorem r_trim_concat_not_mem (s cs : fini_string_t) (c : Char) (h : c ∉ cs) :
    r_trim (s ++ [c]) cs = s ++ [c] := by
  simp only [r_trim, find_last_not_of_concat, h, if_false, erase]
  rw [List.take_of_length_le]
  simp

theorem r_trim_concat_mem (s cs : fini_string_t) (c : Char) (h : c ∈ cs) :
    r_trim (s ++ [c]) cs = r_trim s cs := by
  simp only [r_trim, find_last_not_of_concat, h, if_true, erase]
  cases hf : find_last_not_of cs s with
  | none => simp
  | some p =>
    have := find_last_not_of_lt cs s p hf
    simp only
    rw [List.take_append_of_le_length (by omega)]

theorem r_trim_eq_self (s cs : fini_string_t) (h : ends_in cs s = false) : r_trim s cs = s := by
  rcases List.eq_nil_or_concat s with hs | ⟨t, c, hs⟩
  · subst hs
    rfl
  · rw [List.concat_eq_append] at hs
    subst hs
    apply r_trim_concat_not_mem
    simpa [ends_in, begins_in] using h

theorem trim_eq_self (s cs : fini_string_t) (hb : begins_in cs s = false)
    (he : ends_in cs s = false) : trim s cs = s := by
  rw [trim, r_trim_eq_self s cs he, l_trim_eq_self s cs hb]

theorem find_char_cons (ch c : Char) (s : fini_string_t) :
    find_char ch (c :: s) = if c = ch then some 0 else (find_char ch s).map (· + 1) := rfl

theorem find_char_append (ch : Char) (k v : fini_string_t) (h : ch ∉ k) :
    find_char ch (k ++ ch :: v) = some k.length := by
  induction k with
  | nil => simp [find_char]
  | cons c t ih =>
    simp only [List.mem_cons, not_or] at h
    rw [List.cons_append, find_char_cons, if_neg (fun hh => h.1 hh.symm), ih h.2]
    rfl

theorem begins_in_append (cs s t : fini_string_t) (hs : s ≠ []) :
    begins_in cs (s ++ t) = begins_in cs s := by
  cases s with
  | nil => exact absurd rfl hs
  | cons c r => rfl

theorem strip_comments_zero (line : fini_string_t) : INI.strip_comments 0 line = line := by
  simp [INI.strip_comments, has_flag]

theorem classify_of_trimmed (c : Char) (rest : fini_string_t)
    (hline : trim (c :: rest) default_trim_chars = c :: rest) :
    classify 0 (c :: rest) =
      if '[' = c then .section_header (trim (c :: rest) ['[', ']', ' '])
      else
        match find_char '=' (c :: rest) with
        | none => .inert
        | some i =>
          .key_value (r_trim (substr (c :: rest) 0 (some i)) default_trim_chars)
            (l_trim (substr (c :: rest) (i + 1) none) default_trim_chars) := by
  simp only [classify, strip_comments_zero, hline]

theorem classify_key_line (k v : fini_string_t) (hk : k ≠ []) (heq : '=' ∉ k) (hbr : '[' ∉ k)
    (hkb : begins_in default_trim_chars k = false) (hke : ends_in default_trim_chars k = false)
    (hvb : begins_in default_trim_chars v = false) (hve : ends_in default_trim_chars v = false) :
    classify 0 (k ++ '=' :: v) = .key_value k v := by
  have hline : trim (k ++ '=' :: v) default_trim_chars = k ++ '=' :: v := by
    apply trim_eq_self
    · rw [begins_in_append _ _ _ hk]
      exact hkb
    · rw [ends_in, List.reverse_append, List.reverse_cons]
      by_cases hv : v = []
      · subst hv
        simp [begins_in, default_trim_chars]
      · rw [List.append_assoc, begins_in_append _ _ _ (by simpa using hv)]
        exact hve
  have hf := find_char_append '=' k v heq
  cases k with
  | nil => exact absurd rfl hk
  | cons c t =>
    have hc : ¬ '[' = c := by
      intro h
      exact hbr (by rw [h]; exact List.mem_cons_self _ _)
    rw [List.cons_append] at hf hline ⊢
    rw [classify_of_trimmed _ _ hline]
    simp only [if_neg hc, hf]
    have h1 : substr (c :: (t ++ '=' :: v)) 0 (some (c :: t).length) = c :: t := by
      rw [← List.cons_append]
      simp only [substr, List.drop_zero]
      exact List.take_left' rfl
    have h2 : substr (c :: (t ++ '=' :: v)) ((c :: t).length + 1) none = v := by
      have e : c :: (t ++ '=' :: v) = (c :: t ++ ['=']) ++ v := by simp
      rw [e]
      simp only [substr]
      exact List.drop_left' (by simp)
    rw [h1, h2, r_trim_eq_self _ _ hke, l_trim_eq_self _ _ hvb]

theorem classify_section_line (n : fini_string_t) (hn : n ≠ [])
    (hb : begins_in ['[', ']', ' '] n = false) (he : ends_in ['[', ']', ' '] n = false) :
    classify 0 ('[' :: (n ++ [']'])) = .section_header n := by
  have hline : trim ('[' :: (n ++ [']'])) default_trim_chars = '[' :: (n ++ [']']) := by
    apply trim_eq_self
    · rfl
    · simp [ends_in, begins_in, default_trim_chars]
  rw [classify_of_trimmed _ _ hline]
  simp only [if_true]
  congr 1
  have he' : ends_in ['[', ']', ' '] ('[' :: n) = false := by
    rw [ends_in, List.reverse_cons, begins_in_append _ _ _ (by simpa using hn)]
    exact he
  rw [trim, ← List.cons_append, r_trim_concat_mem _ _ _ (by decide), r_trim_eq_self _ _ he',
    l_trim_cons_mem _ _ _ (by decide), l_trim_eq_self _ _ hb]

theorem apart_map_assign (m : sections_t) (k : fini_string_t) (p : Nat)
    (h : m.Pairwise (fun a b => a.2 ≠ b.2)) (hp : ∀ x ∈ m, x.2 ≠ p) :
    (map_assign m k p).Pairwise (fun a b => a.2 ≠ b.2) := by
  induction m with
  | nil => simp [map_assign]
  | cons y rest ih =>
    obtain ⟨k0, v0⟩ := y
    have hpw := List.pairwise_cons.mp h
    simp only [map_assign]
    split
    · exact List.pairwise_cons.mpr ⟨fun x hx => Ne.symm (hp x hx), h⟩
    · split
      · exact List.pairwise_cons.mpr
          ⟨fun x hx => Ne.symm (hp x (List.mem_cons_of_mem _ hx)), hpw.2⟩
      · refine List.pairwise_cons.mpr ⟨?_, ih hpw.2 (fun x hx => hp x (List.mem_cons_of_mem _ hx))⟩
        intro x hx
        rcases mem_map_assign rest k p x hx with h1 | h1
        · subst h1
          exact hp (k0, v0) (List.mem_cons_self _ _)
        · exact hpw.1 x h1

theorem sound_create (ok : fini_string_t → Prop) (d d' : INI) (name : fini_string_t)
    (hs : d.sound ok) (hn : name = [] ∨ ok name) (h : (d.create name).doc? = some d') :
    d'.sound ok := by
  unfold INI.create at h
  split at h
  · simp only [Outcome.doc?, Option.some.injEq] at h
    subst h
    exact hs
  · simp only [Outcome.doc?, Option.some.injEq] at h
    subst h
    refine ⟨⟨ordered_map_assign _ _ _ hs.wf.sections_ordered, ?_, ?_, ?_, ?_⟩, ?_, ?_, ?_⟩
    · intro x hx
      simp only [List.length_append, List.length_singleton]
      rcases mem_map_assign _ _ _ x hx with h1 | h1
      · subst h1
        exact Nat.lt_succ_self _
      · exact Nat.lt_succ_of_lt (hs.wf.sections_live x h1)
    · exact apart_map_assign _ _ _ hs.wf.sections_apart
        (fun x hx => Nat.ne_of_lt (hs.wf.sections_live x hx))
    · intro ks hks
      rcases List.mem_append.mp hks with h1 | h1
      · exact hs.wf.keys_ordered ks h1
      · simp only [List.mem_singleton] at h1
        subst h1
        exact List.Pairwise.nil
    · intro p hp
      simp only [Option.some.injEq] at hp
      subst hp
      simp
    · by_cases hne : name = []
      · subst hne
        simp [map_find_assign_same]
      · rw [map_find_assign_other _ _ _ _ (Ne.symm hne)]
        exact hs.default_present
    · intro x hx
      rcases mem_map_assign _ _ _ x hx with h1 | h1
      · subst h1
        exact hn
      · exact hs.names_ok x h1
    · intro ks hks
      rcases List.mem_append.mp hks with h1 | h1
      · exact hs.entries_ok ks h1
      · simp only [List.mem_singleton] at h1
        subst h1
        intro kv hkv
        cases hkv

theorem sound_current (ok : fini_string_t → Prop) (d : INI) (p : Nat) (hs : d.sound ok)
    (hp : p < d.heap.length) : ({ d with current := some p } : INI).sound ok :=
  ⟨⟨hs.wf.sections_ordered, hs.wf.sections_live, hs.wf.sections_apart, hs.wf.keys_ordered,
    fun q hq => by simp only [Option.some.injEq] at hq; subst hq; exact hp⟩,
    hs.default_present, hs.names_ok, hs.entries_ok⟩

theorem sound_select (ok : fini_string_t → Prop) (d d' : INI) (sec : fini_string_t)
    (hs : d.sound ok) (hn : sec = [] ∨ ok sec) (h : (d.select sec false).doc? = some d') :
    d'.sound ok := by
  unfold INI.select at h
  cases hf : map_find d.sections sec with
  | none =>
    rw [hf] at h
    simp only [Bool.not_false, if_true] at h
    apply sound_create ok d d' sec hs hn
    cases hc : d.create sec with
    | ret a d1 => rw [hc] at h; exact h
    | threw e d1 => rw [hc] at h; exact h
    | undefined => rw [hc] at h; exact h
  | some p =>
    rw [hf] at h
    simp only [Outcome.doc?, Option.some.injEq] at h
    subst h
    exact sound_current ok d p hs (hs.wf.sections_live _ (map_find_some_mem _ _ _ hf))

theorem sound_set_key (ok : fini_string_t → Prop) (d d' : INI) (key value : fini_string_t)
    (hs : d.sound ok) (hk : key ≠ []) (hok : ok key) (hov : ok value)
    (h : (d.set_key key value).doc? = some d') : d'.sound ok := by
  unfold INI.set_key at h
  cases hc : d.current with
  | none => rw [hc] at h; cases h
  | some p =>
    rw [hc] at h
    cases hks : d.heap[p]? with
    | none => simp [hks, Outcome.doc?] at h
    | some ks =>
      simp only [hks, Outcome.doc?, Option.some.injEq] at h
      subst h
      have hmem : ks ∈ d.heap := List.mem_iff_getElem?.mpr ⟨p, hks⟩
      refine ⟨⟨hs.wf.sections_ordered, ?_, hs.wf.sections_apart, ?_, ?_⟩, hs.default_present,
        hs.names_ok, ?_⟩
      · intro x hx
        simp only [List.length_set]
        exact hs.wf.sections_live x hx
      · intro ks' hks'
        rcases List.mem_or_eq_of_mem_set hks' with h1 | h1
        · exact hs.wf.keys_ordered ks' h1
        · subst h1
          exact ordered_map_assign _ _ _ (hs.wf.keys_ordered ks hmem)
      · intro q hq
        simp only [List.length_set]
        exact hs.wf.current_live q (hc.trans hq)
      · intro ks' hks'
        rcases List.mem_or_eq_of_mem_set hks' with h1 | h1
        · exact hs.entries_ok ks' h1
        · subst h1
          intro kv hkv
          rcases mem_map_assign _ _ _ kv hkv with h2 | h2
          · subst h2
            exact ⟨hk, hok, hov⟩
          · exact hs.entries_ok ks hmem kv h2

theorem doc_bind (α β : Type) (o : Outcome α) (f : α → INI → Outcome β) (d' : INI)
    (h : (o.bind f).doc? = some d') :
    (∃ e, o = .threw e d') ∨ ∃ a d1, o = .ret a d1 ∧ (f a d1).doc? = some d' := by
  cases o with
  | ret a d1 => exact Or.inr ⟨a, d1, rfl, h⟩
  | threw e d1 =>
    simp only [Outcome.bind, Outcome.doc?, Option.some.injEq] at h
    subst h
    exact Or.inl ⟨e, rfl⟩
  | undefined => cases h

theorem sound_set (ok : fini_string_t → Prop) (d d' : INI) (sec key value : fini_string_t)
    (hs : d.sound ok) (hn : sec = [] ∨ ok sec) (hk : key ≠ []) (hok : ok key) (hov : ok value)
    (h : (d.set sec key value).doc? = some d') : d'.sound ok := by
  unfold INI.set at h
  rcases doc_bind _ _ _ _ _ h with ⟨e, he⟩ | ⟨a, d1, he, h1⟩
  · rcases doc_bind _ _ _ _ _ (by rw [he]; rfl : (((d.select sec false).bind fun found d =>
      if !found then d.create sec else .ret () d)).doc? = some d') with ⟨e', he'⟩ | ⟨b, d2, he', h2⟩
    · exact sound_select ok d d' sec hs hn (by rw [he']; rfl)
    · have hs2 := sound_select ok d d2 sec hs hn (by rw [he']; rfl)
      cases b with
      | true => simp [Outcome.doc?] at h2; subst h2; exact hs2
      | false => exact sound_create ok d2 d' sec hs2 hn (by simpa using h2)
  · apply sound_set_key ok d1 d' key value ?_ hk hok hov h1
    rcases doc_bind _ _ _ _ _ (by rw [he]; rfl : (((d.select sec false).bind fun found d =>
      if !found then d.create sec else .ret () d)).doc? = some d1) with ⟨e', he'⟩ | ⟨b, d2, he', h2⟩
    · exact sound_select ok d d1 sec hs hn (by rw [he']; rfl)
    · have hs2 := sound_select ok d d2 sec hs hn (by rw [he']; rfl)
      cases b with
      | true => simp [Outcome.doc?] at h2; subst h2; exact hs2
      | false => exact sound_create ok d2 d1 sec hs2 hn (by simpa using h2)

theorem sound_fresh (ok : fini_string_t → Prop) : fresh.sound ok :=
  ⟨⟨by decide, by decide, by decide, by decide, by intro p h; cases h; decide⟩, by decide,
    by intro x hx; simp [fresh] at hx; left; rw [hx],
    by intro ks hks; simp [fresh] at hks; subst hks; intro kv hkv; cases hkv⟩

theorem sound_of_built (ok : fini_string_t → Prop) (d : INI) (h : Built ok d) : d.sound ok := by
  induction h with
  | new => exact sound_fresh ok
  | create d d' name _ _ hok hd ih => exact sound_create ok d d' name ih (Or.inr hok) hd
  | set_key d d' key value _ hk hok hov hd ih => exact sound_set_key ok d d' key value ih hk hok hov hd
  | set d d' sec key value _ _ hos hk hok hov hd ih =>
    exact sound_set ok d d' sec key value ih (Or.inr hos) hk hok hov hd

theorem has_flag_zero (bit : Nat) : has_flag 0 bit = false := by
  simp [has_flag]

theorem save_keys_zero (n : fini_string_t) (ks : keys_t) :
    INI.save_keys 0 n ks = ks.map (fun kv => INI.out_t.key_line n kv.1 kv.2) := by
  induction ks with
  | nil => rfl
  | cons x rest ih =>
    obtain ⟨k, v⟩ := x
    simp only [INI.save_keys, has_flag_zero, Bool.false_and, Bool.false_eq_true, if_false, ih,
      List.map_cons]

theorem save_section_zero (n : fini_string_t) (ks : keys_t) :
    INI.save_section 0 n ks =
      (if n = [] then [] else [INI.out_t.section_line n]) ++
        ks.map (fun kv => INI.out_t.key_line n kv.1 kv.2) := by
  simp only [INI.save_section, has_flag_zero, Bool.false_and, Bool.false_eq_true, if_false,
    save_keys_zero, List.append_nil]
  cases n <;> simp

theorem key_lines_eq (n : fini_string_t) (ks : keys_t) :
    (ks.map (fun kv => INI.out_t.key_line n kv.1 kv.2)).map out_line =
      ks.map (fun kv => kv.1 ++ '=' :: kv.2) := by
  rw [List.map_map]
  apply List.map_congr_left
  intro kv _
  simp [out_line]

theorem storable_key_line (kv : fini_string_t × fini_string_t)
    (h : kv.1 ≠ [] ∧ storable kv.1 ∧ storable kv.2) :
    classify 0 (kv.1 ++ '=' :: kv.2) = .key_value kv.1 kv.2 :=
  classify_key_line kv.1 kv.2 h.1 h.2.1.1.1 h.2.1.1.2.1 h.2.1.2.2.1 h.2.1.2.2.2
    h.2.2.2.2.1 h.2.2.2.2.2

theorem key_values_key_lines (ks : keys_t)
    (h : ∀ kv ∈ ks, kv.1 ≠ [] ∧ storable kv.1 ∧ storable kv.2) :
    key_values 0 (ks.map (fun kv => kv.1 ++ '=' :: kv.2)) = ks := by
  induction ks with
  | nil => rfl
  | cons x rest ih =>
    rw [List.map_cons, key_values_cons, storable_key_line x (h x (List.mem_cons_self _ _)),
      ih (fun kv hkv => h kv (List.mem_cons_of_mem _ hkv))]
    rfl

theorem foldl_assign_ordered_eq (ks : keys_t) :
    ∀ acc : keys_t, ordered (acc ++ ks) →
      ks.foldl (fun a kv => map_assign a kv.1 kv.2) acc = acc ++ ks := by
  induction ks with
  | nil => intro acc _; simp
  | cons x rest ih =>
    intro acc h
    have hlast : map_assign acc x.1 x.2 = acc ++ [x] := by
      apply map_assign_last
      intro y hy
      exact (List.pairwise_append.mp h).2.2 y hy x (List.mem_cons_self _ _)
    rw [List.foldl_cons, hlast, ih (acc ++ [x]) (by simpa using h)]
    simp

theorem parse_key_lines (n : fini_string_t) (ks : keys_t)
    (hok : ∀ kv ∈ ks, kv.1 ≠ [] ∧ storable kv.1 ∧ storable kv.2) (hord : ordered ks)
    (doc : INI) (loc : INI.locals) (p : Nat) (hloc : loc.local_current = some p)
    (hp : doc.heap[p]? = some []) :
    INI.parse_loop 0 doc loc ((ks.map (fun kv => INI.out_t.key_line n kv.1 kv.2)).map out_line) =
      .ret { loc with i := loc.i + ks.length }
        (INI.mk doc.source (doc.heap.set p ks) doc.current doc.sections) := by
  rw [key_lines_eq]
  have hkv := key_values_key_lines ks hok
  have h := parse_loop_keys_only 0 (ks.map (fun kv => kv.1 ++ '=' :: kv.2)) doc loc p [] ?_ hloc hp
    (fun _ _ => rfl) (by rw [hkv]; exact ordered_nodup_keys ks hord)
  · rw [h, hkv, foldl_assign_ordered_eq ks [] (by simpa using hord)]
    simp
  · intro l hl
    obtain ⟨kv, hkv', rfl⟩ := List.mem_map.mp hl
    simp [is_header, storable_key_line kv (hok kv hkv')]

theorem header_name_section_line (n : fini_string_t) (hn : n ≠ []) (hs : header_name n) :
    classify 0 ('[' :: (n ++ [']'])) = .section_header n := by
  obtain ⟨⟨_, hl, hr, _, _⟩, _, hb, he⟩ := hs
  apply classify_section_line n hn
  · cases n with
    | nil => rfl
    | cons c t =>
      simp only [begins_in, List.mem_cons, not_or, decide_eq_false_iff_not,
        List.mem_singleton, List.not_mem_nil, or_false] at hb hl hr ⊢
      exact ⟨fun h => hl.1 h.symm, fun h => hr.1 h.symm, hb⟩
  · rcases List.eq_nil_or_concat n with h0 | ⟨t, c, h0⟩
    · exact absurd h0 hn
    · rw [List.concat_eq_append] at h0
      subst h0
      simp only [ends_in, List.reverse_append, List.reverse_cons, List.reverse_nil,
        List.nil_append, List.singleton_append, begins_in, List.mem_cons, not_or,
        decide_eq_false_iff_not, List.mem_singleton, List.not_mem_nil, or_false,
        List.mem_append] at he hl hr ⊢
      exact ⟨fun h => hl.2 h.symm, fun h => hr.2 h.symm, he⟩

theorem set_append_length (heap : List keys_t) (a b : keys_t) :
    (heap ++ [a]).set heap.length b = heap ++ [b] := by
  induction heap with
  | nil => rfl
  | cons x rest ih => simp [List.set, ih]

theorem parse_loop_cons (parseFlags : Nat) (doc : INI) (loc : INI.locals) (x : fini_string_t)
    (rest : List fini_string_t) :
    INI.parse_loop parseFlags doc loc (x :: rest) =
      match INI.parse_line parseFlags doc { loc with i := loc.i + 1 } x with
      | .ret loc' doc' => INI.parse_loop parseFlags doc' loc' rest
      | .threw e d => .threw e d
      | .undefined => .undefined := rfl

theorem parse_named_section (n : fini_string_t) (ks : keys_t) (hn : n ≠ [])
    (hs : header_name n)
    (hok : ∀ kv ∈ ks, kv.1 ≠ [] ∧ storable kv.1 ∧ storable kv.2) (hord : ordered ks)
    (doc : INI) (loc : INI.locals) (habs : map_find doc.sections n = none) :
    INI.parse_loop 0 doc loc ((INI.save_section 0 n ks).map out_line) =
      .ret (INI.locals.mk n (loc.i + 1 + ks.length) (some doc.heap.length))
        (INI.mk doc.source (doc.heap ++ [ks]) doc.current
          (map_assign doc.sections n doc.heap.length)) := by
  have hc : classify 0 (out_line (INI.out_t.section_line n)) = .section_header n := by
    simpa [out_line] using header_name_section_line n hn hs
  rw [save_section_zero, if_neg hn, List.map_append, List.map_cons, List.map_nil,
    List.singleton_append, parse_loop_cons, parse_line_eq, hc]
  simp only [habs, Option.isSome_none, Bool.false_eq_true, if_false]
  rw [parse_key_lines n ks hok hord
    (INI.mk doc.source (doc.heap ++ [[]]) doc.current (map_assign doc.sections n doc.heap.length))
    (INI.locals.mk n (loc.i + 1) (some doc.heap.length)) doc.heap.length rfl (by simp)]
  simp [set_append_length]

theorem parse_sections (T : List (fini_string_t × keys_t)) :
    ∀ (doc : INI) (loc : INI.locals),
      (∀ x ∈ T, x.1 ≠ [] ∧ header_name x.1 ∧ ordered x.2 ∧
        ∀ kv ∈ x.2, kv.1 ≠ [] ∧ storable kv.1 ∧ storable kv.2) →
      (doc.sections.map Prod.fst ++ T.map Prod.fst).Pairwise (fun a b => str_lt a b = true) →
      (∀ x ∈ doc.sections, x.2 < doc.heap.length) →
      ∃ loc' d', INI.parse_loop 0 doc loc
          ((T.map (fun x => INI.save_section 0 x.1 x.2)).flatten.map out_line) = .ret loc' d' ∧
        d'.mapping = doc.mapping ++ T.map (fun x => (x.1, some x.2)) ∧
        d'.current = doc.current ∧ d'.source = doc.source := by
  induction T with
  | nil =>
    intro doc loc _ _ _
    exact ⟨loc, doc, rfl, by simp, rfl, rfl⟩
  | cons x T' ih =>
    intro doc loc hT hpw hlive
    obtain ⟨hn, hs, hord, hok⟩ := hT x (List.mem_cons_self _ _)
    have hlt : ∀ y ∈ doc.sections, str_lt y.1 x.1 = true := by
      intro y hy
      exact (List.pairwise_append.mp hpw).2.2 y.1 (List.mem_map_of_mem _ hy) x.1
        (by simp)
    have habs : map_find doc.sections x.1 = none :=
      (map_find_none_iff _ _).mpr (fun y hy => str_lt_ne _ _ (hlt y hy))
    have hsec : map_assign doc.sections x.1 doc.heap.length =
        doc.sections ++ [(x.1, doc.heap.length)] := map_assign_last _ _ _ hlt
    rw [List.map_cons, List.flatten_cons, List.map_append, parse_loop_append,
      parse_named_section x.1 x.2 hn hs hok hord doc loc habs, Outcome.bind, hsec]
    obtain ⟨loc', d', hrun, hmap, hcur, hsrc⟩ := ih
      (INI.mk doc.source (doc.heap ++ [x.2]) doc.current
        (doc.sections ++ [(x.1, doc.heap.length)]))
      (INI.locals.mk x.1 (loc.i + 1 + x.2.length) (some doc.heap.length))
      (fun y hy => hT y (List.mem_cons_of_mem _ hy))
      (by simpa using hpw)
      (by
        intro y hy
        simp only [List.length_append, List.length_singleton]
        rcases List.mem_append.mp hy with h1 | h1
        · exact Nat.lt_succ_of_lt (hlive y h1)
        · simp only [List.mem_singleton] at h1
          subst h1
          exact Nat.lt_succ_self _)
    refine ⟨loc', d', hrun, ?_, hcur, hsrc⟩
    rw [hmap]
    simp only [INI.mapping, List.map_append, List.map_cons, List.map_nil, List.append_assoc,
      List.singleton_append, List.getElem?_concat_length]
    congr 1
    apply List.map_congr_left
    intro y hy
    rw [List.getElem?_append_left (hlive y hy)]

theorem getlines_from_line (l : fini_string_t) (h : '\n' ∉ l) :
    ∀ (cur rest : fini_string_t),
      getlines_from cur (l ++ '\n' :: rest) = (cur ++ l) :: getlines_from [] rest := by
  induction l with
  | nil => intro cur rest; simp [getlines_from]
  | cons c t ih =>
    intro cur rest
    simp only [List.mem_cons, not_or] at h
    have hc : ¬ c = '\n' := fun hh => h.1 hh.symm
    rw [List.cons_append]
    show (if c = '\n' then cur :: getlines_from [] (t ++ '\n' :: rest)
      else getlines_from (cur ++ [c]) (t ++ '\n' :: rest)) = _
    rw [if_neg hc, ih h.2]
    simp

theorem getlines_lines (lines : List fini_string_t) (h : ∀ l ∈ lines, '\n' ∉ l) :
    getlines (lines.map (fun l => l ++ ['\n'])).flatten = lines := by
  induction lines with
  | nil => rfl
  | cons l rest ih =>
    rw [List.map_cons, List.flatten_cons, List.append_assoc, List.singleton_append, getlines,
      getlines_from_line l (h l (List.mem_cons_self _ _)), List.nil_append]
    congr 1
    exact ih (fun x hx => h x (List.mem_cons_of_mem _ hx))

theorem text_zero (o : INI.out_t) : INI.out_t.text 0 o = out_line o ++ ['\n'] := by
  cases o <;> simp [INI.out_t.text, out_line, has_flag_zero]

theorem ordered_head_default {β : Type} (m : List (fini_string_t × β)) (h : ordered m)
    (hd : (map_find m []).isSome = true) : ∃ p rest, m = ([], p) :: rest := by
  cases m with
  | nil => simp [map_find] at hd
  | cons y rest =>
    obtain ⟨k0, v0⟩ := y
    by_cases hk : k0 = []
    · subst hk
      exact ⟨v0, rest, rfl⟩
    · simp only [map_find, if_neg hk] at hd
      obtain ⟨v, hv⟩ := Option.isSome_iff_exists.mp hd
      have := (List.pairwise_cons.mp h).1 _ (map_find_some_mem _ _ _ hv)
      simp [str_lt_nil_right] at this

theorem storable_no_newline (s : fini_string_t) (h : storable s) : '\n' ∉ s := h.2.1

theorem round_trip_of_sound (d : INI) (hs : d.sound any_text)
    (hm : d.holds header_name storable storable) : round_trips d := by
  obtain ⟨p0, S, hsec⟩ := ordered_head_default d.sections hs.wf.sections_ordered hs.default_present
  have hlive := hs.wf.sections_live
  have hp0 : p0 < d.heap.length := hlive ([], p0) (by rw [hsec]; exact List.mem_cons_self _ _)
  have hS : ∀ x ∈ S, x ∈ d.sections := fun x hx => by rw [hsec]; exact List.mem_cons_of_mem _ hx
  have hord : ordered (([], p0) :: S) := hsec ▸ hs.wf.sections_ordered
  have hbody : ∀ p, p < d.heap.length → d.heap[p]? = some (d.heap[p]?.getD []) := by
    intro p hp
    simp [List.getElem?_eq_getElem hp]
  have hmemb : ∀ p, p < d.heap.length → d.heap[p]?.getD [] ∈ d.heap := by
    intro p hp
    exact List.mem_iff_getElem?.mpr ⟨p, hbody p hp⟩
  have hent : ∀ x ∈ d.sections, ∀ kv ∈ d.heap[x.2]?.getD [],
      kv.1 ≠ [] ∧ storable kv.1 ∧ storable kv.2 := by
    intro x hx kv hkv
    exact ⟨(hs.entries_ok _ (hmemb _ (hlive x hx)) kv hkv).1, hm.2 x hx kv hkv⟩
  have houts := save_sections_eq 0 d.heap d.sections hlive
  -- the groups of writes and their lines
  let B0 := d.heap[p0]?.getD []
  let T : List (fini_string_t × keys_t) := S.map (fun x => (x.1, d.heap[x.2]?.getD []))
  have hT : ∀ x ∈ T, x.1 ≠ [] ∧ header_name x.1 ∧ ordered x.2 ∧
      ∀ kv ∈ x.2, kv.1 ≠ [] ∧ storable kv.1 ∧ storable kv.2 := by
    intro x hx
    obtain ⟨y, hy, rfl⟩ := List.mem_map.mp hx
    have hne : y.1 ≠ [] := by
      intro h0
      have := (List.pairwise_cons.mp hord).1 y hy
      rw [h0] at this
      simp [str_lt_nil_right] at this
    have hyl := hlive y (hS y hy)
    exact ⟨hne, hm.1 y (hS y hy) hne, hs.wf.keys_ordered _ (hmemb _ hyl), hent y (hS y hy)⟩
  have houts' : (d.sections.map (fun x => INI.save_section 0 x.1 (d.heap[x.2]?.getD []))).flatten =
      (B0.map (fun kv => INI.out_t.key_line [] kv.1 kv.2)) ++
        (T.map (fun x => INI.save_section 0 x.1 x.2)).flatten := by
    rw [hsec, List.map_cons, List.flatten_cons, save_section_zero, if_pos rfl, List.nil_append,
      List.map_map]
    rfl
  -- no line holds a newline
  have hnl : ∀ o ∈ (d.sections.map (fun x => INI.save_section 0 x.1 (d.heap[x.2]?.getD []))).flatten,
      '\n' ∉ out_line o := by
    intro o ho
    obtain ⟨l, hl, hol⟩ := List.mem_flatten.mp ho
    obtain ⟨x, hx, rfl⟩ := List.mem_map.mp hl
    have hxl := hlive x hx
    cases o with
    | section_line n =>
      obtain ⟨h1, h2, _⟩ := (section_line_mem_save_section _ _ _ _).mp hol
      have hst : header_name n := by
        rw [h1]
        exact hm.1 x hx h2
      simp only [out_line, List.mem_append, List.mem_singleton, not_or]
      exact ⟨⟨by decide, hst.2.1⟩, by decide⟩
    | key_line sec k v =>
      obtain ⟨_, h2, _⟩ := (key_line_mem_save_section _ _ _ _ _ _).mp hol
      obtain ⟨_, hk, hv⟩ := hent x hx (k, v) h2
      simp only [out_line, List.mem_append, List.mem_singleton, not_or]
      exact ⟨⟨storable_no_newline _ hk, by decide⟩, storable_no_newline _ hv⟩
    | padding => simp [out_line]
  -- the text and its lines
  have htext : d.save SAVE_FLAGS true 0 = some (true,
      (((d.sections.map (fun x => INI.save_section 0 x.1 (d.heap[x.2]?.getD []))).flatten.map
        out_line).map (fun l => l ++ ['\n'])).flatten) := by
    have hf : INI.save_flags SAVE_FLAGS 0 = 0 := by decide
    simp only [INI.save, INI.save_outs, hf, houts, Bool.not_true, Bool.false_eq_true, if_false,
      List.map_map]
    congr 3
    apply List.map_congr_left
    intro o _
    exact text_zero o
  -- parsing the lines
  have hkeys : INI.parse_loop 0 fresh (INI.parse_start fresh)
      ((B0.map (fun kv => INI.out_t.key_line [] kv.1 kv.2)).map out_line) =
      .ret (INI.locals.mk [] B0.length (some 0))
        (INI.mk .SOURCE_FILE [B0] (some 0) [([], 0)]) := by
    rw [parse_key_lines [] B0
      (hent ([], p0) (by rw [hsec]; exact List.mem_cons_self _ _))
      (hs.wf.keys_ordered _ (hmemb _ hp0)) fresh (INI.parse_start fresh) 0 rfl rfl]
    simp [fresh, INI.parse_start]
  obtain ⟨loc', d', hrun, hmap, _, _⟩ := parse_sections T
    (INI.mk .SOURCE_FILE [B0] (some 0) [([], 0)])
    (INI.locals.mk [] B0.length (some 0)) hT
    (by
      have := (List.pairwise_map (f := Prod.fst) (R := fun a b => str_lt a b = true)).mpr hord
      simpa [T, List.map_map, Function.comp_def] using this)
    (by intro x hx; simp at hx; subst hx; simp)
  refine ⟨_, d', htext, ?_, ?_⟩
  · have hpf : to_unsigned (if (0 : Int) > 0 then 0 else PARSE_FLAGS) = 0 := by decide
    have hsrc : fresh.source = .SOURCE_FILE := rfl
    simp only [INI.parse, hsrc, INI._parseFile, hpf, INI.parse_lines]
    rw [getlines_lines _ (by
      intro l hl
      obtain ⟨o, ho, rfl⟩ := List.mem_map.mp hl
      exact hnl o ho), houts', List.map_append, parse_loop_append, hkeys]
    simp only [Outcome.bind]
    rw [hrun]
  · rw [hmap]
    simp only [INI.mapping, hsec, List.map_cons, List.map_nil,
      List.getElem?_cons_zero, List.singleton_append, T, List.map_map]
    rw [hbody p0 hp0]
    congr 1
    apply List.map_congr_left
    intro x hx
    simp only [Function.comp_apply]
    rw [← hbody x.2 (hlive x (hS x hx))]

/-- C2 as stated fails: the document made by `create("A")`, `set("k", " v")` has
non-empty names, and its names and values hold none of `=`, `[`, `]`, `#`, `//`;
`save` writes the line `k= v`, and `parse` trims the value to `v`, so the mapping
read back differs. -/
theorem round_trip_drops_leading_space :
    Built any_text doc_space ∧ doc_space.holds plain plain plain ∧
    ¬ round_trips doc_space := by
  refine ⟨?_, by decide, ?_⟩
  · exact Built.set_key doc_A doc_space ['k'] [' ', 'v']
      (Built.create fresh doc_A ['A'] Built.new (by decide) trivial (by decide))
      (by decide) trivial trivial (by decide)
  · rintro ⟨text, d', h1, h2, h3⟩
    have e1 : doc_space.save SAVE_FLAGS true 0 = some (true, "[A]\nk= v\n".toList) := by decide
    rw [e1] at h1
    cases h1
    have e2 : fresh.parse PARSE_FLAGS (some "[A]\nk= v\n".toList) 0 =
        .ret true (INI.mk .SOURCE_FILE [[], [(['k'], ['v'])]] (some 0) [([], 0), (['A'], 1)]) := by
      decide
    rw [e2] at h2
    cases h2
    revert h3
    decide

/-- C2 as amended: a document built from a new one by `create` and `set` alone,
with non-empty section and key names, whose names and values hold none of `=`,
`[`, `]`, `#`, `//` and no newline, whose keys and values neither begin nor end
with a trim character and whose section names neither begin nor end with a
space, is written by `save` with the default flags to a text that `parse` with
the default flags reads into a new document with success, and the document read
has the same mapping section -> key -> value. -/
theorem round_trip (d : INI) (hb : Built any_text d)
    (hm : d.holds header_name storable storable) : round_trips d :=
  round_trip_of_sound d (sound_of_built any_text d hb) hm

/-- C2 as amended, on the document with `g = 1` in the unnamed section and `k = v`
in the section named by a tab, `A` and `;`, built by `set("g", "1")`, `create` and
the qualified `set` for that section. -/
theorem round_trip_witness :
    Built any_text doc_tab ∧ doc_tab.holds header_name storable storable ∧
    round_trips doc_tab ∧
    doc_tab.save SAVE_FLAGS true 0 = some (true, "g=1\n[\tA;]\nk=v\n".toList) ∧
    fresh.parse PARSE_FLAGS (some "g=1\n[\tA;]\nk=v\n".toList) 0 =
      .ret true { doc_tab with current := some 0 } :=
  have hb : Built any_text doc_tab :=
    Built.set (INI.mk .SOURCE_FILE [[(['g'], ['1'])], []] (some 1)
        [([], 0), (['\t', 'A', ';'], 1)]) doc_tab
      ['\t', 'A', ';'] ['k'] ['v']
      (Built.create (INI.mk .SOURCE_FILE [[(['g'], ['1'])]] (some 0) [([], 0)]) _
        ['\t', 'A', ';']
        (Built.set_key fresh _ ['g'] ['1'] Built.new (by decide) trivial trivial (by decide))
        (by decide) trivial (by decide))
      (by decide) trivial (by decide) trivial trivial (by decide)
  ⟨hb, by decide, round_trip doc_tab hb (by decide), by decide, by decide⟩

/-! ## Sections: `select` and `remove` -/

section erase
variable {β : Type}

theorem map_find_erase_same (m : List (fini_string_t × β)) (k : fini_string_t) :
    map_find (map_erase m k) k = none := by
  rw [map_find_none_iff]
  intro x hx
  simpa using (List.mem_filter.mp hx).2

theorem map_find_erase_other (m : List (fini_string_t × β)) (k k' : fini_string_t)
    (h : k' ≠ k) : map_find (map_erase m k) k' = map_find m k' := by
  induction m with
  | nil => rfl
  | cons x rest ih =>
    obtain ⟨k0, v0⟩ := x
    by_cases h0 : k0 = k
    · subst h0
      have e : map_erase ((k0, v0) :: rest) k0 = map_erase rest k0 := by
        simp [map_erase]
      rw [e, ih]
      simp only [map_find]
      rw [if_neg (Ne.symm h)]
    · have e : map_erase ((k0, v0) :: rest) k = (k0, v0) :: map_erase rest k := by
        simp [map_erase, h0]
      rw [e]
      simp only [map_find, ih]

theorem map_erase_absent (m : List (fini_string_t × β)) (k : fini_string_t)
    (h : map_find m k = none) : map_erase m k = m := by
  rw [map_find_none_iff] at h
  apply List.filter_eq_self.mpr
  intro x hx
  simpa using h x hx

end erase

/-- C11: `select(name, noCreate)` returns normally, and returns true exactly when a
section named `name` existed. If it existed, `current` points to its body and
nothing else changes. If it did not exist and `noCreate` is false, `name` now
maps to a new empty body, `current` points to it, every other name and every
earlier object is as before, and false is returned. If it did not exist and
`noCreate` is true, the object is unchanged. -/
theorem select_contract (doc : INI) (name : fini_string_t) (noCreate : Bool) :
    ∃ b d, doc.select name noCreate = .ret b d ∧
      (b = true ↔ (map_find doc.sections name).isSome = true) ∧
      (∀ p, map_find doc.sections name = some p → d = { doc with current := some p }) ∧
      (map_find doc.sections name = none → noCreate = false →
        ∃ p, map_find d.sections name = some p ∧ d.heap[p]? = some [] ∧ d.current = some p ∧
          (∀ other, other ≠ name → map_find d.sections other = map_find doc.sections other) ∧
          (∀ q, q < doc.heap.length → d.heap[q]? = doc.heap[q]?)) ∧
      (map_find doc.sections name = none → noCreate = true → d = doc) := by
  cases hf : map_find doc.sections name with
  | some p =>
    refine ⟨true, { doc with current := some p }, by simp [INI.select, hf], by simp, ?_, ?_, ?_⟩
    · intro q hq
      cases hq
      rfl
    · intro h; cases h
    · intro h; cases h
  | none =>
    cases noCreate with
    | true =>
      refine ⟨false, doc, by simp [INI.select, hf], by simp, ?_, ?_, ?_⟩
      · intro q hq; cases hq
      · intro _ h; cases h
      · intro _ _; rfl
    | false =>
      refine ⟨false, INI.mk doc.source (doc.heap ++ [[]]) (some doc.heap.length)
        (map_assign doc.sections name doc.heap.length), ?_, by simp, ?_, ?_, ?_⟩
      · simp [INI.select, hf, INI.create, Outcome.bind]
      · intro q hq; cases hq
      · intro _ _
        refine ⟨doc.heap.length, map_find_assign_same _ _ _, by simp, rfl, ?_, ?_⟩
        · intro other ho
          exact map_find_assign_other _ _ _ _ ho
        · intro q hq
          exact List.getElem?_append_left hq
      · intro _ h; cases h

/-- C12 as stated fails: `X` is not a section of a new document, yet `remove("X")`
does not leave the document as it was: `current`, which pointed to the body of
the unnamed section, is null afterwards. -/
theorem remove_absent_unsets_cursor :
    map_find fresh.sections ['X'] = none ∧ fresh.current = some 0 ∧
    fresh.remove ['X'] = .ret () { fresh with current := none } ∧
    ({ fresh with current := none } : INI) ≠ fresh := by
  decide

/-- C12 as amended: `remove(name)` returns normally; afterwards no section named
`name` exists, every other name maps to what it mapped to before, the objects of
the free store are untouched, and `current` is null whether or not `name` was
present; if `name` was not present the section map is exactly as it was. -/
theorem remove_contract (doc : INI) (name : fini_string_t) :
    ∃ d, doc.remove name = .ret () d ∧
      map_find d.sections name = none ∧
      (∀ other, other ≠ name → map_find d.sections other = map_find doc.sections other) ∧
      d.heap = doc.heap ∧ d.current = none ∧
      (map_find doc.sections name = none → d.sections = doc.sections) := by
  cases hf : map_find doc.sections name with
  | some p =>
    refine ⟨INI.mk doc.source doc.heap none (map_erase doc.sections name), ?_, ?_, ?_, rfl, rfl, ?_⟩
    · simp [INI.remove, INI.select, hf, Outcome.bind]
    · exact map_find_erase_same _ _
    · intro other ho
      exact map_find_erase_other _ _ _ ho
    · intro h; cases h
  | none =>
    refine ⟨INI.mk doc.source doc.heap none doc.sections, ?_, hf, fun _ _ => rfl, rfl, rfl,
      fun _ => rfl⟩
    simp [INI.remove, INI.select, hf, Outcome.bind]

/-- C13 (defect): a section-header line whose extracted name is empty makes the
parse of a new document throw the duplicate-section exception (at that line, if
not earlier): after `local_current = this->current` the code goes on to the
duplicate check, and the unnamed section made by the constructor is present. -/
theorem empty_header_raises (parseFlags : Nat) (lines : List fini_string_t)
    (h : ∃ l ∈ lines, classify parseFlags l = .section_header []) :
    (fresh.parse_lines lines parseFlags).raised = true := by
  rw [parse_lines_raised]
  exact header_present_raises parseFlags [] lines fresh _ parser_ready_fresh (by decide) h

/-- C13 at the input of the claim: the lines `a=1`, `[S]`, `b=2`, `[]`, `c=3` throw at
line 4, leaving `a=1` in the unnamed section and `b=2` in `S`; `c=3` is not read. -/
theorem empty_header_raises_witness :
    (∃ l ∈ ["a=1".toList, "[S]".toList, "b=2".toList, "[]".toList, "c=3".toList],
      classify 0 l = .section_header []) ∧
    (fresh.parse_lines ["a=1".toList, "[S]".toList, "b=2".toList, "[]".toList, "c=3".toList]
      0).raised = true ∧
    fresh.parse_lines ["a=1".toList, "[S]".toList, "b=2".toList, "[]".toList, "c=3".toList] 0 =
      .threw (.parse_duplicate_section [] 4)
        (INI.mk .SOURCE_FILE [[(['a'], ['1'])], [(['b'], ['2'])]] (some 0)
          [([], 0), (['S'], 1)]) :=
  ⟨⟨"[]".toList, by decide, by decide⟩,
    empty_header_raises 0 _ ⟨"[]".toList, by decide, by decide⟩, by decide⟩

/-! ## Trimming -/

theorem ends_in_append (cs s t : fini_string_t) (ht : t ≠ []) :
    ends_in cs (s ++ t) = ends_in cs t := by
  rw [ends_in, ends_in, List.reverse_append, begins_in_append _ _ _ (by simpa using ht)]

theorem ends_in_concat (cs s : fini_string_t) (c : Char) :
    ends_in cs (s ++ [c]) = decide (c ∈ cs) := by
  simp [ends_in, begins_in]

theorem r_trim_spec (cs s : fini_string_t) :
    ∃ q, s = r_trim s cs ++ q ∧ (∀ c ∈ q, c ∈ cs) ∧ ends_in cs (r_trim s cs) = false := by
  induction s using List.reverseRecOn with
  | nil => exact ⟨[], rfl, fun _ h => absurd h (List.not_mem_nil _), rfl⟩
  | append_singleton t c ih =>
    by_cases hc : c ∈ cs
    · obtain ⟨q, h1, h2, h3⟩ := ih
      rw [r_trim_concat_mem _ _ _ hc]
      refine ⟨q ++ [c], ?_, ?_, h3⟩
      · rw [← List.append_assoc, ← h1]
      · intro x hx
        rcases List.mem_append.mp hx with h | h
        · exact h2 x h
        · simp only [List.mem_singleton] at h
          rw [h]
          exact hc
    · rw [r_trim_concat_not_mem _ _ _ hc]
      refine ⟨[], by simp, fun _ h => absurd h (List.not_mem_nil _), ?_⟩
      rw [ends_in_concat]
      simpa using hc

theorem l_trim_spec (cs s : fini_string_t) :
    ∃ p, s = p ++ l_trim s cs ∧ (∀ c ∈ p, c ∈ cs) ∧ begins_in cs (l_trim s cs) = false := by
  induction s with
  | nil => exact ⟨[], rfl, fun _ h => absurd h (List.not_mem_nil _), rfl⟩
  | cons c t ih =>
    by_cases hc : c ∈ cs
    · obtain ⟨p, h1, h2, h3⟩ := ih
      rw [l_trim_cons_mem _ _ _ hc]
      refine ⟨c :: p, by rw [List.cons_append, ← h1], ?_, h3⟩
      intro x hx
      rcases List.mem_cons.mp hx with h | h
      · rw [h]
        exact hc
      · exact h2 x h
    · rw [l_trim_cons_not_mem _ _ _ hc]
      refine ⟨[], rfl, fun _ h => absurd h (List.not_mem_nil _), ?_⟩
      simpa [begins_in] using hc

theorem l_trim_keeps_end (cs s : fini_string_t) (h : ends_in cs s = false) :
    ends_in cs (l_trim s cs) = false := by
  obtain ⟨p, h1, _, _⟩ := l_trim_spec cs s
  by_cases hl : l_trim s cs = []
  · rw [hl]
    rfl
  · rw [h1, ends_in_append _ _ _ hl] at h
    exact h

theorem r_trim_append_all (cs x q : fini_string_t) (hq : ∀ c ∈ q, c ∈ cs) :
    r_trim (x ++ q) cs = r_trim x cs := by
  induction q using List.reverseRecOn with
  | nil => simp
  | append_singleton t c ih =>
    rw [← List.append_assoc, r_trim_concat_mem _ _ _ (hq c (by simp))]
    exact ih (fun y hy => hq y (List.mem_append_left _ hy))

theorem l_trim_append_all (cs p x : fini_string_t) (hp : ∀ c ∈ p, c ∈ cs) :
    l_trim (p ++ x) cs = l_trim x cs := by
  induction p with
  | nil => rfl
  | cons c t ih =>
    rw [List.cons_append, l_trim_cons_mem _ _ _ (hp c (List.mem_cons_self _ _))]
    exact ih (fun y hy => hp y (List.mem_cons_of_mem _ hy))

theorem trim_all (cs s : fini_string_t) (h : ∀ c ∈ s, c ∈ cs) : trim s cs = [] := by
  have := r_trim_append_all cs [] s h
  rw [List.nil_append] at this
  rw [trim, this]
  rfl

/-- C15: `trim(s, C)` is defined for every string and every character set (the
position handed to `erase` lies within the string). The result `r` satisfies
`s = p ++ r ++ q` with `p` and `q` made of characters of `C`, and `r` neither
begins nor ends with a character of `C`; it is the only such part of `s`; and the
trim of a string made only of characters of `C`, the empty string included, is
empty. -/
theorem trim_contract (s cs : fini_string_t) :
    (match find_last_not_of cs s with
      | none => 0
      | some p => p + 1) ≤ s.length ∧
    (∃ p q, s = p ++ trim s cs ++ q ∧ (∀ c ∈ p, c ∈ cs) ∧ (∀ c ∈ q, c ∈ cs)) ∧
    begins_in cs (trim s cs) = false ∧ ends_in cs (trim s cs) = false ∧
    (∀ p r q, s = p ++ r ++ q → (∀ c ∈ p, c ∈ cs) → (∀ c ∈ q, c ∈ cs) →
      begins_in cs r = false → ends_in cs r = false → r = trim s cs) ∧
    ((∀ c ∈ s, c ∈ cs) → trim s cs = []) ∧
    trim [] cs = [] := by
  refine ⟨?_, ?_, ?_, ?_, ?_, trim_all cs s, rfl⟩
  · cases hf : find_last_not_of cs s with
    | none => exact Nat.zero_le _
    | some p => exact find_last_not_of_lt cs s p hf
  · obtain ⟨q, h1, h2, _⟩ := r_trim_spec cs s
    obtain ⟨p, h3, h4, _⟩ := l_trim_spec cs (r_trim s cs)
    refine ⟨p, q, ?_, h4, h2⟩
    rw [trim, ← h3, ← h1]
  · exact (l_trim_spec cs (r_trim s cs)).choose_spec.2.2
  · exact l_trim_keeps_end cs _ (r_trim_spec cs s).choose_spec.2.2
  · intro p r q hs hp hq hb he
    rw [trim, hs, r_trim_append_all cs (p ++ r) q hq]
    by_cases hr : r = []
    · subst hr
      rw [List.append_nil]
      have := r_trim_append_all cs [] p hp
      rw [List.nil_append] at this
      rw [this]
      rfl
    · have he' : ends_in cs (p ++ r) = false := by
        rw [ends_in_append _ _ _ hr]
        exact he
      rw [r_trim_eq_self _ _ he', l_trim_append_all cs p r hp, l_trim_eq_self _ _ hb]

/-- C15 on three strings with the default trim characters. -/
theorem trim_contract_witness :
    trim " ;a b; ".toList default_trim_chars = "a b".toList ∧
    trim "; \t;".toList default_trim_chars = [] ∧
    trim [] default_trim_chars = [] ∧
    ((∀ c ∈ "; \t;".toList, c ∈ default_trim_chars) →
      trim "; \t;".toList default_trim_chars = []) :=
  ⟨by decide, by decide, by decide, (trim_contract "; \t;".toList default_trim_chars).2.2.2.2.2.1⟩

/-! ## Key lines -/

theorem find_char_absent (ch : Char) (s : fini_string_t) (h : ch ∉ s) : find_char ch s = none := by
  induction s with
  | nil => rfl
  | cons c t ih =>
    simp only [List.mem_cons, not_or] at h
    rw [find_char_cons, if_neg (fun hh => h.1 hh.symm), ih h.2]
    rfl

theorem classify_cons (parseFlags : Nat) (line : fini_string_t) (c : Char)
    (rest : fini_string_t)
    (he : trim (INI.strip_comments parseFlags line) default_trim_chars = c :: rest) :
    classify parseFlags line =
      if '[' = c then .section_header (trim (c :: rest) ['[', ']', ' '])
      else
        match find_char '=' (c :: rest) with
        | none => .inert
        | some i =>
          .key_value (r_trim (substr (c :: rest) 0 (some i)) default_trim_chars)
            (l_trim (substr (c :: rest) (i + 1) none) default_trim_chars) := by
  simp only [classify, he]

/-- C17: let a line, after comment stripping and trimming with the default trim
characters, be non-empty and not begin with `[`. If it holds no `=`, parsing it
returns normally with the document and the locals unchanged. If it holds a `=`,
it is split at the first one: the key is the text on the left without its
trailing trim characters, the value is the text on the right without its leading
trim characters and otherwise verbatim; the pair is put into the active section
when the key is not there yet, and the duplicate-key exception is thrown for that
key, with nothing changed, when it is. -/
theorem key_line_split (parseFlags : Nat) (doc : INI) (loc : INI.locals)
    (line : fini_string_t) (c : Char) (rest : fini_string_t)
    (he : trim (INI.strip_comments parseFlags line) default_trim_chars = c :: rest)
    (hc : c ≠ '[') :
    ('=' ∉ c :: rest →
      classify parseFlags line = .inert ∧
      INI.parse_line parseFlags doc loc line = .ret loc doc) ∧
    (∀ left right, c :: rest = left ++ '=' :: right → '=' ∉ left →
      classify parseFlags line =
        .key_value (r_trim left default_trim_chars) (l_trim right default_trim_chars) ∧
      (∃ q, left = r_trim left default_trim_chars ++ q ∧ (∀ x ∈ q, x ∈ default_trim_chars) ∧
        ends_in default_trim_chars (r_trim left default_trim_chars) = false) ∧
      (∃ p, right = p ++ l_trim right default_trim_chars ∧ (∀ x ∈ p, x ∈ default_trim_chars) ∧
        begins_in default_trim_chars (l_trim right default_trim_chars) = false) ∧
      ∀ p ks, loc.local_current = some p → doc.heap[p]? = some ks →
        (map_find ks (r_trim left default_trim_chars) = none →
          INI.parse_line parseFlags doc loc line =
            .ret loc (INI.mk doc.source
              (doc.heap.set p (map_assign ks (r_trim left default_trim_chars)
                (l_trim right default_trim_chars))) doc.current doc.sections)) ∧
        ((map_find ks (r_trim left default_trim_chars)).isSome = true →
          INI.parse_line parseFlags doc loc line =
            .threw (.parse_duplicate_key (r_trim left default_trim_chars) loc.i) doc)) := by
  have hc' : ¬ '[' = c := fun h => hc h.symm
  have hcl := classify_cons parseFlags line c rest he
  rw [if_neg hc'] at hcl
  refine ⟨?_, ?_⟩
  · intro hno
    rw [find_char_absent '=' _ hno] at hcl
    refine ⟨hcl, ?_⟩
    rw [parse_line_eq, hcl]
  · intro left right hsplit hleft
    have hf := find_char_append '=' left right hleft
    rw [← hsplit] at hf
    have h1 : substr (c :: rest) 0 (some left.length) = left := by
      rw [hsplit]
      simp only [substr, List.drop_zero]
      exact List.take_left' rfl
    have h2 : substr (c :: rest) (left.length + 1) none = right := by
      have e : left ++ '=' :: right = (left ++ ['=']) ++ right := by simp
      rw [hsplit, e]
      simp only [substr]
      exact List.drop_left' (by simp)
    rw [hf] at hcl
    simp only [h1, h2] at hcl
    refine ⟨hcl, r_trim_spec _ _, l_trim_spec _ _, ?_⟩
    intro p ks hloc hks
    refine ⟨?_, ?_⟩
    · intro hk
      rw [parse_line_eq, hcl]
      simp only [hloc, hks, hk, Option.isSome_none, Bool.false_eq_true, if_false, map_emplace]
    · intro hk
      exact parse_line_key_present parseFlags doc loc line _ _ p ks hcl hloc hks hk

/-- C17 on the line `a = b=c`, read into a new document: the key is `a`, the value
`b=c`. -/
theorem key_line_split_witness :
    trim (INI.strip_comments 0 "a = b=c".toList) default_trim_chars = 'a' :: " = b=c".toList ∧
    ('a' : Char) ≠ '[' ∧
    classify 0 "a = b=c".toList = .key_value ['a'] "b=c".toList ∧
    fresh.parse_lines ["a = b=c".toList] 0 =
      .ret () { fresh with heap := [[(['a'], "b=c".toList)]] } ∧
    INI.parse_line 0 fresh (INI.parse_start fresh) "a = b=c".toList =
      .ret (INI.parse_start fresh) (INI.mk fresh.source
        (fresh.heap.set 0 (map_assign [] (r_trim "a ".toList default_trim_chars)
          (l_trim " b=c".toList default_trim_chars))) fresh.current fresh.sections) :=
  ⟨by decide, by decide, by decide, by decide,
    ((((key_line_split 0 fresh (INI.parse_start fresh) "a = b=c".toList 'a' " = b=c".toList
      (by decide) (by decide)).2 "a ".toList " b=c".toList (by decide) (by decide)).2.2.2
      0 [] (by decide) (by decide)).1 (by decide))⟩

/-! ## The document left behind by a failed parse -/

theorem parse_line_threw (parseFlags : Nat) (doc : INI) (loc : INI.locals) (l : fini_string_t)
    (e : error_t) (d : INI) (h : INI.parse_line parseFlags doc loc l = .threw e d) :
    d = doc ∧
    ((∃ name, e = .parse_duplicate_section name loc.i ∧
        classify parseFlags l = .section_header name) ∨
      (∃ key v, e = .parse_duplicate_key key loc.i ∧
        classify parseFlags l = .key_value key v)) := by
  rw [parse_line_eq] at h
  cases hc : classify parseFlags l with
  | blank => rw [hc] at h; cases h
  | inert => rw [hc] at h; cases h
  | section_header n =>
    rw [hc] at h
    dsimp only at h
    by_cases hn : (map_find doc.sections n).isSome = true
    · rw [if_pos hn] at h
      cases h
      exact ⟨rfl, Or.inl ⟨n, rfl, rfl⟩⟩
    · rw [if_neg hn] at h
      cases h
  | key_value k v =>
    rw [hc] at h
    dsimp only at h
    cases hl : loc.local_current with
    | none => rw [hl] at h; cases h
    | some p =>
      rw [hl] at h
      dsimp only at h
      cases hks : doc.heap[p]? with
      | none => rw [hks] at h; cases h
      | some ks =>
        rw [hks] at h
        dsimp only at h
        by_cases hk : (map_find ks k).isSome = true
        · rw [if_pos hk] at h
          cases h
          exact ⟨rfl, Or.inr ⟨k, v, rfl, rfl⟩⟩
        · rw [if_neg hk] at h
          cases h

theorem parse_line_ret_i (parseFlags : Nat) (doc : INI) (loc : INI.locals) (l : fini_string_t)
    (loc' : INI.locals) (d : INI) (h : INI.parse_line parseFlags doc loc l = .ret loc' d) :
    loc'.i = loc.i := by
  rw [parse_line_eq] at h
  cases hc : classify parseFlags l with
  | blank => rw [hc] at h; cases h; rfl
  | inert => rw [hc] at h; cases h; rfl
  | section_header n =>
    rw [hc] at h
    dsimp only at h
    by_cases hn : (map_find doc.sections n).isSome = true
    · rw [if_pos hn] at h
      cases h
    · rw [if_neg hn] at h
      cases h
      rfl
  | key_value k v =>
    rw [hc] at h
    dsimp only at h
    cases hl : loc.local_current with
    | none => rw [hl] at h; cases h
    | some p =>
      rw [hl] at h
      dsimp only at h
      cases hks : doc.heap[p]? with
      | none => rw [hks] at h; cases h
      | some ks =>
        rw [hks] at h
        dsimp only at h
        by_cases hk : (map_find ks k).isSome = true
        · rw [if_pos hk] at h
          cases h
        · rw [if_neg hk] at h
          cases h
          rfl

theorem parse_loop_threw (parseFlags : Nat) (lines : List fini_string_t) :
    ∀ (doc : INI) (loc : INI.locals) (e : error_t) (d : INI),
      INI.parse_loop parseFlags doc loc lines = .threw e d →
      ∃ k l loc', lines[k]? = some l ∧
        INI.parse_loop parseFlags doc loc (lines.take k) = .ret loc' d ∧
        ((∃ name, e = .parse_duplicate_section name (loc.i + k + 1) ∧
            classify parseFlags l = .section_header name) ∨
          (∃ key v, e = .parse_duplicate_key key (loc.i + k + 1) ∧
            classify parseFlags l = .key_value key v)) := by
  induction lines with
  | nil => intro doc loc e d h; cases h
  | cons x rest ih =>
    intro doc loc e d h
    rw [parse_loop_cons] at h
    cases hx : INI.parse_line parseFlags doc { loc with i := loc.i + 1 } x with
    | undefined => rw [hx] at h; cases h
    | threw e0 d0 =>
      rw [hx] at h
      cases h
      obtain ⟨hd, hkind⟩ := parse_line_threw _ _ _ _ _ _ hx
      subst hd
      exact ⟨0, x, loc, by simp, rfl, hkind⟩
    | ret loc1 d1 =>
      rw [hx] at h
      obtain ⟨k, l, loc', hl, hrun, hkind⟩ := ih d1 loc1 e d h
      have hi : loc1.i = loc.i + 1 := parse_line_ret_i _ _ _ _ _ _ hx
      refine ⟨k + 1, l, loc', by simpa using hl, ?_, ?_⟩
      · rw [List.take_succ_cons, parse_loop_cons, hx]
        exact hrun
      · rw [hi] at hkind
        have e1 : loc.i + 1 + k + 1 = loc.i + (k + 1) + 1 := by omega
        rw [e1] at hkind
        exact hkind

/-- C18: when parsing a line sequence raises the duplicate-section or
duplicate-key exception, it does so at some line `n` of the sequence (the number
in the report), that line being a header of an existing section or a key line of
an existing key, and the document left behind is the one that parsing the first
`n - 1` lines alone returns normally with. -/
theorem partial_state_on_duplicate (doc : INI) (parseFlags : Nat) (lines : List fini_string_t)
    (e : error_t) (d : INI) (h : doc.parse_lines lines parseFlags = .threw e d) :
    ∃ n l, 1 ≤ n ∧ n ≤ lines.length ∧ lines[n - 1]? = some l ∧
      doc.parse_lines (lines.take (n - 1)) parseFlags = .ret () d ∧
      ((∃ name, e = .parse_duplicate_section name n ∧
          classify parseFlags l = .section_header name) ∨
        (∃ key v, e = .parse_duplicate_key key n ∧
          classify parseFlags l = .key_value key v)) := by
  simp only [INI.parse_lines] at h ⊢
  cases hr : INI.parse_loop parseFlags doc (INI.parse_start doc) lines with
  | ret a d1 => rw [hr] at h; cases h
  | undefined => rw [hr] at h; cases h
  | threw e0 d0 =>
    rw [hr] at h
    cases h
    obtain ⟨k, l, loc', hl, hrun, hkind⟩ := parse_loop_threw parseFlags lines doc _ e d hr
    have hk : k < lines.length := (List.getElem?_eq_some.mp hl).1
    refine ⟨k + 1, l, by omega, by omega, by simpa using hl, ?_, ?_⟩
    · simp only [Nat.add_sub_cancel, hrun, Outcome.bind]
    · simpa [INI.parse_start] using hkind

/-- C18 on the lines `[A]`, `x=1`, `[A]`, `y=2` read into a new document: line 3
throws, and what is left is what the first two lines give. -/
theorem partial_state_on_duplicate_witness :
    fresh.parse_lines ["[A]".toList, "x=1".toList, "[A]".toList, "y=2".toList] 0 =
      .threw (.parse_duplicate_section ['A'] 3)
        (INI.mk .SOURCE_FILE [[], [(['x'], ['1'])]] (some 0) [([], 0), (['A'], 1)]) ∧
    fresh.parse_lines ["[A]".toList, "x=1".toList] 0 =
      .ret () (INI.mk .SOURCE_FILE [[], [(['x'], ['1'])]] (some 0) [([], 0), (['A'], 1)]) ∧
    ∃ n l, 1 ≤ n ∧ n ≤ ["[A]".toList, "x=1".toList, "[A]".toList, "y=2".toList].length ∧
      ["[A]".toList, "x=1".toList, "[A]".toList, "y=2".toList][n - 1]? = some l ∧
      fresh.parse_lines
        (["[A]".toList, "x=1".toList, "[A]".toList, "y=2".toList].take (n - 1)) 0 =
        .ret () (INI.mk .SOURCE_FILE [[], [(['x'], ['1'])]] (some 0) [([], 0), (['A'], 1)]) ∧
      ((∃ name, error_t.parse_duplicate_section ['A'] 3 = .parse_duplicate_section name n ∧
          classify 0 l = .section_header name) ∨
        (∃ key v, error_t.parse_duplicate_section ['A'] 3 = .parse_duplicate_key key n ∧
          classify 0 l = .key_value key v)) :=
  ⟨by decide, by decide,
    partial_state_on_duplicate fresh 0
      ["[A]".toList, "x=1".toList, "[A]".toList, "y=2".toList] _ _ (by decide)⟩

/-! ## The serializer against its reference rendering -/

theorem save_keys_text (flags : Nat) (hnp : has_flag flags SAVE_PRUNE = false)
    (name : fini_string_t) (ks : keys_t) :
    ((INI.save_keys flags name ks).map (INI.out_t.text flags)).flatten =
      (ks.map (fun kv => reference_key_line flags name kv.1 kv.2)).flatten := by
  induction ks with
  | nil => rfl
  | cons x rest ih =>
    obtain ⟨k, v⟩ := x
    simp only [INI.save_keys, hnp, Bool.false_and, Bool.false_eq_true, if_false, List.map_cons,
      List.flatten_cons, ih]
    congr 1
    simp only [INI.out_t.text, reference_key_line]
    cases name <;> cases has_flag flags SAVE_TAB_KEYS <;> cases has_flag flags SAVE_SPACE_KEYS <;>
      cases has_flag flags SAVE_SEMICOLON_KEYS <;> simp

theorem save_section_text (flags : Nat) (hnp : has_flag flags SAVE_PRUNE = false)
    (name : fini_string_t) (ks : keys_t) :
    ((INI.save_section flags name ks).map (INI.out_t.text flags)).flatten =
      reference_header flags name ++
      (ks.map (fun kv => reference_key_line flags name kv.1 kv.2)).flatten ++
      (if has_flag flags SAVE_PADDING_SECTIONS = true then ['\n'] else []) := by
  simp only [INI.save_section, hnp, Bool.false_and, Bool.false_eq_true, if_false,
    List.map_append, List.flatten_append, save_keys_text flags hnp]
  congr 1
  · congr 1
    cases name <;> cases has_flag flags SAVE_SPACE_SECTIONS <;>
      simp [reference_header, INI.out_t.text]
  · cases has_flag flags SAVE_PADDING_SECTIONS <;> simp [INI.out_t.text]

/-- C19: for a flag word without `SAVE_PRUNE` in effect, the text `save` writes is
the reference rendering of the contents of the document: section after section in
the order of the section map, which is ascending by name, each with its header,
the lines of its keys in ascending key order, and the padding line. -/
theorem save_reference_rendering (doc : INI) (hwf : doc.WF) (SF : Int) (saveFlags : Nat)
    (hnp : has_flag (INI.save_flags SF saveFlags) SAVE_PRUNE = false) :
    doc.save SF true saveFlags =
      some (true, reference_text (INI.save_flags SF saveFlags) doc.contents) ∧
    (doc.contents.map Prod.fst).Pairwise (fun a b => str_lt a b = true) ∧
    (∀ x ∈ doc.contents, (x.2.map Prod.fst).Pairwise (fun a b => str_lt a b = true)) := by
  refine ⟨?_, ?_, ?_⟩
  · have heq := save_sections_eq (INI.save_flags SF saveFlags) doc.heap doc.sections
      hwf.sections_live
    simp only [INI.save, INI.save_outs, heq, Bool.not_true, Bool.false_eq_true, if_false,
      reference_text, INI.contents, List.map_map]
    congr 2
    generalize doc.sections = secs
    induction secs with
    | nil => rfl
    | cons x rest ih =>
      simp only [List.map_cons, List.flatten_cons, List.map_append, List.flatten_append, ih,
        save_section_text _ hnp, Function.comp_apply]
  · have h := hwf.sections_ordered
    simp only [INI.contents, List.map_map]
    exact (List.pairwise_map (f := Prod.fst) (R := fun a b => str_lt a b = true)).mpr h
  · intro x hx
    obtain ⟨y, hy, rfl⟩ := List.mem_map.mp hx
    have hl := hwf.sections_live y hy
    have hm : doc.heap[y.2]?.getD [] ∈ doc.heap :=
      List.mem_iff_getElem?.mpr ⟨y.2, by simp [List.getElem?_eq_getElem hl]⟩
    exact (List.pairwise_map (f := Prod.fst) (R := fun a b => str_lt a b = true)).mpr
      (hwf.keys_ordered _ hm)

/-- C19 on `doc_kv` with space-sections, space-keys, tab-keys, semicolon-keys and
pad-sections all set. -/
theorem save_reference_rendering_witness :
    doc_kv.WF ∧ has_flag (INI.save_flags 0 62) SAVE_PRUNE = false ∧
    doc_kv.save 0 true 62 = some (true, "g = 1;\n\n[ A ]\n\tk = v;\n\n".toList) ∧
    doc_kv.save 0 true 62 = some (true, reference_text (INI.save_flags 0 62) doc_kv.contents) ∧
    (doc_kv.contents.map Prod.fst).Pairwise (fun a b => str_lt a b = true) ∧
    (∀ x ∈ doc_kv.contents, (x.2.map Prod.fst).Pairwise (fun a b => str_lt a b = true)) :=
  have hwf : doc_kv.WF :=
    ⟨by decide, by decide, by decide, by decide, by intro p h; cases h; decide⟩
  ⟨hwf, by decide, by decide, save_reference_rendering doc_kv hwf 0 62 (by decide)⟩

/-! ## Lookups that create a section -/

theorem wf_create (d : INI) (name : fini_string_t) (hwf : d.WF) :
    (INI.mk d.source (d.heap ++ [[]]) (some d.heap.length)
      (map_assign d.sections name d.heap.length)).WF := by
  refine ⟨ordered_map_assign _ _ _ hwf.sections_ordered, ?_, ?_, ?_, ?_⟩
  · intro x hx
    simp only [List.length_append, List.length_singleton]
    rcases mem_map_assign _ _ _ x hx with h1 | h1
    · subst h1
      exact Nat.lt_succ_self _
    · exact Nat.lt_succ_of_lt (hwf.sections_live x h1)
  · exact apart_map_assign _ _ _ hwf.sections_apart
      (fun x hx => Nat.ne_of_lt (hwf.sections_live x hx))
  · intro ks hks
    rcases List.mem_append.mp hks with h1 | h1
    · exact hwf.keys_ordered ks h1
    · simp only [List.mem_singleton] at h1
      subst h1
      exact List.Pairwise.nil
  · intro p hp
    simp only [Option.some.injEq] at hp
    subst hp
    simp

theorem select_absent (d : INI) (name : fini_string_t) (h : map_find d.sections name = none) :
    d.select name false =
      .ret false (INI.mk d.source (d.heap ++ [[]]) (some d.heap.length)
        (map_assign d.sections name d.heap.length)) := by
  simp [INI.select, h, INI.create, Outcome.bind]

theorem select_returns (doc : INI) (name : fini_string_t) :
    ∃ b d, doc.select name false = .ret b d := by
  cases hf : map_find doc.sections name with
  | some p => exact ⟨true, { doc with current := some p }, by simp [INI.select, hf]⟩
  | none => exact ⟨false, _, select_absent doc name hf⟩

/-- With the text type as target, the three-argument `getAs` calls itself at every
depth: no amount of fuel yields an outcome. -/
theorem getAs_text_never_returns (fuel : Nat) :
    ∀ (doc : INI) (sec key dflt : fini_string_t),
      INI.getAs .text fuel doc sec key dflt = none := by
  induction fuel with
  | zero => intro doc sec key dflt; rfl
  | succ n ih =>
    intro doc sec key dflt
    obtain ⟨b, d, hsel⟩ := select_returns doc sec
    have h := ih d key dflt []
    simp only [INI.getAs] at h ⊢
    simp only [INI.getAs_text, hsel]
    exact h

/-- C20 as stated fails for the unnamed section: in `doc_cleared` no section is
present; `get("", "k", "d")` returns `d` and leaves a new empty unnamed section
that is current, but a subsequent `save` without prune writes no header for it
(it writes nothing). -/
theorem lookup_of_unnamed_section_adds_no_header :
    fresh.clear = .ret () doc_cleared ∧ doc_cleared.WF ∧
    map_find doc_cleared.sections [] = none ∧
    doc_cleared.get [] ['k'] ['d'] =
      .ret ['d'] (INI.mk .SOURCE_FILE [[], []] (some 1) [([], 1)]) ∧
    has_flag (INI.save_flags 0 0) SAVE_PRUNE = false ∧
    (INI.mk .SOURCE_FILE [[], []] (some 1) [([], 1)]).save_outs 0 0 = some [] ∧
    (INI.mk .SOURCE_FILE [[], []] (some 1) [([], 1)]).save 0 true 0 = some (true, []) :=
  ⟨by decide, ⟨by decide, by decide, by decide, by decide, by intro p h; cases h; decide⟩,
    by decide, by decide, by decide, by decide, by decide⟩

/-- C20 as amended: when section `sec` is absent, `get(sec, key, dflt)`, indexed
access and `getAs<T>` for a target type other than `fini_string_t` return
normally (`get` and `getAs` return the default) and leave the same document:
`sec` maps to a new empty body, `current` points to it, and every section that
existed keeps its body; and when `sec` is non-empty, a `save` without
`SAVE_PRUNE` writes a header for `sec` afterwards and wrote none before. -/
theorem lookup_creates_section (doc : INI) (hwf : doc.WF) (sec key dflt : fini_string_t)
    (habs : map_find doc.sections sec = none) :
    ∃ d, doc.get sec key dflt = .ret dflt d ∧
      (∀ (T : Type) (convert_to : fini_string_t → T) (df : T) (fuel : Nat),
        INI.getAs (.other T convert_to) fuel doc sec key df = some (.ret df d)) ∧
      doc.index sec = .ret doc.heap.length d ∧
      map_find d.sections sec = some doc.heap.length ∧
      d.heap[doc.heap.length]? = some [] ∧ d.current = some doc.heap.length ∧
      (∀ other p, map_find doc.sections other = some p →
        map_find d.sections other = some p ∧ d.heap[p]? = doc.heap[p]?) ∧
      (sec ≠ [] → ∀ (SF : Int) (saveFlags : Nat),
        has_flag (INI.save_flags SF saveFlags) SAVE_PRUNE = false →
        ∃ outs outs', doc.save_outs SF saveFlags = some outs ∧
          d.save_outs SF saveFlags = some outs' ∧
          INI.out_t.section_line sec ∉ outs ∧ INI.out_t.section_line sec ∈ outs') := by
  have hsel := select_absent doc sec habs
  have hnew : map_find (map_assign doc.sections sec doc.heap.length) sec =
      some doc.heap.length := map_find_assign_same _ _ _
  refine ⟨INI.mk doc.source (doc.heap ++ [[]]) (some doc.heap.length)
    (map_assign doc.sections sec doc.heap.length), ?_, ?_, ?_, hnew, by simp, rfl, ?_, ?_⟩
  · simp [INI.get, hsel, Outcome.bind, INI.get_key, INI.deref, map_find]
  · intro T convert_to df fuel
    simp [INI.getAs, hsel, Outcome.bind, INI.getAs_key, INI.deref, map_find]
  · simp [INI.index, hsel, Outcome.bind]
  · intro other p ho
    have hne : other ≠ sec := by
      intro h
      rw [h, habs] at ho
      cases ho
    refine ⟨by rw [map_find_assign_other _ _ _ _ hne]; exact ho, ?_⟩
    exact List.getElem?_append_left (hwf.sections_live _ (map_find_some_mem _ _ _ ho))
  · intro hne SF saveFlags hnp
    obtain ⟨outs, h1, _, hmem⟩ := mem_save_outs doc hwf SF saveFlags
    obtain ⟨outs', h1', _, hmem'⟩ := mem_save_outs _ (wf_create doc sec hwf) SF saveFlags
    refine ⟨outs, outs', h1, h1', ?_, ?_⟩
    · intro hin
      obtain ⟨n, p, ks, hsec, _, ho⟩ := (hmem _).mp hin
      obtain ⟨hn, _, _⟩ := (section_line_mem_save_section _ _ _ _).mp ho
      rw [← hn, habs] at hsec
      cases hsec
    · refine (hmem' _).mpr ⟨sec, doc.heap.length, [], hnew, by simp, ?_⟩
      exact (section_line_mem_save_section _ _ _ _).mpr ⟨rfl, hne, by simp [hnp]⟩

/-- C20 as amended, on the lookup of the absent section `B` in `doc_A`. -/
theorem lookup_creates_section_witness :
    doc_A.WF ∧ map_find doc_A.sections ['B'] = none ∧
    doc_A.get ['B'] ['k'] ['d'] =
      .ret ['d'] (INI.mk .SOURCE_FILE [[], [], []] (some 2) [([], 0), (['A'], 1), (['B'], 2)]) ∧
    doc_A.save 0 true 0 = some (true, "[A]\n".toList) ∧
    (INI.mk .SOURCE_FILE [[], [], []] (some 2) [([], 0), (['A'], 1), (['B'], 2)]).save 0 true 0 =
      some (true, "[A]\n[B]\n".toList) ∧
    ∃ d, doc_A.get ['B'] ['k'] ['d'] = .ret ['d'] d ∧
      (∀ (T : Type) (convert_to : fini_string_t → T) (df : T) (fuel : Nat),
        INI.getAs (.other T convert_to) fuel doc_A ['B'] ['k'] df = some (.ret df d)) ∧
      doc_A.index ['B'] = .ret doc_A.heap.length d ∧
      map_find d.sections ['B'] = some doc_A.heap.length ∧
      d.heap[doc_A.heap.length]? = some [] ∧ d.current = some doc_A.heap.length ∧
      (∀ other p, map_find doc_A.sections other = some p →
        map_find d.sections other = some p ∧ d.heap[p]? = doc_A.heap[p]?) ∧
      ((['B'] : fini_string_t) ≠ [] → ∀ (SF : Int) (saveFlags : Nat),
        has_flag (INI.save_flags SF saveFlags) SAVE_PRUNE = false →
        ∃ outs outs', doc_A.save_outs SF saveFlags = some outs ∧
          d.save_outs SF saveFlags = some outs' ∧
          INI.out_t.section_line ['B'] ∉ outs ∧ INI.out_t.section_line ['B'] ∈ outs') :=
  have hwf : doc_A.WF :=
    ⟨by decide, by decide, by decide, by decide, by intro p h; cases h; decide⟩
  ⟨hwf, by decide, by decide, by decide, by decide,
    lookup_creates_section doc_A hwf ['B'] ['k'] ['d'] (by decide)⟩

/-! ## Sequences of calls -/

theorem remove_eq (d : INI) (name : fini_string_t) :
    d.remove name = .ret () (INI.mk d.source d.heap none (map_erase d.sections name)) := by
  cases hf : map_find d.sections name with
  | some p => simp [INI.remove, INI.select, hf, Outcome.bind]
  | none => simp [INI.remove, INI.select, hf, Outcome.bind, map_erase_absent _ _ hf]

theorem create_doc (d d' : INI) (name : fini_string_t) (h : (d.create name).doc? = some d') :
    d' = d ∨ d' = INI.mk d.source (d.heap ++ [[]]) (some d.heap.length)
      (map_assign d.sections name d.heap.length) := by
  unfold INI.create at h
  split at h
  · simp only [Outcome.doc?, Option.some.injEq] at h
    exact Or.inl h.symm
  · simp only [Outcome.doc?, Option.some.injEq] at h
    exact Or.inr h.symm

theorem select_doc (d d' : INI) (name : fini_string_t) (noCreate : Bool)
    (h : (d.select name noCreate).doc? = some d') :
    d' = d ∨ (∃ p, map_find d.sections name = some p ∧ d' = { d with current := some p }) ∨
      d' = INI.mk d.source (d.heap ++ [[]]) (some d.heap.length)
        (map_assign d.sections name d.heap.length) := by
  cases hf : map_find d.sections name with
  | some p =>
    simp only [INI.select, hf, Outcome.doc?, Option.some.injEq] at h
    exact Or.inr (Or.inl ⟨p, rfl, h.symm⟩)
  | none =>
    cases noCreate with
    | true =>
      simp [INI.select, hf, Outcome.doc?] at h
      exact Or.inl h.symm
    | false =>
      rw [select_absent d name hf] at h
      simp only [Outcome.doc?, Option.some.injEq] at h
      exact Or.inr (Or.inr h.symm)

theorem set_key_doc (d d' : INI) (key value : fini_string_t)
    (h : (d.set_key key value).doc? = some d') :
    ∃ p ks, d.current = some p ∧ d.heap[p]? = some ks ∧
      d' = { d with heap := d.heap.set p (map_assign ks key value) } := by
  unfold INI.set_key at h
  cases hc : d.current with
  | none => rw [hc] at h; cases h
  | some p =>
    rw [hc] at h
    cases hks : d.heap[p]? with
    | none => simp [hks, Outcome.doc?] at h
    | some ks =>
      simp only [hks, Outcome.doc?, Option.some.injEq] at h
      exact ⟨p, ks, rfl, hks, by rw [← h]⟩

theorem get_key_doc (d d' : INI) (key dflt : fini_string_t)
    (h : (d.get_key key dflt).doc? = some d') : d' = d := by
  unfold INI.get_key at h
  cases hd : d.deref d.current with
  | none => rw [hd] at h; cases h
  | some ks =>
    rw [hd] at h
    cases hk : map_find ks key with
    | none => simp [hk, Outcome.doc?] at h; exact h.symm
    | some v => simp [hk, Outcome.doc?] at h; exact h.symm

theorem after_preserves (P : INI → Prop) (ok : call → Prop)
    (hcreate : ∀ d name, P d → P (INI.mk d.source (d.heap ++ [[]]) (some d.heap.length)
      (map_assign d.sections name d.heap.length)))
    (hpoint : ∀ d name p, P d → map_find d.sections name = some p →
      P { d with current := some p })
    (hassign : ∀ d p ks k v, P d → d.current = some p → d.heap[p]? = some ks →
      P { d with heap := d.heap.set p (map_assign ks k v) })
    (hremove : ∀ name, ok (.remove name) → ∀ d, P d →
      P (INI.mk d.source d.heap none (map_erase d.sections name)))
    (hclear : ok .clear → ∀ d, P d → P { d with sections := [] })
    (c : call) (hok : ok c) (d d' : INI) (hP : P d) (h : d.after c = some d') : P d' := by
  have hcr : ∀ (d d' : INI) name, P d → (d.create name).doc? = some d' → P d' := by
    intro d d' name hd hh
    rcases create_doc d d' name hh with h1 | h1
    · rw [h1]; exact hd
    · rw [h1]; exact hcreate d name hd
  have hsel : ∀ (d d' : INI) name nc, P d → (d.select name nc).doc? = some d' → P d' := by
    intro d d' name nc hd hh
    rcases select_doc d d' name nc hh with h1 | ⟨p, hp, h1⟩ | h1
    · rw [h1]; exact hd
    · rw [h1]; exact hpoint d name p hd hp
    · rw [h1]; exact hcreate d name hd
  have hsk : ∀ (d d' : INI) k v, P d → (d.set_key k v).doc? = some d' → P d' := by
    intro d d' k v hd hh
    obtain ⟨p, ks, hc, hks, h1⟩ := set_key_doc d d' k v hh
    rw [h1]
    exact hassign d p ks k v hd hc hks
  cases c with
  | create sec => exact hcr d d' sec hP h
  | remove sec =>
    simp only [INI.after, remove_eq, Outcome.doc?, Option.some.injEq] at h
    rw [← h]
    exact hremove sec hok d hP
  | select sec nc => exact hsel d d' sec nc hP h
  | clear =>
    simp only [INI.after, INI.clear, Outcome.doc?, Option.some.injEq] at h
    rw [← h]
    exact hclear hok d hP
  | get sec key dflt =>
    simp only [INI.after, INI.get] at h
    rcases doc_bind _ _ _ _ _ h with ⟨e, he⟩ | ⟨a, d1, he, h1⟩
    · exact hsel d d' sec false hP (by rw [he]; rfl)
    · rw [get_key_doc d1 d' key dflt h1]
      exact hsel d d1 sec false hP (by rw [he]; rfl)
  | get_key key dflt =>
    rw [get_key_doc d d' key dflt h]
    exact hP
  | set sec key value =>
    simp only [INI.after, INI.set] at h
    have hmid : ∀ dm, (((d.select sec false).bind fun found d =>
        if !found then d.create sec else .ret () d)).doc? = some dm → P dm := by
      intro dm hm
      rcases doc_bind _ _ _ _ _ hm with ⟨e', he'⟩ | ⟨b, d2, he', h2⟩
      · exact hsel d dm sec false hP (by rw [he']; rfl)
      · have hs2 := hsel d d2 sec false hP (by rw [he']; rfl)
        cases b with
        | true => simp [Outcome.doc?] at h2; rw [← h2]; exact hs2
        | false => exact hcr d2 dm sec hs2 (by simpa using h2)
    rcases doc_bind _ _ _ _ _ h with ⟨e, he⟩ | ⟨a, d1, he, h1⟩
    · exact hmid d' (by rw [he]; rfl)
    · exact hsk d1 d' key value (hmid d1 (by rw [he]; rfl)) h1
  | set_key key value => exact hsk d d' key value hP h
  | index sec =>
    simp only [INI.after, INI.index] at h
    rcases doc_bind _ _ _ _ _ h with ⟨e, he⟩ | ⟨a, d1, he, h1⟩
    · exact hsel d d' sec false hP (by rw [he]; rfl)
    · have hd1 := hsel d d1 sec false hP (by rw [he]; rfl)
      cases hc : d1.current with
      | none => simp [hc, Outcome.doc?] at h1
      | some p =>
        simp [hc, Outcome.doc?] at h1
        rw [← h1]
        exact hd1

theorem after_all_preserves (P : INI → Prop) (ok : call → Prop)
    (hstep : ∀ c, ok c → ∀ d d', P d → d.after c = some d' → P d') (cs : List call) :
    ∀ d d', (∀ c ∈ cs, ok c) → P d → d.after_all cs = some d' → P d' := by
  induction cs with
  | nil =>
    intro d d' _ hP h
    simp only [INI.after_all, Option.some.injEq] at h
    rw [← h]
    exact hP
  | cons c rest ih =>
    intro d d' hok hP h
    simp only [INI.after_all] at h
    cases hc : d.after c with
    | none => rw [hc] at h; cases h
    | some d1 =>
      rw [hc] at h
      exact ih d1 d' (fun x hx => hok x (List.mem_cons_of_mem _ hx))
        (hstep c (hok c (List.mem_cons_self _ _)) d d1 hP hc) h

/-- C16 as stated fails: `clear` is among the calls the claim admits, and after
`clear()` on a new document no section is left, while `current` still points
to the object that was the body of the unnamed section. -/
theorem cursor_lost_by_clear :
    (∀ c ∈ [call.clear], c.is_remove = false) ∧
    fresh.after_all [call.clear] = some doc_cleared ∧
    doc_cleared.current = some 0 ∧ doc_cleared.sections = [] ∧
    ¬ doc_cleared.cursor_in_sections := by
  refine ⟨by decide, by decide, rfl, rfl, ?_⟩
  rintro ⟨name, p, _, h, _⟩
  cases h

/-- C16 as amended: in every state reached from a new document by calls of
`create`, `select`, the qualified and unqualified `get` and `set` and indexed
access (neither `remove` nor `clear`), whether they return or throw, `current`
points to the body of a section present in the section map. -/
theorem cursor_invariant (cs : List call)
    (hcs : ∀ c ∈ cs, c.is_remove = false ∧ c.is_clear = false) (d : INI)
    (h : fresh.after_all cs = some d) : d.cursor_in_sections := by
  have hinv : d.cursor_in_sections ∧ ∀ x ∈ d.sections, x.2 < d.heap.length := by
    refine after_all_preserves
      (fun d => d.cursor_in_sections ∧ ∀ x ∈ d.sections, x.2 < d.heap.length)
      (fun c => c.is_remove = false ∧ c.is_clear = false) ?_ cs fresh d hcs ?_ h
    · intro c hc d1 d2 hP hstep
      refine after_preserves
        (fun d => d.cursor_in_sections ∧ ∀ x ∈ d.sections, x.2 < d.heap.length)
        (fun c => c.is_remove = false ∧ c.is_clear = false)
        ?_ ?_ ?_ ?_ ?_ c hc d1 d2 hP hstep
      · intro d0 name ⟨_, hlive⟩
        refine ⟨⟨name, d0.heap.length, rfl, map_find_assign_same _ _ _, by simp⟩, ?_⟩
        intro x hx
        simp only [List.length_append, List.length_singleton]
        rcases mem_map_assign _ _ _ x hx with h1 | h1
        · subst h1
          exact Nat.lt_succ_self _
        · exact Nat.lt_succ_of_lt (hlive x h1)
      · intro d0 name p ⟨_, hlive⟩ hp
        exact ⟨⟨name, p, rfl, hp, hlive _ (map_find_some_mem _ _ _ hp)⟩, hlive⟩
      · intro d0 p ks k v ⟨⟨name, q, hq, hf, hlt⟩, hlive⟩ _ _
        refine ⟨⟨name, q, hq, hf, by simpa using hlt⟩, ?_⟩
        intro x hx
        simp only [List.length_set]
        exact hlive x hx
      · intro name hbad
        simp [call.is_remove] at hbad
      · intro hbad
        simp [call.is_clear] at hbad
    · exact ⟨⟨[], 0, rfl, by decide, by decide⟩, by decide⟩
  exact hinv.1

/-- C16 as amended, on a sequence with a lookup that creates a section and a `set`
that throws. -/
theorem cursor_invariant_witness :
    (∀ c ∈ [call.create ['A'], .set_key ['k'] ['v'], .get ['B'] ['k'] ['d'],
        .set ['C'] ['x'] ['y'], .select ['A'] true, .index []],
      c.is_remove = false ∧ c.is_clear = false) ∧
    fresh.after_all [call.create ['A'], .set_key ['k'] ['v'], .get ['B'] ['k'] ['d'],
        .set ['C'] ['x'] ['y'], .select ['A'] true, .index []] =
      some (INI.mk .SOURCE_FILE [[], [(['k'], ['v'])], [], []] (some 0)
        [([], 0), (['A'], 1), (['B'], 2), (['C'], 3)]) ∧
    (INI.mk .SOURCE_FILE [[], [(['k'], ['v'])], [], []] (some 0)
      [([], 0), (['A'], 1), (['B'], 2), (['C'], 3)]).cursor_in_sections :=
  ⟨by decide, by decide,
    cursor_invariant [call.create ['A'], .set_key ['k'] ['v'], .get ['B'] ['k'] ['d'],
      .set ['C'] ['x'] ['y'], .select ['A'] true, .index []] (by decide) _ (by decide)⟩

/-! ## Deep copy -/

theorem copy_keys_eq (ks : keys_t) :
    ∀ (d : INI) (c : Nat) (acc : keys_t), d.current = some c → d.heap[c]? = some acc →
      ordered (acc ++ ks) →
      INI.copy_keys d ks = .ret () (INI.mk d.source (d.heap.set c (acc ++ ks)) d.current d.sections) := by
  induction ks with
  | nil =>
    intro d c acc _ hacc _
    simp [INI.copy_keys, heap_set_same _ _ _ hacc]
  | cons x rest ih =>
    intro d c acc hc hacc hord
    obtain ⟨k, v⟩ := x
    have hlen : c < d.heap.length := (List.getElem?_eq_some.mp hacc).1
    have hlast : map_assign acc k v = acc ++ [(k, v)] := by
      apply map_assign_last
      intro y hy
      exact (List.pairwise_append.mp hord).2.2 y hy (k, v) (List.mem_cons_self _ _)
    simp only [INI.copy_keys, INI.set_key, hc, hacc, Outcome.bind, hlast]
    rw [ih (INI.mk d.source (d.heap.set c (acc ++ [(k, v)])) (some c) d.sections) c
      (acc ++ [(k, v)]) rfl (by simp [List.getElem?_set_self hlen]) (by simpa using hord)]
    simp [List.set_set]

theorem copy_sections_eq (h0 : List keys_t) (T : sections_t) :
    ∀ (d : INI), d.apart_from h0 →
      (∀ x ∈ T, x.2 < h0.length ∧ ordered (h0[x.2]?.getD [])) →
      (d.sections.map Prod.fst ++ T.map Prod.fst).Pairwise (fun a b => str_lt a b = true) →
      (∀ x ∈ d.sections, x.2 < d.heap.length) →
      ∃ d', INI.copy_sections d T = .ret () d' ∧
        d'.mapping = d.mapping ++ T.map (fun x => (x.1, h0[x.2]?)) ∧
        d'.apart_from h0 ∧ d'.source = d.source ∧
        (∀ x ∈ d'.sections, x.2 < d'.heap.length) := by
  induction T with
  | nil =>
    intro d hap _ _ hlive
    exact ⟨d, rfl, by simp, hap, rfl, hlive⟩
  | cons x T' ih =>
    intro d hap hT hpw hlive
    obtain ⟨name, p⟩ := x
    obtain ⟨hp, hpord⟩ := hT (name, p) (List.mem_cons_self _ _)
    obtain ⟨hlen, hsame, hsecs, hcur⟩ := hap
    have hlt : ∀ y ∈ d.sections, str_lt y.1 name = true := by
      intro y hy
      exact (List.pairwise_append.mp hpw).2.2 y.1 (List.mem_map_of_mem _ hy) name (by simp)
    have habs : map_find d.sections name = none :=
      (map_find_none_iff _ _).mpr (fun y hy => str_lt_ne _ _ (hlt y hy))
    have hsec : map_assign d.sections name d.heap.length = d.sections ++ [(name, d.heap.length)] :=
      map_assign_last _ _ _ hlt
    have hks : h0[p]? = some (h0[p]?.getD []) := by simp [List.getElem?_eq_getElem hp]
    have hread : (d.heap ++ [[]])[p]? = some (h0[p]?.getD []) := by
      rw [List.getElem?_append_left (Nat.lt_of_lt_of_le hp hlen), hsame p hp, ← hks]
    simp only [INI.copy_sections, select_absent d name habs, Outcome.bind, hread, hsec]
    rw [copy_keys_eq (h0[p]?.getD [])
      (INI.mk d.source (d.heap ++ [[]]) (some d.heap.length) (d.sections ++ [(name, d.heap.length)]))
      d.heap.length [] rfl (by simp) (by simpa using hpord)]
    simp only [List.nil_append, set_append_length]
    obtain ⟨d', hrun, hmap, hap', hsrc, hlive'⟩ := ih
      (INI.mk d.source (d.heap ++ [h0[p]?.getD []]) (some d.heap.length)
        (d.sections ++ [(name, d.heap.length)]))
      ⟨by simp only [List.length_append, List.length_singleton]; omega,
        fun q hq => by
          rw [List.getElem?_append_left (Nat.lt_of_lt_of_le hq hlen)]
          exact hsame q hq,
        fun y hy => by
          rcases List.mem_append.mp hy with h1 | h1
          · exact hsecs y h1
          · simp only [List.mem_singleton] at h1
            subst h1
            exact hlen,
        fun q hq => by
          simp only [Option.some.injEq] at hq
          subst hq
          exact hlen⟩
      (fun y hy => hT y (List.mem_cons_of_mem _ hy))
      (by simpa using hpw)
      (by
        intro y hy
        simp only [List.length_append, List.length_singleton]
        rcases List.mem_append.mp hy with h1 | h1
        · exact Nat.lt_succ_of_lt (hlive y h1)
        · simp only [List.mem_singleton] at h1
          subst h1
          exact Nat.lt_succ_self _)
    refine ⟨d', hrun, ?_, hap', hsrc, hlive'⟩
    rw [hmap]
    simp only [INI.mapping, List.map_append, List.map_cons, List.map_nil, List.append_assoc,
      List.singleton_append, List.getElem?_concat_length]
    rw [← hks]
    congr 1
    apply List.map_congr_left
    intro y hy
    rw [List.getElem?_append_left (hlive y hy)]

theorem apart_from_after (h0 : List keys_t) (c : call) (d d' : INI) (hap : d.apart_from h0)
    (h : d.after c = some d') : d'.apart_from h0 := by
  refine after_preserves (fun d => d.apart_from h0) (fun _ => True) ?_ ?_ ?_ ?_ ?_ c trivial
    d d' hap h
  · intro d0 name ⟨hlen, hsame, hsecs, _⟩
    refine ⟨by simp only [List.length_append, List.length_singleton]; omega, ?_, ?_, ?_⟩
    · intro q hq
      rw [List.getElem?_append_left (Nat.lt_of_lt_of_le hq hlen)]
      exact hsame q hq
    · intro x hx
      rcases mem_map_assign _ _ _ x hx with h1 | h1
      · subst h1
        exact hlen
      · exact hsecs x h1
    · intro q hq
      simp only [Option.some.injEq] at hq
      subst hq
      exact hlen
  · intro d0 name p ⟨hlen, hsame, hsecs, _⟩ hp
    refine ⟨hlen, hsame, hsecs, ?_⟩
    intro q hq
    simp only [Option.some.injEq] at hq
    subst hq
    exact hsecs _ (map_find_some_mem _ _ _ hp)
  · intro d0 p ks k v ⟨hlen, hsame, hsecs, hcur⟩ hp _
    refine ⟨by simpa using hlen, ?_, hsecs, hcur⟩
    intro q hq
    have hne : p ≠ q := by
      have := hcur p hp
      omega
    simp only
    rw [List.getElem?_set_ne hne]
    exact hsame q hq
  · intro name _ d0 ⟨hlen, hsame, hsecs, _⟩
    refine ⟨hlen, hsame, ?_, ?_⟩
    · intro x hx
      exact hsecs x (List.mem_filter.mp hx).1
    · intro q hq
      cases hq
  · intro _ d0 ⟨hlen, hsame, _, hcur⟩
    exact ⟨hlen, hsame, fun x hx => absurd hx (List.not_mem_nil _), hcur⟩

/-- C14: copy-constructing from a document returns normally with a document of
the same source and the same mapping (the same section names, each with the same
keys and values); every body of the copy is a new object, none of the objects of
the original is touched by the construction, and none is touched by any later
sequence of calls on the copy, so the mapping of the original stays as it was. -/
theorem deep_copy (src : INI) (hwf : src.WF) :
    ∃ d, src.copy = .ret () d ∧ d.mapping = src.mapping ∧ d.source = src.source ∧
      (∀ x ∈ d.sections, src.heap.length ≤ x.2 ∧ x.2 < d.heap.length) ∧
      (∀ q, q < src.heap.length → d.heap[q]? = src.heap[q]?) ∧
      (∀ (cs : List call) (d' : INI), d.after_all cs = some d' →
        (∀ q, q < src.heap.length → d'.heap[q]? = src.heap[q]?) ∧
        (INI.mk src.source d'.heap src.current src.sections).mapping = src.mapping) := by
  obtain ⟨d, hrun, hmap, hap, hsrc, hlive⟩ := copy_sections_eq src.heap src.sections
    (INI.mk src.source src.heap none [])
    ⟨Nat.le_refl _, fun _ _ => rfl, fun x hx => absurd hx (List.not_mem_nil _),
      fun p hp => by cases hp⟩
    (fun x hx => by
      have hl := hwf.sections_live x hx
      refine ⟨hl, hwf.keys_ordered _ (List.mem_iff_getElem?.mpr ⟨x.2, ?_⟩)⟩
      simp [List.getElem?_eq_getElem hl])
    (by
      have := (List.pairwise_map (f := Prod.fst) (R := fun a b => str_lt a b = true)).mpr
        hwf.sections_ordered
      simpa using this)
    (fun x hx => absurd hx (List.not_mem_nil _))
  refine ⟨d, hrun, by simpa [INI.mapping] using hmap, hsrc,
    fun x hx => ⟨hap.2.2.1 x hx, hlive x hx⟩, hap.2.1, ?_⟩
  intro cs d' hcs
  have hap' : d'.apart_from src.heap :=
    after_all_preserves (fun d => d.apart_from src.heap) (fun _ => True)
      (fun c _ d1 d2 h1 h2 => apart_from_after src.heap c d1 d2 h1 h2) cs d d'
      (fun _ _ => trivial) hap hcs
  refine ⟨hap'.2.1, ?_⟩
  simp only [INI.mapping]
  apply List.map_congr_left
  intro x hx
  rw [hap'.2.1 x.2 (hwf.sections_live x hx)]

/-- C14 on `doc_kv`: the copy has the bodies at the new addresses 2 and 3, and
after `set("A", "k", "w")`, `create("Z")` and `remove("")` on the copy the objects of
`doc_kv` are as before. -/
theorem deep_copy_witness :
    doc_kv.WF ∧
    doc_kv.copy = .ret () (INI.mk .SOURCE_FILE
      [[(['g'], ['1'])], [(['k'], ['v'])], [(['g'], ['1'])], [(['k'], ['v'])]] (some 3)
      [([], 2), (['A'], 3)]) ∧
    (INI.mk .SOURCE_FILE
      [[(['g'], ['1'])], [(['k'], ['v'])], [(['g'], ['1'])], [(['k'], ['v'])]] (some 3)
      [([], 2), (['A'], 3)]).after_all
        [call.set ['A'] ['k'] ['w'], .create ['Z'], .remove []] =
      some (INI.mk .SOURCE_FILE
        [[(['g'], ['1'])], [(['k'], ['v'])], [(['g'], ['1'])], [(['k'], ['w'])], []] none
        [(['A'], 3), (['Z'], 4)]) ∧
    ∃ d, doc_kv.copy = .ret () d ∧ d.mapping = doc_kv.mapping ∧ d.source = doc_kv.source ∧
      (∀ x ∈ d.sections, doc_kv.heap.length ≤ x.2 ∧ x.2 < d.heap.length) ∧
      (∀ q, q < doc_kv.heap.length → d.heap[q]? = doc_kv.heap[q]?) ∧
      (∀ (cs : List call) (d' : INI), d.after_all cs = some d' →
        (∀ q, q < doc_kv.heap.length → d'.heap[q]? = doc_kv.heap[q]?) ∧
        (INI.mk doc_kv.source d'.heap doc_kv.current doc_kv.sections).mapping =
          doc_kv.mapping) :=
  have hwf : doc_kv.WF :=
    ⟨by decide, by decide, by decide, by decide, by intro p h; cases h; decide⟩
  ⟨hwf, by decide, by decide, deep_copy doc_kv hwf⟩

end FeatherINI
